import Mathlib

/-!
# LCM: subscription registry and generated wire codec

A shallow embedding of the parts of `lcm/lcm.c`, `lcmgen/emit_c.c` and
`lcmgen/emit_cpp.c` that the properties below are about.

* Pointers to `lcm_subscription_t` records are natural numbers (indices into a
  heap of records); `lcm_subscribe` allocates the next index.
* A `GPtrArray` keeps, besides its `len` live slots, the slots above `len`:
  GLib never clears them, and `lcm_dispatch_handlers` reads them.
* Channel names and patterns are lists of characters.
* `regcomp`/`regexec` are the C library's; they are modelled for the usual
  operators of POSIX extended regular expressions.
-/

namespace Lcm

/-! ## POSIX extended regular expressions (`<regex.h>`) -/

/-- Compiled extended regular expression (what `regcomp` leaves in a `regex_t`). -/
inductive Regex where
  | empty
  | chr (c : Char)
  | any
  | set (neg : Bool) (ranges : List (Char × Char))
  | bol
  | eol
  | seq (a b : Regex)
  | alt (a b : Regex)
  | star (a : Regex)
  deriving DecidableEq, Repr

/-- Items of a bracket expression, up to and including the closing `]`. -/
def parseBracket : Nat → List Char → List (Char × Char) → Option (List (Char × Char) × List Char)
  | 0, _, _ => none
  | _, [], _ => none
  | fuel + 1, c :: rest, acc =>
    if c = ']' then some (acc.reverse, rest)
    else match rest with
      | '-' :: hi :: rest2 =>
        if hi = ']' then parseBracket fuel rest ((c, c) :: acc)
        else parseBracket fuel rest2 ((c, hi) :: acc)
      | _ => parseBracket fuel rest ((c, c) :: acc)

/-- Duplication symbols `*`, `+`, `?` following an expression. -/
def parseDups (a : Regex) : List Char → Regex × List Char
  | [] => (a, [])
  | c :: rest =>
    if c = '*' then parseDups (Regex.star a) rest
    else if c = '+' then parseDups (Regex.seq a (Regex.star a)) rest
    else if c = '?' then parseDups (Regex.alt a Regex.empty) rest
    else (a, c :: rest)

mutual
/-- Alternation: `extended_reg_exp : ERE_branch | extended_reg_exp '|' ERE_branch`. -/
def parseAlt : Nat → List Char → Option (Regex × List Char)
  | 0, _ => none
  | fuel + 1, cs =>
    match parseBranch fuel cs with
    | none => none
    | some (b, rest) =>
      match rest with
      | '|' :: rest2 =>
        match parseAlt fuel rest2 with
        | none => none
        | some (a, rest3) => some (Regex.alt b a, rest3)
      | _ => some (b, rest)
/-- Concatenation: `ERE_branch : ERE_expression | ERE_branch ERE_expression`. -/
def parseBranch : Nat → List Char → Option (Regex × List Char)
  | 0, _ => none
  | fuel + 1, cs =>
    match cs with
    | [] => some (Regex.empty, [])
    | c :: _ =>
      if c = '|' ∨ c = ')' then some (Regex.empty, cs)
      else
        match parseAtom fuel cs with
        | none => none
        | some (a, rest) =>
          match parseDups a rest with
          | (p, rest2) =>
            match parseBranch fuel rest2 with
            | none => none
            | some (b, rest3) => some (Regex.seq p b, rest3)
/-- One `ERE_expression` without its duplication symbols. -/
def parseAtom : Nat → List Char → Option (Regex × List Char)
  | 0, _ => none
  | _, [] => none
  | fuel + 1, c :: rest =>
    if c = '(' then
      match parseAlt fuel rest with
      | some (r, ')' :: rest2) => some (r, rest2)
      | _ => none
    else if c = '[' then
      match rest with
      | '^' :: rest2 =>
        match parseBracket rest2.length rest2 [] with
        | some (rs, rest3) => some (Regex.set true rs, rest3)
        | none => none
      | _ =>
        match parseBracket rest.length rest [] with
        | some (rs, rest3) => some (Regex.set false rs, rest3)
        | none => none
    else if c = '.' then some (Regex.any, rest)
    else if c = '^' then some (Regex.bol, rest)
    else if c = '$' then some (Regex.eol, rest)
    else if c = Char.ofNat 92 then
      match rest with
      | d :: rest2 => some (Regex.chr d, rest2)
      | [] => none
    else if c = '*' ∨ c = '+' ∨ c = '?' ∨ c = Char.ofNat 123 then none
    else some (Regex.chr c, rest)
end

/-- Model of `regcomp (&preg, pattern, REG_NOSUB | REG_EXTENDED)`: `none` is a non-zero status.
The C library is not part of the sources. The model covers literals, `.`, bracket lists
and ranges, groups, `|`, the anchors, and `*`, `+`, `?` after an expression; interval
expressions, character classes, a duplication symbol with nothing before it and an
unmatched `)` are outside it. -/
def regcomp (pattern : List Char) : Option Regex :=
  match parseAlt (4 * pattern.length + 4) pattern with
  | some (r, []) => some r
  | _ => none

/-- End positions of zero or more repetitions that each make progress. -/
def starEnds (f : Nat → List Nat) : Nat → Nat → List Nat
  | 0, pos => [pos]
  | fuel + 1, pos => pos :: ((f pos).filter (fun q => pos < q)).flatMap (starEnds f fuel)

/-- Positions at which a match of the expression that starts at `pos` can end. -/
def Regex.ends (input : List Char) : Regex → Nat → List Nat
  | Regex.empty, pos => [pos]
  | Regex.chr c, pos => if input.get? pos = some c then [pos + 1] else []
  | Regex.any, pos => if pos < input.length then [pos + 1] else []
  | Regex.set neg rs, pos =>
    match input.get? pos with
    | some c => if (rs.any (fun r => decide (r.1 ≤ c) && decide (c ≤ r.2))) != neg then [pos + 1] else []
    | none => []
  | Regex.bol, pos => if pos = 0 then [pos] else []
  | Regex.eol, pos => if pos = input.length then [pos] else []
  | Regex.seq a b, pos => (Regex.ends input a pos).flatMap (fun q => Regex.ends input b q)
  | Regex.alt a b, pos => Regex.ends input a pos ++ Regex.ends input b pos
  | Regex.star a, pos => starEnds (fun q => Regex.ends input a q) input.length pos

/-- Model of `regexec (&preg, string, 0, NULL, 0)`: 0 when some substring of
`string` matches, `REG_NOMATCH` (1) otherwise. -/
def regexec (preg : Regex) (string : List Char) : Int :=
  if (List.range (string.length + 1)).any (fun s => !(preg.ends string s).isEmpty) then 0 else 1

/-! ## GLib pointer arrays (`GPtrArray`) -/

/-- A `GPtrArray` of subscription pointers: `elems` are the slots `pdata[0 .. len)`,
`stale` the slots from `pdata[len]` on, which still hold what was last written there. -/
structure GPtrArray where
  elems : List Nat
  stale : List Nat
  deriving DecidableEq, Repr

/-- The field `len`. -/
def GPtrArray.len (a : GPtrArray) : Nat := a.elems.length

/-- All slots written so far, `pdata[0 ..]`. -/
def GPtrArray.slots (a : GPtrArray) : List Nat := a.elems ++ a.stale

/-- Model of `g_ptr_array_new ()`. -/
def g_ptr_array_new : GPtrArray := ⟨[], []⟩

/-- Model of `g_ptr_array_add`: writes slot `len` and increments `len`. -/
def g_ptr_array_add (a : GPtrArray) (data : Nat) : GPtrArray :=
  ⟨a.elems ++ [data], a.stale.drop 1⟩

/-- Model of the macro `g_ptr_array_index (a, i)`, which is `a->pdata[i]` without a bounds
check; `none` only for a slot that was never written. -/
def g_ptr_array_index (a : GPtrArray) (i : Nat) : Option Nat := a.slots.get? i

/-- Model of `g_ptr_array_remove`: removes the first occurrence, moving the following
elements down by one (the old last slot keeps its value); tells whether it was found. -/
def g_ptr_array_remove (a : GPtrArray) (data : Nat) : GPtrArray × Bool :=
  if data ∈ a.elems then
    (⟨a.elems.erase data, a.elems.getLast?.toList ++ a.stale⟩, true)
  else (a, false)

/-- Model of `g_ptr_array_remove_fast`: overwrites the first occurrence with the last
element and decrements `len` (the old last slot keeps its value). -/
def g_ptr_array_remove_fast (a : GPtrArray) (data : Nat) : GPtrArray × Bool :=
  if data ∈ a.elems then
    match a.elems.getLast? with
    | some last => (⟨(a.elems.set (a.elems.indexOf data) last).dropLast, last :: a.stale⟩, true)
    | none => (a, false)
  else (a, false)

/-! ## The subscription registry (`lcm/lcm.c`) -/

/-- The record `struct _lcm_subscription_t`. The fields `handler` and `userdata` are
represented by the pointer to the record: what a handler does is given by `Handlers`. -/
structure lcm_subscription_t where
  channel : List Char
  preg : Regex
  callback_scheduled : Bool
  marked_for_deletion : Bool
  deriving DecidableEq, Repr

/-- A record after `memset (h, 0, sizeof (lcm_subscription_t))`. -/
def zeroed : lcm_subscription_t := ⟨[], Regex.empty, false, false⟩

/-- The registry part of `struct _lcm_t`, with the memory it points to: `heap` holds the
subscription records by pointer and `freed` lists the pointers passed to `lcm_handler_free`,
in call order. `handlers_map` is the `GHashTable` from channel name to handler array. -/
structure lcm_t where
  handlers_all : GPtrArray
  handlers_map : List (List Char × GPtrArray)
  heap : List lcm_subscription_t
  freed : List Nat
  deriving DecidableEq, Repr

/-- The registry of a freshly created `lcm_t` (`lcm_create`). -/
def lcm_create_registry : lcm_t := ⟨g_ptr_array_new, [], [], []⟩

/-- The record a pointer refers to. -/
def lcm_t.deref (lcm : lcm_t) (h : Nat) : lcm_subscription_t := lcm.heap.getD h zeroed

/-- The array stored in `handlers_map` under a channel name (`g_hash_table_lookup`). -/
def lcm_t.handlers_of (lcm : lcm_t) (channel : List Char) : GPtrArray :=
  (lcm.handlers_map.lookup channel).getD g_ptr_array_new

/-- Model of `lcm_handler_free`: the record is zeroed and released. Its assertion
`!h->callback_scheduled` is not modelled: `lcm_unsubscribe` calls the function only under
that test, and `lcm_dispatch_handlers` only after it has cleared the flag. -/
def lcm_handler_free (lcm : lcm_t) (h : Nat) : lcm_t :=
  { lcm with heap := lcm.heap.set h zeroed, freed := lcm.freed ++ [h] }

/-- Model of `is_handler_subscriber`. -/
def is_handler_subscriber (h : lcm_subscription_t) (channel_name : List Char) : Bool :=
  regexec h.preg channel_name == 0

/-- Model of `map_add_handler_callback`, applied to one entry of `handlers_map`. -/
def map_add_handler_callback (lcm : lcm_t) (h : Nat) (entry : List Char × GPtrArray) :
    List Char × GPtrArray :=
  if !is_handler_subscriber (lcm.deref h) entry.1 then entry
  else (entry.1, g_ptr_array_add entry.2 h)

/-- Model of `map_remove_handler_callback`, applied to one entry of `handlers_map`. -/
def map_remove_handler_callback (h : Nat) (entry : List Char × GPtrArray) :
    List Char × GPtrArray :=
  (entry.1, (g_ptr_array_remove_fast entry.2 h).1)

/-- Model of `lcm_subscribe`: the new handle, or `none` for `NULL`. -/
def lcm_subscribe (lcm : lcm_t) (channel : List Char) : lcm_t × Option Nat :=
  match regcomp ('^' :: channel ++ ['$']) with
  | none => (lcm, none)
  | some preg =>
    let h := lcm.heap.length
    let lcm1 : lcm_t := { lcm with heap := lcm.heap ++ [⟨channel, preg, false, false⟩] }
    let lcm2 : lcm_t := { lcm1 with handlers_all := g_ptr_array_add lcm1.handlers_all h }
    ({ lcm2 with handlers_map := lcm2.handlers_map.map (map_add_handler_callback lcm2 h) }, some h)

/-- Model of `is_handler_subscriber` with the C library function `regexec` as a parameter:
`exec preg string` is what `regexec (&preg, string, 0, NULL, 0)` returns. -/
def is_handler_subscriber_with (exec : Regex → List Char → Int) (h : lcm_subscription_t)
    (channel_name : List Char) : Bool :=
  exec h.preg channel_name == 0

/-- Model of `map_add_handler_callback` with `regexec` as a parameter. -/
def map_add_handler_callback_with (exec : Regex → List Char → Int) (lcm : lcm_t) (h : Nat)
    (entry : List Char × GPtrArray) : List Char × GPtrArray :=
  if !is_handler_subscriber_with exec (lcm.deref h) entry.1 then entry
  else (entry.1, g_ptr_array_add entry.2 h)

/-- Model of `lcm_subscribe` with the C library functions `regcomp` and `regexec` as
parameters: `comp pattern` is the `regex_t` that
`regcomp (&h->preg, pattern, REG_NOSUB | REG_EXTENDED)` fills in, or `none` when its
status `rstatus` is not 0. The result is the new handle, or `none` for `NULL`. -/
def lcm_subscribe_with (comp : List Char → Option Regex) (exec : Regex → List Char → Int)
    (lcm : lcm_t) (channel : List Char) : lcm_t × Option Nat :=
  match comp ('^' :: channel ++ ['$']) with
  | none => (lcm, none)
  | some preg =>
    let h := lcm.heap.length
    let lcm1 : lcm_t := { lcm with heap := lcm.heap ++ [⟨channel, preg, false, false⟩] }
    let lcm2 : lcm_t := { lcm1 with handlers_all := g_ptr_array_add lcm1.handlers_all h }
    ({ lcm2 with
        handlers_map := lcm2.handlers_map.map (map_add_handler_callback_with exec lcm2 h) },
      some h)

/-- Model of `lcm_unsubscribe`. -/
def lcm_unsubscribe (lcm : lcm_t) (h : Nat) : lcm_t × Int :=
  let r := g_ptr_array_remove lcm.handlers_all h
  let foundit := r.2
  if foundit then
    let lcm1 : lcm_t := { lcm with handlers_all := r.1,
                                   handlers_map := lcm.handlers_map.map (map_remove_handler_callback h) }
    if !(lcm1.deref h).callback_scheduled then (lcm_handler_free lcm1 h, 0)
    else ({ lcm1 with heap := lcm1.heap.set h { lcm1.deref h with marked_for_deletion := true } }, 0)
  else (lcm, -1)

/-- Model of `lcm_get_handlers`. -/
def lcm_get_handlers (lcm : lcm_t) (channel : List Char) : lcm_t × GPtrArray :=
  match lcm.handlers_map.lookup channel with
  | some handlers => (lcm, handlers)
  | none =>
    let handlers := lcm.handlers_all.elems.foldl
      (fun hs h => if is_handler_subscriber (lcm.deref h) channel then g_ptr_array_add hs h else hs)
      g_ptr_array_new
    ({ lcm with handlers_map := lcm.handlers_map ++ [(channel, handlers)] }, handlers)

/-- Model of `lcm_has_handlers`. -/
def lcm_has_handlers (lcm : lcm_t) (channel : List Char) : lcm_t × Int :=
  let r := lcm_get_handlers lcm channel
  if r.2.len = 0 then (r.1, 0) else (r.1, 1)

/-- A call a message handler makes on the `lcm_t` it was invoked from. -/
inductive Call where
  | subscribe (channel : List Char)
  | unsubscribe (h : Nat)
  deriving DecidableEq, Repr

/-- What is observed during a dispatch: a handler being invoked, and the calls handlers
make, with their return values. -/
inductive Event where
  | handler (h : Nat)
  | subscribe (channel : List Char) (ret : Option Nat)
  | unsubscribe (h : Nat) (ret : Int)
  deriving DecidableEq, Repr

/-- The user handlers: the calls the handler of subscription `h` makes when it is invoked
in registry state `lcm` (for the frame being dispatched). -/
abbrev Handlers := lcm_t → Nat → List Call

/-- The calls of one handler invocation, in order. -/
def run_calls (lcm : lcm_t) : List Call → lcm_t × List Event
  | [] => (lcm, [])
  | Call.subscribe channel :: rest =>
    let r := lcm_subscribe lcm channel
    let r2 := run_calls r.1 rest
    (r2.1, Event.subscribe channel r.2 :: r2.2)
  | Call.unsubscribe h :: rest =>
    let r := lcm_unsubscribe lcm h
    let r2 := run_calls r.1 rest
    (r2.1, Event.unsubscribe h r.2 :: r2.2)

/-- Writes `h->callback_scheduled`. -/
def set_callback_scheduled (lcm : lcm_t) (h : Nat) (v : Bool) : lcm_t :=
  { lcm with heap := lcm.heap.set h { lcm.deref h with callback_scheduled := v } }

/-- Body of the first loop of `lcm_dispatch_handlers`: `h->callback_scheduled = 1`. -/
def dispatch_ref (channel : List Char) (lcm : lcm_t) (i : Nat) : lcm_t :=
  match g_ptr_array_index (lcm.handlers_of channel) i with
  | some h => set_callback_scheduled lcm h true
  | none => lcm

/-- Body of the second loop of `lcm_dispatch_handlers`: call the handler unless it is
marked for deletion. -/
def dispatch_call (hs : Handlers) (channel : List Char) (st : lcm_t × List Event) (i : Nat) :
    lcm_t × List Event :=
  match g_ptr_array_index (st.1.handlers_of channel) i with
  | some h =>
    if !(st.1.deref h).marked_for_deletion then
      let r := run_calls st.1 (hs st.1 h)
      (r.1, st.2 ++ Event.handler h :: r.2)
    else st
  | none => st

/-- Body of the third loop of `lcm_dispatch_handlers`: clear `callback_scheduled` and
prepend the handlers marked for deletion to `to_remove`. -/
def dispatch_unref (channel : List Char) (st : lcm_t × List Nat) (i : Nat) : lcm_t × List Nat :=
  match g_ptr_array_index (st.1.handlers_of channel) i with
  | some h =>
    let lcm := set_callback_scheduled st.1 h false
    if (lcm.deref h).marked_for_deletion then (lcm, h :: st.2) else (lcm, st.2)
  | none => st

/-- Body of the last loop of `lcm_dispatch_handlers`: delete one handler of `to_remove`. -/
def dispatch_delete (lcm : lcm_t) (h : Nat) : lcm_t :=
  lcm_handler_free
    { lcm with handlers_all := (g_ptr_array_remove lcm.handlers_all h).1,
               handlers_map := lcm.handlers_map.map (map_remove_handler_callback h) } h

/-- Model of `lcm_dispatch_handlers` for one frame on `channel`: the registry afterwards
and what was observed. -/
def lcm_dispatch_handlers (hs : Handlers) (lcm : lcm_t) (channel : List Char) :
    lcm_t × List Event :=
  let lcm0 := (lcm_get_handlers lcm channel).1
  let nhandlers := (lcm0.handlers_of channel).len
  let lcm1 := (List.range nhandlers).foldl (dispatch_ref channel) lcm0
  let st2 := (List.range nhandlers).foldl (dispatch_call hs channel) (lcm1, [])
  let st3 := (List.range nhandlers).foldl (dispatch_unref channel) (st2.1, [])
  let lcm4 := st3.2.foldl dispatch_delete st3.1
  (lcm4, st2.2)

/-- The handlers invoked, in order. -/
def handler_calls : List Event → List Nat
  | [] => []
  | Event.handler h :: rest => h :: handler_calls rest
  | _ :: rest => handler_calls rest

/-- A call made on the registry between dispatches, or the dispatch of one frame. -/
inductive Step where
  | subscribe (channel : List Char)
  | unsubscribe (h : Nat)
  | get_handlers (channel : List Char)
  | has_handlers (channel : List Char)
  | dispatch (hs : Handlers) (channel : List Char)

/-- One step: the registry afterwards and what was observed. -/
def run_step (lcm : lcm_t) : Step → lcm_t × List Event
  | Step.subscribe channel =>
    let r := lcm_subscribe lcm channel
    (r.1, [Event.subscribe channel r.2])
  | Step.unsubscribe h =>
    let r := lcm_unsubscribe lcm h
    (r.1, [Event.unsubscribe h r.2])
  | Step.get_handlers channel => ((lcm_get_handlers lcm channel).1, [])
  | Step.has_handlers channel => ((lcm_has_handlers lcm channel).1, [])
  | Step.dispatch hs channel => lcm_dispatch_handlers hs lcm channel

/-- A sequence of steps. -/
def run_steps (lcm : lcm_t) : List Step → lcm_t × List Event
  | [] => (lcm, [])
  | s :: rest =>
    let r := run_step lcm s
    let r2 := run_steps r.1 rest
    (r2.1, r.2 ++ r2.2)

/-- Calls that set a registry up without unsubscribing: subscribes, and lookups that
cache the handler list of a channel. -/
inductive Setup where
  | subscribe (channel : List Char)
  | get_handlers (channel : List Char)
  deriving DecidableEq, Repr

/-- A setup call as a step. -/
def Setup.toStep : Setup → Step
  | Setup.subscribe channel => Step.subscribe channel
  | Setup.get_handlers channel => Step.get_handlers channel

/-- The compiled patterns of the subscribes of a setup sequence that succeed, in call
order: on a fresh registry the `i`-th of them is subscription `i`. -/
def subscribed_patterns : List Setup → List Regex
  | [] => []
  | Setup.subscribe channel :: rest =>
    match regcomp ('^' :: channel ++ ['$']) with
    | some preg => preg :: subscribed_patterns rest
    | none => subscribed_patterns rest
  | Setup.get_handlers _ :: rest => subscribed_patterns rest

/-- The subscriptions of a setup sequence whose pattern matches `channel`, in the order
they were subscribed. -/
def matching_in_subscribe_order (ops : List Setup) (channel : List Char) : List Nat :=
  (List.range (subscribed_patterns ops).length).filter
    (fun i => regexec ((subscribed_patterns ops).getD i Regex.empty) channel == 0)

/-- What is observed when a handler calls `lcm_unsubscribe` on its own subscription `h`
`k` times in a row: the first call returns 0, the others -1. -/
def self_unsubscribe_events (h : Nat) : Nat → List Event
  | 0 => []
  | k + 1 => Event.unsubscribe h 0 :: List.replicate k (Event.unsubscribe h (-1))

/-- The whole of `channel` is matched by `pattern` as an extended regular expression:
a match of the compiled pattern that starts at position 0 ends at the end of `channel`. -/
def whole_match (pattern channel : List Char) : Bool :=
  match regcomp pattern with
  | some r => decide (channel.length ∈ r.ends channel 0)
  | none => false

/-! ## The schema model and the generated C codec (`lcmgen/emit_c.c`)

The emitter prints one C function per struct and operation; the definitions below are the
meaning of the printed functions, following the emitter statement by statement. Buffers
are lists of bytes, C `int` values are integers (message sizes are taken to fit an `int`),
and `float`/`double` members are represented by their IEEE-754 bit patterns, which is all
the codec looks at. -/

/-- The mode of a dimension (`lcm_dimension_mode_t`). -/
inductive lcm_dimension_mode_t where
  | LCM_CONST
  | LCM_VAR
  deriving DecidableEq, Repr

/-- A dimension of an array member (`lcm_dimension_t`): `size` is the text of the bound, a
number for `LCM_CONST` and the name of a member for `LCM_VAR`. -/
structure lcm_dimension_t where
  mode : lcm_dimension_mode_t
  size : String
  deriving DecidableEq, Repr

/-- A member of a struct (`lcm_member_t`); `type` is `lm->type->typename`. -/
structure lcm_member_t where
  type : String
  membername : String
  dimensions : List lcm_dimension_t
  deriving DecidableEq, Repr

/-- A struct type (`lcm_struct_t`); `hash` is the seed `ls->hash`. -/
structure lcm_struct_t where
  structname : String
  members : List lcm_member_t
  hash : Nat
  deriving DecidableEq, Repr

/-- An enum type (`lcm_enum_t`); `hash` is `le->hash`. -/
structure lcm_enum_t where
  enumname : String
  values : List (String × Int)
  hash : Nat
  deriving DecidableEq, Repr

/-- The parsed schema (`lcmgen_t`). -/
structure lcmgen_t where
  structs : List lcm_struct_t
  enums : List lcm_enum_t
  deriving DecidableEq, Repr

/-- The struct of a given type name. -/
def lcmgen_t.find_struct (gen : lcmgen_t) (tn : String) : Option lcm_struct_t :=
  gen.structs.find? (fun ls => ls.structname == tn)

/-- The enum of a given type name. -/
def lcmgen_t.find_enum (gen : lcmgen_t) (tn : String) : Option lcm_enum_t :=
  gen.enums.find? (fun le => le.enumname == tn)

/-- A C value of a message type: a number (integers, booleans, bytes, enums, and the bit
patterns of floats), a `char*` string (its bytes before the terminating NUL), an array, or
a struct with its members by name. -/
inductive Value where
  | int (v : Int)
  | str (s : List Nat)
  | arr (xs : List Value)
  | struct (fields : List (String × Value))

/-- The member `p.name` of a struct value. -/
def Value.member (name : String) : Value → Option Value
  | Value.struct fields => fields.lookup name
  | _ => none

/-- The elements of an array value. -/
def Value.elems : Value → Option (List Value)
  | Value.arr xs => some xs
  | _ => none

/-- The number held by a value. -/
def Value.toInt : Value → Option Int
  | Value.int v => some v
  | _ => none

/-- The bytes of a string value. -/
def Value.toStr : Value → Option (List Nat)
  | Value.str s => some s
  | _ => none

/-- The state of a generated codec function between two statements: running with the
current `pos`, returned with a code, or undefined behaviour (the value does not have
the shape of its type). -/
inductive Flow (σ : Type) where
  | next (pos : Int) (st : σ)
  | ret (code : Int) (st : σ)
  | undef

/-- The emitted statement pair `thislen = f (...); if (thislen < 0) return thislen; else
pos += thislen;`. -/
def Flow.step {σ : Type} (f : Int → σ → Option (Int × σ)) : Flow σ → Flow σ
  | Flow.next pos st =>
    match f pos st with
    | none => Flow.undef
    | some (thislen, st2) =>
      if thislen < 0 then Flow.ret thislen st2 else Flow.next (pos + thislen) st2
  | Flow.ret code st => Flow.ret code st
  | Flow.undef => Flow.undef

/-- The final `return pos;`: the value the function returns, with the state it leaves. -/
def Flow.result {σ : Type} : Flow σ → Option (Int × σ)
  | Flow.next pos st => some (pos, st)
  | Flow.ret code st => some (code, st)
  | Flow.undef => none

/-! ### Primitive codec (`lcm_coretypes.h`) -/

/-- Modelled from the spec: the header `lcm_coretypes.h` is not part of the sources. Size
in bytes of the fixed-width primitive types (§3, §4.A); `boolean` and `byte` are one byte,
`float` and `double` are IEEE-754 single and double. -/
def prim_size : String → Option Nat
  | "int8_t" => some 1
  | "int16_t" => some 2
  | "int32_t" => some 4
  | "int64_t" => some 8
  | "byte" => some 1
  | "boolean" => some 1
  | "float" => some 4
  | "double" => some 8
  | _ => none

/-- Modelled from the spec: `lcm_is_primitive_type` of `lcmgen.c`, which is not part of
the sources; the primitive types of §3. -/
def lcm_is_primitive_type (tn : String) : Bool :=
  (prim_size tn).isSome || tn == "string"

/-- Modelled from the spec: the `w` bytes of `v` in network (big-endian) order, two's
complement (§4.A). -/
def be_bytes (w : Nat) (v : Int) : List Nat :=
  (List.range w).map (fun i => ((v % (2 : Int) ^ (8 * w)).toNat / 2 ^ (8 * (w - 1 - i))) % 256)

/-- Modelled from the spec: the number with the given big-endian bytes. -/
def be_value (bs : List Nat) : Nat := bs.foldl (fun acc b => acc * 256 + b % 256) 0

/-- Modelled from the spec: the integer of width `w` bytes read from big-endian bytes,
two's complement except for `byte` (§4.A). -/
def be_int (signed : Bool) (w : Nat) (bs : List Nat) : Int :=
  if signed && decide (2 ^ (8 * w - 1) ≤ be_value bs) then (be_value bs : Int) - (2 : Int) ^ (8 * w)
  else (be_value bs : Int)

/-- Writes bytes into a buffer from index `start` on. -/
def write_bytes : List Nat → Nat → List Nat → List Nat
  | buf, _, [] => buf
  | buf, start, b :: bs => write_bytes (buf.set start b) (start + 1) bs

/-- Reads `n` bytes of a buffer from index `start` on. -/
def read_bytes (buf : List Nat) (start n : Nat) : List Nat :=
  (List.range n).map (fun i => buf.getD (start + i) 0)

/-- Modelled from the spec: `__T_encode_array (buf, offset, maxlen, p, elements)` for a
fixed-width type of `w` bytes (§4.A): negative if `elements * w > maxlen`, else the
elements are written big-endian at `offset` and `elements * w` is returned. -/
def prim_encode_array (w : Nat) (buf : List Nat) (offset maxlen : Int) (p : List Int)
    (elements : Int) : Int × List Nat :=
  if maxlen < w * elements then (-1, buf)
  else (w * elements,
    write_bytes buf offset.toNat ((p.take elements.toNat).flatMap (be_bytes w)))

/-- Modelled from the spec: `__T_decode_array (buf, offset, maxlen, p, elements)` for a
fixed-width type of `w` bytes (§4.A): negative if `elements * w > maxlen`, else the
elements read and `elements * w`. -/
def prim_decode_array (signed : Bool) (w : Nat) (buf : List Nat) (offset maxlen : Int)
    (elements : Int) : Int × List Int :=
  if maxlen < w * elements then (-1, [])
  else (w * elements,
    (List.range elements.toNat).map
      (fun i => be_int signed w (read_bytes buf (offset.toNat + w * i) w)))

/-- Modelled from the spec: `__T_encoded_array_size (p, elements)` for a fixed-width type. -/
def prim_encoded_array_size (w : Nat) (elements : Int) : Int := w * elements

/-- Modelled from the spec: `__string_encode_array`; one string on the wire is
`len32 ‖ bytes ‖ 0x00` with `len32` counting the NUL (§4.A). -/
def string_encode_array (buf : List Nat) (offset maxlen : Int) (p : List (List Nat)) :
    Flow (List Nat) :=
  p.foldl (fun fl (s : List Nat) =>
      (fl.step (fun pos b =>
        some (prim_encode_array 4 b (offset + pos) (maxlen - pos) [((s.length : Int) + 1)] 1))).step
        (fun pos b =>
        some (prim_encode_array 1 b (offset + pos) (maxlen - pos)
          ((s ++ [0]).map (fun (c : Nat) => (c : Int))) ((s.length : Int) + 1))))
    (Flow.next 0 buf)

/-- Modelled from the spec: `__string_decode_array` for `elements` strings; each is
returned without its terminating NUL (what the `char*` holds as a C string). -/
def string_decode_array (buf : List Nat) (offset maxlen : Int) (elements : Nat) :
    Flow (List (List Nat)) :=
  (List.range elements).foldl (fun fl _ =>
      match fl with
      | Flow.next pos acc =>
        let r := prim_decode_array true 4 buf (offset + pos) (maxlen - pos) 1
        if r.1 < 0 then Flow.ret r.1 acc
        else
          let length := r.2.headD 0
          let pos2 := pos + r.1
          let r2 := prim_decode_array false 1 buf (offset + pos2) (maxlen - pos2) length
          if r2.1 < 0 then Flow.ret r2.1 acc
          else Flow.next (pos2 + r2.1)
            (acc ++ [(r2.2.map Int.toNat).takeWhile (fun c => c != 0)])
      | other => other)
    (Flow.next 0 [])

/-- Modelled from the spec: `__string_encoded_array_size`: `4 + len + 1` per string. -/
def string_encoded_array_size (p : List (List Nat)) : Int :=
  (p.map (fun (s : List Nat) => (4 + (s.length : Int) + 1))).sum

/-! ### Type hash -/

/-- The 64-bit left rotation by one emitted as `(hash<<1) + ((hash>>63)&1)`. -/
def hash_rotate (hash : Nat) : Nat :=
  ((hash % 2 ^ 64) * 2 + (hash % 2 ^ 64) / 2 ^ 63) % 2 ^ 64

/-- Meaning of the emitted `__T_hash_recursive (p)`, with `p` the list of the types on
the recursion stack: primitives contribute 0 (`lcm_coretypes.h`), an enum its `le->hash`,
a struct 0 if it is on the stack and else the rotated sum of its seed and its members. -/
def hash_recursive (gen : lcmgen_t) : Nat → String → List String → Nat
  | 0, _, _ => 0
  | fuel + 1, tn, p =>
    if lcm_is_primitive_type tn then 0
    else match gen.find_enum tn with
      | some le => le.hash % 2 ^ 64
      | none =>
        match gen.find_struct tn with
        | none => 0
        | some ls =>
          if p.contains tn then 0
          else hash_rotate
            (ls.members.foldl
              (fun hash lm => (hash + hash_recursive gen fuel lm.type (tn :: p)) % 2 ^ 64)
              (ls.hash % 2 ^ 64))

/-- Meaning of the emitted `__T_get_hash ()`, as the `int64_t` it returns. -/
def get_hash (gen : lcmgen_t) (tn : String) : Int :=
  let hash := hash_recursive gen (gen.structs.length + 2) tn []
  if 2 ^ 63 ≤ hash then (hash : Int) - (2 : Int) ^ 64 else (hash : Int)

/-! ### Enums (`emit_enum`) -/

/-- State of the loop of the emitted `__E_encode_array` and `__E_decode_array`: the
local `thislen`, which is not initialised, and what was written or read. -/
structure EnumLoop (σ : Type) where
  thislen : Option Int
  st : σ

/-- The statement `return thislen;` that ends `__E_encode_array` and `__E_decode_array`:
undefined when `thislen` was never assigned. -/
def enum_return {σ : Type} : Flow (EnumLoop σ) → Option (Int × σ)
  | Flow.next _ l =>
    match l.thislen with
    | some thislen => some (thislen, l.st)
    | none => none
  | Flow.ret code l => some (code, l.st)
  | Flow.undef => none

/-- Meaning of the emitted `__E_encode_array (_buf, offset, maxlen, p, elements)`: every
element is written as an `int32_t`; the function ends with `return thislen;`. -/
def enum_encode_array (buf : List Nat) (offset maxlen : Int) (p : List Int) (elements : Nat) :
    Option (Int × List Nat) :=
  enum_return ((List.range elements).foldl (fun (fl : Flow (EnumLoop (List Nat))) element =>
      match fl with
      | Flow.next pos l =>
        match p.get? element with
        | none => Flow.undef
        | some v =>
          let r := prim_encode_array 4 l.st (offset + pos) (maxlen - pos) [v] 1
          if r.1 < 0 then Flow.ret r.1 ⟨some r.1, r.2⟩
          else Flow.next (pos + r.1) ⟨some r.1, r.2⟩
      | other => other)
    (Flow.next 0 ⟨none, buf⟩))

/-- Meaning of the emitted `__E_decode_array (_buf, offset, maxlen, p, elements)`: every
element is read as an `int32_t`; the function ends with `return thislen;`. -/
def enum_decode_array (buf : List Nat) (offset maxlen : Int) (elements : Nat) :
    Option (Int × List Int) :=
  enum_return ((List.range elements).foldl (fun (fl : Flow (EnumLoop (List Int))) _ =>
      match fl with
      | Flow.next pos l =>
        let r := prim_decode_array true 4 buf (offset + pos) (maxlen - pos) 1
        if r.1 < 0 then Flow.ret r.1 ⟨some r.1, l.st⟩
        else Flow.next (pos + r.1) ⟨some r.1, l.st ++ r.2⟩
      | other => other)
    (Flow.next 0 ⟨none, []⟩))

/-- Meaning of the emitted `__E_encoded_array_size (p, elements)`. -/
def enum_encoded_array_size (elements : Int) : Int := prim_encoded_array_size 4 elements

/-! ### Structs (`emit_c_encode_array`, `emit_c_decode_array`, `emit_c_encoded_array_size`) -/

/-- The number a decimal literal denotes (a literal that C reads as octal or hexadecimal
is outside the model). -/
def decimal (s : String) : Int :=
  (s.toList.foldl (fun acc c => acc * 10 + (c.toNat - 48)) 0 : Nat)

/-- Meaning of the text printed by `make_array_size` for a dimension: the literal for
`LCM_CONST`, the member `p[element].size` for `LCM_VAR`. -/
def make_array_size (p : Value) (ld : lcm_dimension_t) : Option Int :=
  match ld.mode with
  | lcm_dimension_mode_t.LCM_CONST => some (decimal ld.size)
  | lcm_dimension_mode_t.LCM_VAR => (p.member ld.size).bind Value.toInt

/-- Meaning of a call `__T_encode_array (buf, offset, maxlen, p, elements)` as emitted for a
member of type `tn`, given the meaning `enc` of the functions of the structs. -/
def call_encode_array (gen : lcmgen_t)
    (enc : String → List Nat → Int → Int → List Value → Int → Option (Int × List Nat))
    (tn : String) (buf : List Nat) (offset maxlen : Int) (p : List Value) (elements : Int) :
    Option (Int × List Nat) :=
  if p.length < elements.toNat then none
  else if tn = "string" then
    match (p.take elements.toNat).mapM Value.toStr with
    | some ss => (string_encode_array buf offset maxlen ss).result
    | none => none
  else
    match prim_size tn with
    | some w =>
      match (p.take elements.toNat).mapM Value.toInt with
      | some vs => some (prim_encode_array w buf offset maxlen vs elements)
      | none => none
    | none =>
      match gen.find_enum tn with
      | some _ =>
        match (p.take elements.toNat).mapM Value.toInt with
        | some vs => enum_encode_array buf offset maxlen vs elements.toNat
        | none => none
      | none => enc tn buf offset maxlen p elements

/-- Meaning of the loops printed by `emit_c_array_loops_start` around the call for one
member: `v` is the member (or the sub-array reached by the loop variables so far) and
the list holds the dimensions not yet entered. The last dimension is the `elements`
argument of the call; a member without dimensions is passed by address with `elements` 1. -/
def encode_member (call : List Nat → Int → Int → List Value → Int → Option (Int × List Nat))
    (size : lcm_dimension_t → Option Int) (offset maxlen : Int) :
    List lcm_dimension_t → Value → Flow (List Nat) → Flow (List Nat)
  | [], v, fl => fl.step (fun pos buf => call buf (offset + pos) (maxlen - pos) [v] 1)
  | [ld], v, fl =>
    match size ld, v.elems with
    | some n, some xs => fl.step (fun pos buf => call buf (offset + pos) (maxlen - pos) xs n)
    | _, _ => Flow.undef
  | ld :: ld2 :: rest, v, fl =>
    match size ld, v.elems with
    | some n, some xs =>
      if xs.length < n.toNat then Flow.undef
      else (xs.take n.toNat).foldl
        (fun fl x => encode_member call size offset maxlen (ld2 :: rest) x fl) fl
    | _, _ => Flow.undef

/-- Meaning of the emitted `__S_encode_array (buf, offset, maxlen, p, elements)` for the
struct type named `tn`. -/
def encode_array (gen : lcmgen_t) :
    Nat → String → List Nat → Int → Int → List Value → Int → Option (Int × List Nat)
  | 0, _, _, _, _, _, _ => none
  | fuel + 1, tn, buf, offset, maxlen, p, elements =>
    match gen.find_struct tn with
    | none => none
    | some ls =>
      if p.length < elements.toNat then none
      else
        ((p.take elements.toNat).foldl
          (fun fl element =>
            ls.members.foldl
              (fun fl lm =>
                match element.member lm.membername with
                | none => Flow.undef
                | some v =>
                  encode_member (call_encode_array gen (encode_array gen fuel) lm.type)
                    (make_array_size element) offset maxlen lm.dimensions v fl)
              fl)
          (Flow.next 0 buf)).result

/-- Meaning of the emitted `S_encode (buf, offset, maxlen, p)` in terms of `__S_get_hash ()`
and the emitted `__S_encode_array`: the hash, then the body. -/
def c_encode (hash : Int)
    (encode_array : List Nat → Int → Int → Option (Int × List Nat))
    (buf : List Nat) (offset maxlen : Int) : Option (Int × List Nat) :=
  (((Flow.next 0 buf).step
      (fun pos b => some (prim_encode_array 8 b (offset + pos) (maxlen - pos) [hash] 1))).step
      (fun pos b => encode_array b (offset + pos) (maxlen - pos))).result

/-- The emitted `S_encode` of the struct type `tn` of a schema. -/
def S_encode (gen : lcmgen_t) (tn : String) (buf : List Nat) (offset maxlen : Int) (p : Value) :
    Option (Int × List Nat) :=
  c_encode (get_hash gen tn)
    (fun b off len => encode_array gen (gen.structs.length + 1) tn b off len [p] 1)
    buf offset maxlen

/-- Meaning of a call `__T_encoded_array_size (p, elements)` as emitted for a member. -/
def call_encoded_array_size (gen : lcmgen_t)
    (sz : String → List Value → Int → Option Int)
    (tn : String) (p : List Value) (elements : Int) : Option Int :=
  if tn = "string" then
    if p.length < elements.toNat then none
    else
      match (p.take elements.toNat).mapM Value.toStr with
      | some ss => some (string_encoded_array_size ss)
      | none => none
  else
    match prim_size tn with
    | some w => some (prim_encoded_array_size w elements)
    | none =>
      match gen.find_enum tn with
      | some _ => some (enum_encoded_array_size elements)
      | none => sz tn p elements

/-- Meaning of the loops around `size += __T_encoded_array_size (...)` for one member. -/
def encoded_member_size (call : List Value → Int → Option Int)
    (size : lcm_dimension_t → Option Int) : List lcm_dimension_t → Value → Option Int
  | [], v => call [v] 1
  | [ld], v =>
    match size ld, v.elems with
    | some n, some xs => call xs n
    | _, _ => none
  | ld :: ld2 :: rest, v =>
    match size ld, v.elems with
    | some n, some xs =>
      if xs.length < n.toNat then none
      else (xs.take n.toNat).foldl
        (fun acc x =>
          match acc, encoded_member_size call size (ld2 :: rest) x with
          | some a, some b => some (a + b)
          | _, _ => none)
        (some 0)
    | _, _ => none

/-- Meaning of the emitted `__S_encoded_array_size (p, elements)`. -/
def encoded_array_size (gen : lcmgen_t) : Nat → String → List Value → Int → Option Int
  | 0, _, _, _ => none
  | fuel + 1, tn, p, elements =>
    match gen.find_struct tn with
    | none => none
    | some ls =>
      if p.length < elements.toNat then none
      else
        (p.take elements.toNat).foldl
          (fun size element =>
            ls.members.foldl
              (fun size lm =>
                match size, element.member lm.membername with
                | some sz, some v =>
                  match encoded_member_size
                      (call_encoded_array_size gen (encoded_array_size gen fuel) lm.type)
                      (make_array_size element) lm.dimensions v with
                  | some n => some (sz + n)
                  | none => none
                | _, _ => none)
              size)
          (some 0)

/-- Meaning of the emitted `S_encoded_size (p)`: `8 + __S_encoded_array_size (p, 1)`. -/
def S_encoded_size (gen : lcmgen_t) (tn : String) (p : Value) : Option Int :=
  (encoded_array_size gen (gen.structs.length + 1) tn [p] 1).map (fun n => 8 + n)

/-- Meaning of a call `__T_decode_array (buf, offset, maxlen, p, elements)` as emitted for
a member of type `tn`: the return value and the elements decoded. -/
def call_decode_array (gen : lcmgen_t)
    (dec : String → List Nat → Int → Int → Int → Option (Int × List Value))
    (tn : String) (buf : List Nat) (offset maxlen : Int) (elements : Int) :
    Option (Int × List Value) :=
  if tn = "string" then
    (string_decode_array buf offset maxlen elements.toNat).result.map
      (fun r => (r.1, r.2.map Value.str))
  else
    match prim_size tn with
    | some w =>
      let r := prim_decode_array (tn != "byte") w buf offset maxlen elements
      some (r.1, r.2.map Value.int)
    | none =>
      match gen.find_enum tn with
      | some _ =>
        (enum_decode_array buf offset maxlen elements.toNat).map
          (fun r => (r.1, r.2.map Value.int))
      | none => dec tn buf offset maxlen elements

/-- The value a decode loop leaves in an array. -/
def Flow.toArr : Flow (List Value) → Flow Value
  | Flow.next pos xs => Flow.next pos (Value.arr xs)
  | Flow.ret code xs => Flow.ret code (Value.arr xs)
  | Flow.undef => Flow.undef

/-- One round of a decode loop: decode the next element and store it after those
decoded so far. -/
def Flow.push {α : Type} (f : Int → Flow α) : Flow (List α) → Flow (List α)
  | Flow.next pos acc =>
    match f pos with
    | Flow.next pos2 v => Flow.next pos2 (acc ++ [v])
    | Flow.ret code v => Flow.ret code (acc ++ [v])
    | Flow.undef => Flow.undef
  | other => other

/-- Meaning of the loops printed around the decode call for one member: the position and
the value decoded for the member (or for a sub-array, for the dimensions not yet
entered). -/
def decode_member (call : List Nat → Int → Int → Int → Option (Int × List Value))
    (size : lcm_dimension_t → Option Int) (buf : List Nat) (offset maxlen : Int) :
    List lcm_dimension_t → Int → Flow Value
  | [], pos =>
    match call buf (offset + pos) (maxlen - pos) 1 with
    | none => Flow.undef
    | some (thislen, xs) =>
      if thislen < 0 then Flow.ret thislen (Value.arr xs)
      else
        match xs with
        | [v] => Flow.next (pos + thislen) v
        | _ => Flow.undef
  | [ld], pos =>
    match size ld with
    | none => Flow.undef
    | some n =>
      match call buf (offset + pos) (maxlen - pos) n with
      | none => Flow.undef
      | some (thislen, xs) =>
        if thislen < 0 then Flow.ret thislen (Value.arr xs)
        else Flow.next (pos + thislen) (Value.arr xs)
  | ld :: ld2 :: rest, pos =>
    match size ld with
    | none => Flow.undef
    | some n =>
      ((List.range n.toNat).foldl
        (fun fl _ => fl.push (decode_member call size buf offset maxlen (ld2 :: rest)))
        (Flow.next pos [])).toArr

/-- The members of one struct as the emitted `__S_decode_array` decodes them, from
position `pos` on: a `LCM_VAR` bound is read from the members decoded so far. -/
def decode_members (gen : lcmgen_t)
    (dec : String → List Nat → Int → Int → Int → Option (Int × List Value))
    (members : List lcm_member_t) (buf : List Nat) (offset maxlen : Int) (pos : Int) :
    Flow Value :=
  match members.foldl
      (fun (fe : Flow (List (String × Value))) lm =>
        match fe with
        | Flow.next pos fields =>
          match decode_member (call_decode_array gen dec lm.type)
              (make_array_size (Value.struct fields)) buf offset maxlen lm.dimensions pos with
          | Flow.next pos2 v => Flow.next pos2 (fields ++ [(lm.membername, v)])
          | Flow.ret code v => Flow.ret code (fields ++ [(lm.membername, v)])
          | Flow.undef => Flow.undef
        | other => other)
      (Flow.next pos []) with
  | Flow.next pos2 fields => Flow.next pos2 (Value.struct fields)
  | Flow.ret code fields => Flow.ret code (Value.struct fields)
  | Flow.undef => Flow.undef

/-- Meaning of the emitted `__S_decode_array (buf, offset, maxlen, p, elements)`: the
return value and the structs decoded. -/
def decode_array (gen : lcmgen_t) :
    Nat → String → List Nat → Int → Int → Int → Option (Int × List Value)
  | 0, _, _, _, _, _ => none
  | fuel + 1, tn, buf, offset, maxlen, elements =>
    match gen.find_struct tn with
    | none => none
    | some ls =>
      ((List.range elements.toNat).foldl
        (fun fl _ =>
          fl.push (decode_members gen (decode_array gen fuel) ls.members buf offset maxlen))
        (Flow.next 0 [])).result

/-- Meaning of the emitted `S_decode (buf, offset, maxlen, p)` in terms of `__S_get_hash ()`
and the emitted `__S_decode_array`: the return value and the message `p` points to
afterwards. -/
def c_decode {α : Type} (hash : Int)
    (decode_array : List Nat → Int → Int → α → Option (Int × α))
    (buf : List Nat) (offset maxlen : Int) (p : α) : Option (Int × α) :=
  let pos : Int := 0
  let r := prim_decode_array true 8 buf (offset + pos) (maxlen - pos) 1
  let thislen := r.1
  if thislen < 0 then some (thislen, p)
  else
    let pos := pos + thislen
    let this_hash := r.2.headD 0
    if this_hash ≠ hash then some (-1, p)
    else
      match decode_array buf (offset + pos) (maxlen - pos) p with
      | none => none
      | some (thislen, p2) =>
        if thislen < 0 then some (thislen, p2) else some (pos + thislen, p2)

/-- The emitted `S_decode` of the struct type `tn` of a schema; `p` is the message before
the call. -/
def S_decode (gen : lcmgen_t) (tn : String) (buf : List Nat) (offset maxlen : Int) (p : Value) :
    Option (Int × Value) :=
  c_decode (get_hash gen tn)
    (fun b off len p0 =>
      (decode_array gen (gen.structs.length + 1) tn b off len 1).map
        (fun r => (r.1, r.2.headD p0)))
    buf offset maxlen p

/-! ### The generated C++ entry point (`lcmgen/emit_cpp.c`) -/

/-- Meaning of the emitted `S::decode (buf, offset, maxlen)` in terms of `getHash ()` and
the emitted `_decodeNoHash`: the return value and the object afterwards. -/
def cpp_decode {α : Type} (getHash : Int)
    (_decodeNoHash : List Nat → Int → Int → α → Option (Int × α))
    (buf : List Nat) (offset maxlen : Int) (this : α) : Option (Int × α) :=
  let pos : Int := 0
  let r := prim_decode_array true 8 buf (offset + pos) (maxlen - pos) 1
  let thislen := r.1
  if thislen < 0 then some (thislen, this)
  else
    let pos := pos + thislen
    let msg_hash := r.2.headD 0
    if msg_hash ≠ getHash then some (-1, this)
    else
      match _decodeNoHash buf (offset + pos) (maxlen - pos) this with
      | none => none
      | some (thislen, this2) =>
        if thislen < 0 then some (thislen, this2) else some (pos + thislen, this2)

/-! ### Example schemas -/

/-- The schema `struct P { int64_t t; double pos[3]; int32_t n; float r[n]; }`. -/
def schema_P : lcmgen_t :=
  ⟨[⟨"P", [⟨"int64_t", "t", []⟩,
           ⟨"double", "pos", [⟨lcm_dimension_mode_t.LCM_CONST, "3"⟩]⟩,
           ⟨"int32_t", "n", []⟩,
           ⟨"float", "r", [⟨lcm_dimension_mode_t.LCM_VAR, "n"⟩]⟩], 0x1234⟩], []⟩

/-- The value `{t = 7, pos = [1, 2, 3], n = 2, r = [0.5, 1.5]}` of `P`, the floating-point
members given by their bit patterns. -/
def value_P : Value :=
  Value.struct
    [("t", Value.int 7),
     ("pos", Value.arr [Value.int 0x3FF0000000000000, Value.int 0x4000000000000000,
        Value.int 0x4008000000000000]),
     ("n", Value.int 2),
     ("r", Value.arr [Value.int 0x3F000000, Value.int 0x3FC00000])]

/-- The schema `enum E { A = 0, B = 1, C = 2 }  struct S { E e[2]; int32_t x; }`. -/
def schema_enum_array : lcmgen_t :=
  ⟨[⟨"S", [⟨"E", "e", [⟨lcm_dimension_mode_t.LCM_CONST, "2"⟩]⟩, ⟨"int32_t", "x", []⟩], 0x1234⟩],
   [⟨"E", [("A", 0), ("B", 1), ("C", 2)], 0x99⟩]⟩

/-- The value `{e = [B, C], x = 7}` of `S`. -/
def value_enum_array : Value :=
  Value.struct [("e", Value.arr [Value.int 1, Value.int 2]), ("x", Value.int 7)]

/-- The schema `enum E { A = 0, B = 1, C = 2 }  struct S3 { E e[3]; }`. -/
def schema_enum_array3 : lcmgen_t :=
  ⟨[⟨"S3", [⟨"E", "e", [⟨lcm_dimension_mode_t.LCM_CONST, "3"⟩]⟩], 0x1234⟩],
   [⟨"E", [("A", 0), ("B", 1), ("C", 2)], 0x99⟩]⟩

/-- The value `{e = [B, C, B]}` of `S3`. -/
def value_enum_array3 : Value :=
  Value.struct [("e", Value.arr [Value.int 1, Value.int 2, Value.int 1])]

/-- The schema `struct T { int32_t x; }`. -/
def schema_T : lcmgen_t := ⟨[⟨"T", [⟨"int32_t", "x", []⟩], 0x1234⟩], []⟩

/-! ## URLs and construction (`lcm_parse_url`, `lcm_create`) -/

/-- Model of `strstr (s, d)`: the index of the first occurrence of `d` in `s`, `none`
for `NULL`. -/
def strstr : List Char → List Char → Option Nat
  | [], d => if d = [] then some 0 else none
  | c :: s, d => if d.isPrefixOf (c :: s) then some 0 else (strstr s d).map (fun i => i + 1)

/-- The loop of `g_strsplit`: at most `n` more tokens are cut off, each in front of an
occurrence of the delimiter; the tokens and the remainder. -/
def g_strsplit_loop (delimiter : List Char) : Nat → List Char → List (List Char) × List Char
  | 0, remainder => ([], remainder)
  | n + 1, remainder =>
    match strstr remainder delimiter with
    | none => ([], remainder)
    | some i =>
      ((remainder.take i) :: (g_strsplit_loop delimiter n (remainder.drop (i + delimiter.length))).1,
        (g_strsplit_loop delimiter n (remainder.drop (i + delimiter.length))).2)

/-- Model of GLib's `g_strsplit (string, delimiter, max_tokens)` for `max_tokens` at least
1: the tokens of the returned vector. An empty string gives an empty vector; otherwise
the last token is the remainder after `max_tokens - 1` splits. -/
def g_strsplit (string delimiter : List Char) (max_tokens : Nat) : List (List Char) :=
  if string = [] then []
  else (g_strsplit_loop delimiter (max_tokens - 1) string).1 ++
    [(g_strsplit_loop delimiter (max_tokens - 1) string).2]

/-- The loop of `g_strsplit_set`: `current` is the token being read. -/
def g_strsplit_set_loop (delimiters : List Char) : List Char → List Char → List (List Char)
  | [], current => [current]
  | c :: s, current =>
    if delimiters.contains c then current :: g_strsplit_set_loop delimiters s []
    else g_strsplit_set_loop delimiters s (current ++ [c])

/-- Model of GLib's `g_strsplit_set (string, delimiters, -1)`: the tokens between the
characters of `delimiters`; an empty string gives an empty vector. -/
def g_strsplit_set (string delimiters : List Char) : List (List Char) :=
  if string = [] then [] else g_strsplit_set_loop delimiters string []

/-- Model of `g_hash_table_insert` on a table with string keys: the value of an existing
key is replaced. -/
def g_hash_table_insert (table : List (List Char × List Char)) (key value : List Char) :
    List (List Char × List Char) :=
  table.filter (fun e => e.1 != key) ++ [(key, value)]

/-- What the output arguments of `lcm_parse_url` point to: `*provider`, `*target` (`none`
for `NULL`) and the contents of the table `args`. -/
structure url_parts where
  provider : Option (List Char)
  target : Option (List Char)
  args : List (List Char × List Char)
  deriving DecidableEq, Repr

/-- The body of the loop of `lcm_parse_url` over the items of the query. -/
def parse_url_item (table : List (List Char × List Char)) (item : List Char) :
    List (List Char × List Char) :=
  match (g_strsplit item ['='] 2).get? 0 with
  | none => table
  | some k =>
    if k.length = 0 then table
    else g_hash_table_insert table k (((g_strsplit item ['='] 2).get? 1).getD [])

/-- Model of `lcm_parse_url (url, provider, target, args)`. The flags tell which of the
three output pointers are not `NULL`, `out` is what they point to before the call; the
result is the return value and what they point to afterwards. -/
def lcm_parse_url (url : Option (List Char)) (provider target args : Bool) (out : url_parts) :
    Int × url_parts :=
  match url with
  | none => (-1, out)
  | some url =>
    if url.length = 0 then (-1, out)
    else
      match (g_strsplit url "://".toList 2).get? 0, (g_strsplit url "://".toList 2).get? 1 with
      | some s0, some s1 =>
        let out1 : url_parts := if provider then { out with provider := some s0 } else out
        let out2 : url_parts := if target then { out1 with target := none } else out1
        match (g_strsplit s1 ['?'] 2).get? 0 with
        | none => (0, out2)
        | some t =>
          let out3 : url_parts :=
            if t.length ≠ 0 ∧ target = true then { out2 with target := some t } else out2
          match (g_strsplit s1 ['?'] 2).get? 1 with
          | none => (0, out3)
          | some q =>
            if q.length = 0 ∨ args = false then (0, out3)
            else (0, { out3 with
              args := (g_strsplit_set q [',', '&']).foldl parse_url_item out3.args })
      | _, _ => (-1, out)

/-- A registered provider (`lcm_provider_info_t`): its name, and whether its
`vtable->create` returns a provider for a URL (rather than `NULL`). -/
structure lcm_provider_info_t where
  name : List Char
  create : List Char → Bool

/-- The outcome of `lcm_create`: whether an `lcm_t` is returned (rather than `NULL`), and
the calls made to `create` functions, each with the index of the provider in
registration order and the URL passed. -/
structure create_result where
  lcm : Bool
  calls : List (Nat × List Char)
  deriving DecidableEq, Repr

/-- The loop of `lcm_create` that looks for the provider: the first provider from index
`i` on whose name equals `provider_str`, with its index. -/
def find_provider (provider_str : List Char) :
    List lcm_provider_info_t → Nat → Option (Nat × lcm_provider_info_t)
  | [], _ => none
  | pinfo :: rest, i =>
    if pinfo.name = provider_str then some (i, pinfo) else find_provider provider_str rest (i + 1)

/-- Model of `lcm_create (url)`, given the providers the `*_provider_init` functions
register. -/
def lcm_create (providers : List lcm_provider_info_t) (url : Option (List Char)) :
    create_result :=
  if providers.length = 0 then ⟨false, []⟩
  else
    let url : List Char :=
      match url with
      | none => "udpm://".toList
      | some u => if u.length = 0 then "udpm://".toList else u
    let r := lcm_parse_url (some url) true false false ⟨none, none, []⟩
    if r.1 < 0 then ⟨false, []⟩
    else
      match r.2.provider with
      | none => ⟨false, []⟩
      | some provider_str =>
        match find_provider provider_str providers 0 with
        | none => ⟨false, []⟩
        | some (i, info) => ⟨info.create url, [(i, url)]⟩

/-- The text of a query: `name=value` items, each followed by a separator (which is not
written after the last item). -/
def arguments_text : List (List Char × List Char × Char) → List Char
  | [] => []
  | [(name, value, _)] => name ++ '=' :: value
  | (name, value, sep) :: item :: rest =>
    name ++ '=' :: value ++ sep :: arguments_text (item :: rest)

/-- The value a list of `name=value` items gives a name: that of its last occurrence. -/
def last_value (items : List (List Char × List Char × Char)) (name : List Char) :
    Option (List Char) :=
  (items.reverse.find? (fun it => it.1 == name)).map (fun it => it.2.1)

/-! ### The C++ frame encoder (`emit_encode` of `emit_cpp.c`) -/

/-- Meaning of the emitted `S::encode (buf, offset, maxlen)` in terms of `getHash ()` and
the emitted `_encodeNoHash`: the hash, then the body. -/
def cpp_encode (hash : Int)
    (encodeNoHash : List Nat → Int → Int → Option (Int × List Nat))
    (buf : List Nat) (offset maxlen : Int) : Option (Int × List Nat) :=
  (((Flow.next 0 buf).step
      (fun pos b => some (prim_encode_array 8 b (offset + pos) (maxlen - pos) [hash] 1))).step
      (fun pos b => encodeNoHash b (offset + pos) (maxlen - pos))).result

/-! ### Type hash: the emitted expression, recursion depth, and the C++ routine -/

/-- The value an `int64_t` holds after an arithmetic result `x` wraps around (two's
complement). -/
def int64_wrap (x : Int) : Int := (x + 2 ^ 63) % 2 ^ 64 - 2 ^ 63

/-- The bit pattern of an `int64_t`, as a number below `2 ^ 64`. -/
def int64_bits (x : Int) : Nat := (x % 2 ^ 64).toNat

/-- The emitted expression `(hash<<1) + ((hash>>63)&1)` on an `int64_t hash`: the shift to
the left and the sum wrap around, the shift to the right keeps the sign. -/
def hash_rotate_expr (hash : Int) : Int :=
  int64_wrap (int64_wrap (hash * 2) + (hash / 2 ^ 63) % 2)

/-- The 64-bit left rotation by one bit, in the words of the specification: bit `i` of
the result is bit `i - 1` of `h`, and bit 0 is bit 63 of `h`. -/
def rotl64 (h : Nat) : Nat :=
  ((List.range 64).map (fun i => if h.testBit ((i + 63) % 64) then 2 ^ i else 0)).sum

/-- The distinct names of the struct types of a schema. -/
def struct_names (gen : lcmgen_t) : List String :=
  (gen.structs.map (fun ls => ls.structname)).dedup

/-- The number of distinct struct types that are not on the stack `p`. -/
def remaining (gen : lcmgen_t) (p : List String) : Nat :=
  (struct_names gen).countP (fun n => !p.contains n)

/-- One summand of the emitted sum `seed + f1 (&cp) + f2 (&cp) + ...`: the running hash
and the greatest stack length so far, `none` once a call has no result. -/
def hash_add (acc call : Option (Nat × Nat)) : Option (Nat × Nat) :=
  match acc, call with
  | some (hash, depth), some (h, d) => some ((hash + h) % 2 ^ 64, max depth d)
  | _, _ => none

/-- The emitted `__T_hash_recursive (p)` with its recursion made explicit: the result is
`none` when the nesting of calls exceeds `fuel` or a function called is not emitted
(`T` is no type of the schema), else the hash and the greatest length of the stack `p`
handed to this call or to a call below it. The `__T_hash_recursive` of a primitive type
(`lcm_coretypes.h`) returns 0. -/
def hash_recursive_run (gen : lcmgen_t) : Nat → String → List String → Option (Nat × Nat)
  | 0, _, _ => none
  | fuel + 1, tn, p =>
    if lcm_is_primitive_type tn then some (0, p.length)
    else match gen.find_enum tn with
      | some le => some (le.hash % 2 ^ 64, p.length)
      | none =>
        match gen.find_struct tn with
        | none => none
        | some ls =>
          if p.contains tn then some (0, p.length)
          else
            (ls.members.foldl
              (fun acc lm => hash_add acc (hash_recursive_run gen fuel lm.type (tn :: p)))
              (some (ls.hash % 2 ^ 64, p.length))).map (fun r => (hash_rotate r.1, r.2))

/-- The `S::_computeHash (p)` emitted by `emit_compute_hash` of `emit_cpp.c`, with its
recursion made explicit as in `hash_recursive_run`. Only a struct has a class with
`_computeHash`. When no member is of a non-primitive type (`last_complex_member < 0`)
the function is `int64_t hash = seed; return (hash<<1) + ((hash>>63)&1);`; else it
checks the stack and adds the `_computeHash (&cp)` of the non-primitive members. -/
def computeHash_run (gen : lcmgen_t) : Nat → String → List String → Option (Nat × Nat)
  | 0, _, _ => none
  | fuel + 1, tn, p =>
    match gen.find_struct tn with
    | none => none
    | some ls =>
      if ls.members.any (fun lm => !lcm_is_primitive_type lm.type) then
        if p.contains tn then some (0, p.length)
        else
          ((ls.members.filter (fun lm => !lcm_is_primitive_type lm.type)).foldl
            (fun acc lm => hash_add acc (computeHash_run gen fuel lm.type (tn :: p)))
            (some (ls.hash % 2 ^ 64, p.length))).map (fun r => (hash_rotate r.1, r.2))
      else some (hash_rotate (ls.hash % 2 ^ 64), p.length)

/-- Every member type of the schema is a primitive, an enum or a struct of the schema:
the emitted C compiles. -/
def Closed (gen : lcmgen_t) : Prop :=
  ∀ ls ∈ gen.structs, ∀ lm ∈ ls.members,
    lcm_is_primitive_type lm.type = true ∨ gen.find_enum lm.type ≠ none ∨
      gen.find_struct lm.type ≠ none

/-- Every member type of the schema is a primitive or a struct of the schema: the
emitted C++ compiles. -/
def ClosedCpp (gen : lcmgen_t) : Prop :=
  ∀ ls ∈ gen.structs, ∀ lm ∈ ls.members,
    lcm_is_primitive_type lm.type = true ∨ gen.find_struct lm.type ≠ none

/-- A schema of struct types: there is no enum, no struct has the name of a primitive
type, and every member type is a primitive or a struct of the schema. -/
def StructSchema (gen : lcmgen_t) : Prop :=
  gen.enums = [] ∧ (∀ ls ∈ gen.structs, lcm_is_primitive_type ls.structname = false) ∧
    ClosedCpp gen

instance (gen : lcmgen_t) : Decidable (Closed gen) := by
  unfold Closed; infer_instance

instance (gen : lcmgen_t) : Decidable (ClosedCpp gen) := by
  unfold ClosedCpp; infer_instance

instance (gen : lcmgen_t) : Decidable (StructSchema gen) := by
  unfold StructSchema; infer_instance

/-- The schema `struct A { B b; int32_t x; }  struct B { A a; C c; }  struct C { int64_t t; }`,
whose types `A` and `B` refer to each other. -/
def schema_cycle : lcmgen_t :=
  ⟨[⟨"A", [⟨"B", "b", []⟩, ⟨"int32_t", "x", []⟩], 0x8000000000000001⟩,
    ⟨"B", [⟨"A", "a", []⟩, ⟨"C", "c", []⟩], 0x22⟩,
    ⟨"C", [⟨"int64_t", "t", []⟩], 0x33⟩], []⟩

/-! ## Invariants of the registry -/

/-- Consistency of the registry: no array lists a subscription twice, the master list
holds live, unmarked records, and every cached list is part of the master list. -/
structure WF (s : lcm_t) : Prop where
  nodup_all : s.handlers_all.elems.Nodup
  bounded : ∀ x ∈ s.handlers_all.elems, x < s.heap.length
  unmarked : ∀ x ∈ s.handlers_all.elems, (s.deref x).marked_for_deletion = false
  nodup_map : ∀ p ∈ s.handlers_map, p.2.elems.Nodup
  sub_map : ∀ p ∈ s.handlers_map, ∀ x ∈ p.2.elems, x ∈ s.handlers_all.elems

/-- Subscription `h` was allocated and is in no list of the registry any more. -/
def Gone (h : Nat) (s : lcm_t) : Prop :=
  h < s.heap.length ∧ h ∉ s.handlers_all.elems ∧ ∀ p ∈ s.handlers_map, h ∉ p.2.elems

/-- While a frame on `channel` with `n` scheduled handlers is dispatched: `h` is in no
list and in none of the `n` slots the dispatch loops read. -/
def GoneIn (n : Nat) (channel : List Char) (h : Nat) (s : lcm_t) : Prop :=
  Gone h s ∧ h ∉ (s.handlers_of channel).slots.take n

/-- A registry on which nothing was ever unsubscribed: the master list is every record
ever allocated, in order, no record is marked, and every cached list is the matching
part of the master list. -/
structure Pristine (s : lcm_t) : Prop where
  all : s.handlers_all.elems = List.range s.heap.length
  unmarked : ∀ y, (s.deref y).marked_for_deletion = false
  cached : ∀ e ∈ s.handlers_map,
    e.2.elems = (List.range s.heap.length).filter (fun h => is_handler_subscriber (s.deref h) e.1)

/-- What follows the first occurrence of an event in a trace. -/
def events_after (e : Event) : List Event → List Event
  | [] => []
  | x :: xs => if x = e then xs else events_after e xs

/-- Subscription `x` is scheduled for the frame being dispatched: its record is live and
has `callback_scheduled` set. -/
def Scheduled (x : Nat) (s : lcm_t) : Prop :=
  x < s.heap.length ∧ (s.deref x).callback_scheduled = true

/-! ### Frame conditions of the encoders -/

/-- The buffer `b2` holds what `b` holds at every index below `n`. -/
def Below (n : Nat) (b b2 : List Nat) : Prop := ∀ i, i < n → b2[i]? = b[i]?

/-- A control state of an encoder that started at position 0 on the buffer `b`: the
position is not negative and nothing below index `n` was changed. -/
def FlowBelow {σ : Type} (get : σ → List Nat) (n : Nat) (b : List Nat) : Flow σ → Prop
  | Flow.next pos st => 0 ≤ pos ∧ Below n b (get st)
  | Flow.ret _ st => Below n b (get st)
  | Flow.undef => True

/-- An encoder changes nothing below the offset it is given. -/
def EncBelow (enc : String → List Nat → Int → Int → List Value → Int → Option (Int × List Nat)) :
    Prop :=
  ∀ tn b o m p e r, enc tn b o m p e = some r → Below o.toNat b r.2

/-! ## The Lua binding: `timedhandle` (`lcm-lua/lualcm_lcm.c`) -/

/-- What `select` on the one descriptor of the runtime can come to: the time runs out,
the descriptor is ready to be read, or the call fails (a signal, a bad descriptor). -/
inductive select_outcome where
  | timeout
  | ready
  | error
  deriving DecidableEq, Repr

/-- Model of the call `select (fd + 1, &fds, 0, 0, &timeout)` after `FD_ZERO (&fds)` and
`FD_SET (fd, &fds)`, as POSIX specifies it: the return value `status`, and whether
`FD_ISSET (fd, &fds)` holds afterwards. On a timeout the set is cleared and 0 returned;
when the descriptor is ready it stays in the set and 1 is returned; on failure -1 is
returned and the set is not modified, so that `fd` is still in it. -/
def select : select_outcome → Int × Bool
  | select_outcome.timeout => (0, false)
  | select_outcome.ready => (1, true)
  | select_outcome.error => (-1, true)

/-- How a Lua C function ends: it returns a boolean to Lua, or raises a Lua error with
a message (`lua_error` does not return). -/
inductive lua_result where
  | returned (b : Bool)
  | raised (msg : String)
  deriving DecidableEq, Repr

/-- Model of `impl_lcm_timedhandle` from the point where `select` has returned: `status`
is its return value, `isset` is `FD_ISSET (fd, &fds)`, and `handle` is what `lcm_handle`
returns if it is called. The result is how the function ends and how many times it has
called `lcm_handle`. -/
def impl_lcm_timedhandle (status : Int) (isset : Bool) (handle : Int) : lua_result × Nat :=
  if status = 0 then (lua_result.returned false, 0)
  else if isset then
    if handle ≠ 0 then (lua_result.raised "error lcm handle", 1)
    else (lua_result.returned true, 1)
  else (lua_result.raised "error lcm handle (select)", 0)

/-- The method `timedhandle` for an outcome of `select`. -/
def timedhandle (o : select_outcome) (handle : Int) : lua_result × Nat :=
  impl_lcm_timedhandle (select o).1 (select o).2 handle

/-! ## The subscription trampoline (`emit_c_struct_subscribe` of `emit_c.c`) -/

/-- Model of the emitted `S_handler_stub (rbuf, channel, userdata)` in terms of the
emitted `S_decode`: the list of the messages the user handler `h->user_handler` is
invoked with, in order; `none` if the decoder has no defined result. The buffer is
`rbuf->data`, its length `rbuf->data_size`, and `p` starts as zeroes (`memset`). -/
def handler_stub {α : Type} (decode : List Nat → Int → Int → α → Option (Int × α))
    (zero : α) (rbuf : List Nat) : Option (List α) :=
  match decode rbuf 0 rbuf.length zero with
  | none => none
  | some (status, p) => if status < 0 then some [] else some [p]

/-- The emitted `S_handler_stub` of the struct type `tn` of a schema. -/
def S_handler_stub (gen : lcmgen_t) (tn : String) (rbuf : List Nat) : Option (List Value) :=
  handler_stub (S_decode gen tn) (Value.struct []) rbuf

/-! ## Strings in the C++ decoder (`emit_decode_nohash`, `_decode_recursive`) -/

/-- How the statements emitted for a string end: with a `return` of a code, or with the
call `this->s.assign (((const char*)buf) + offset + pos, n)`, where `n` is the `size_t`
that the `int` expression `len - 1` converts to, followed by `pos += len`. -/
inductive string_decode where
  | ret (code : Int)
  | assign (n : Nat) (pos : Int)
  deriving DecidableEq, Repr

/-- Meaning of the statements emitted by `emit_cpp.c` to decode one string at position
`pos`:
`tlen = __int32_t_decode_array (buf, offset + pos, maxlen - pos, &len, 1);`
`if (tlen < 0) return tlen; else pos += tlen;`
`if (len > maxlen - pos) return -1;`
`this->s.assign (((const char*)buf) + offset + pos, len - 1);`
`pos += len;`
with a `size_t` of 64 bits. -/
def cpp_decode_string (buf : List Nat) (offset maxlen pos : Int) : string_decode :=
  let r := prim_decode_array true 4 buf (offset + pos) (maxlen - pos) 1
  let tlen := r.1
  if tlen < 0 then string_decode.ret tlen
  else
    let pos := pos + tlen
    let len := r.2.headD 0
    if len > maxlen - pos then string_decode.ret (-1)
    else string_decode.assign ((len - 1) % 2 ^ 64).toNat (pos + len)

/-! ## The text emitted by `emit_cpp.c` -/

/-- The macro `INDENT (n)` as the blanks `fprintf (f, "%*s", INDENT (n), "")` prints. -/
def INDENT (n : Nat) : String := String.mk (List.replicate (4 * n) ' ')

/-- The line printed by `emit (n, ...)`, or by `emit_start (n, ...)`, `emit_continue` and
`emit_end` together, without its newline; `text` is the formatted text. -/
def emit (n : Nat) (text : String) : String := INDENT n ++ text

/-- Model of `dots_to_underscores`. -/
def dots_to_underscores (s : String) : String :=
  String.mk (s.toList.map (fun c => if c = '.' then '_' else c))

/-- Model of `map_type_name`. -/
def map_type_name (t : String) : String :=
  if t = "boolean" then "int8_t"
  else if t = "string" then "std::string"
  else if t = "byte" then "uint8_t"
  else dots_to_underscores t

/-- Model of `dim_size_prefix` for the sizes a schema can hold, decimal numbers and member
names: `strtol` reads the whole of a number, and stops early in a name. -/
def dim_size_prefix (dim_size : String) : String :=
  if dim_size.toList.all Char.isDigit then "" else "this->"

/-- Modelled from the spec: `lcm_is_constant_size_array` of `lcmgen.c`, which is not part
of the sources; no dimension of the member is `VAR` (§3). -/
def lcm_is_constant_size_array (lm : lcm_member_t) : Bool :=
  lm.dimensions.all (fun ld => decide (ld.mode = lcm_dimension_mode_t.LCM_CONST))

/-- The text printed by `for (int i = 0; i < depth; i++) emit_continue ("[a%d]", i);`. -/
def loop_indices (depth : Nat) : String :=
  String.join ((List.range depth).map (fun i => "[a" ++ toString i ++ "]"))

/-- The text `"%-10s"` prints for a string: the string, padded with blanks on the right
to 10 characters. -/
def pad10 (s : String) : String :=
  s ++ String.mk (List.replicate (10 - s.length) ' ')

/-- The line `emit_header_start` prints for a data member of the class. -/
def member_declaration (lm : lcm_member_t) : String :=
  if lm.dimensions.length = 0 then
    emit 2 (pad10 (map_type_name lm.type) ++ " " ++ lm.membername ++ ";")
  else if lcm_is_constant_size_array lm then
    emit 2 (pad10 (map_type_name lm.type) ++ " " ++ lm.membername ++
      String.join (lm.dimensions.map (fun ld => "[" ++ ld.size ++ "]")) ++ ";")
  else
    emit 2 (String.join (lm.dimensions.map (fun _ => "std::vector< ")) ++
      map_type_name lm.type ++ String.join (lm.dimensions.map (fun _ => " >")) ++
      " " ++ lm.membername ++ ";")

/-- The lines printed by `_encode_recursive (lcm, f, lm, depth)`; the list holds the
dimensions of `lm` from index `depth` on. -/
def _encode_recursive (lm : lcm_member_t) : Nat → List lcm_dimension_t → List String
  | depth, [] =>
    (if lm.type = "string" then
      [emit (1 + depth) ("char* __cstr = (char*) this->" ++ lm.membername ++
          loop_indices depth ++ ".c_str();"),
       emit (1 + depth)
          "tlen = __string_encode_array(buf, offset + pos, maxlen - pos, &__cstr, 1);"]
    else
      [emit (1 + depth) ("tlen = this->" ++ lm.membername ++ loop_indices depth ++
          "._encodeNoHash(buf, offset + pos, maxlen - pos);")]) ++
    [emit (1 + depth) "if(tlen < 0) return tlen; else pos += tlen;"]
  | depth, dim :: rest =>
    if rest.isEmpty && lcm_is_primitive_type lm.type && lm.type != "string" then
      [emit (1 + depth) ("tlen = __" ++ lm.type ++
          "_encode_array(buf, offset + pos, maxlen - pos, &this->" ++ lm.membername ++
          loop_indices depth ++ "[0], " ++ dim_size_prefix dim.size ++ dim.size ++ ");"),
       emit (1 + depth) "if(tlen < 0) return tlen; else pos += tlen;"]
    else
      [emit (1 + depth) ("for (int a" ++ toString depth ++ " = 0; a" ++ toString depth ++
          " < " ++ dim_size_prefix dim.size ++ dim.size ++ "; a" ++ toString depth ++
          "++) \x7b")] ++
      _encode_recursive lm (depth + 1) rest ++
      [emit (1 + depth) "\x7d"]

/-- The lines printed by `emit_encode_nohash` for a struct; `ls.structname` stands for
the short name `ls->structname->shortname` of a struct outside any package. -/
def emit_encode_nohash (ls : lcm_struct_t) : List String :=
  [emit 0 ("int " ++ ls.structname ++
      "::_encodeNoHash(void *buf, int offset, int maxlen) const"),
   emit 0 "\x7b"] ++
  (if ls.members.length = 0 then [emit 1 "return 0;", emit 0 "\x7d", emit 0 " "]
   else
    [emit 0 ""] ++
    ls.members.flatMap (fun lm =>
      (if lm.dimensions.length = 0 && lcm_is_primitive_type lm.type then
        (if lm.type = "string" then
          [emit 1 ("char* " ++ lm.membername ++ "_cstr = (char*) this->" ++ lm.membername ++
              ".c_str();"),
           emit 1 ("tlen = __string_encode_array(buf, offset + pos, maxlen - pos, &" ++
              lm.membername ++ "_cstr, 1);")]
        else
          [emit 1 ("tlen = __" ++ lm.type ++
              "_encode_array(buf, offset + pos, maxlen - pos, &this->" ++ lm.membername ++
              ", 1);")]) ++
        [emit 1 "if(tlen < 0) return tlen; else pos += tlen;"]
      else _encode_recursive lm 0 lm.dimensions) ++
      [emit 0 " "]) ++
    [emit 1 "return pos;", emit 0 "\x7d", emit 0 " "])

/-- The lines printed by `_decode_recursive (lcm, f, lm, depth)`; the list holds the
dimensions of `lm` from index `depth` on. -/
def _decode_recursive (lm : lcm_member_t) : Nat → List lcm_dimension_t → List String
  | depth, [] =>
    if lm.type = "string" then
      [emit (1 + depth) "int32_t __elem_len;",
       emit (1 + depth)
          "tlen = __int32_t_decode_array(buf, offset + pos, maxlen - pos, &__elem_len, 1);",
       emit (1 + depth) "if(tlen < 0) return tlen; else pos += tlen;",
       emit (1 + depth) "if(__elem_len > maxlen - pos) return -1;",
       emit (1 + depth) ("this->" ++ lm.membername ++ loop_indices depth ++
          ".assign(((const char*)buf) + offset + pos, __elem_len -  1);"),
       emit (1 + depth) "pos += __elem_len;"]
    else
      [emit (1 + depth) ("tlen = this->" ++ lm.membername ++ loop_indices depth ++
          "._decodeNoHash(buf, offset + pos, maxlen - pos);"),
       emit (1 + depth) "if(tlen < 0) return tlen; else pos += tlen;"]
  | depth, dim :: rest =>
    if rest.isEmpty && lcm_is_primitive_type lm.type && lm.type != "string" then
      (if !lcm_is_constant_size_array lm then
        [emit (1 + depth) ("this->" ++ lm.membername ++ loop_indices depth ++ ".resize(" ++
            dim_size_prefix dim.size ++ dim.size ++ ");"),
         emit (1 + depth) ("if(" ++ dim_size_prefix dim.size ++ dim.size ++ ")")]
      else []) ++
      [emit (if !lcm_is_constant_size_array lm then 1 + depth + 1 else 1 + depth)
          ("tlen = __" ++ lm.type ++
          "_decode_array(buf, offset + pos, maxlen - pos, &this->" ++ lm.membername ++
          loop_indices depth ++ "[0], " ++ dim_size_prefix dim.size ++ dim.size ++ ");"),
       emit (1 + depth) "if(tlen < 0) return tlen; else pos += tlen;"]
    else
      [emit (1 + depth) ("this->" ++ lm.membername ++ loop_indices depth ++ ".resize(" ++
          dim_size_prefix dim.size ++ dim.size ++ ");"),
       emit (1 + depth) ("for (int a" ++ toString depth ++ " = 0; a" ++ toString depth ++
          " < " ++ dim_size_prefix dim.size ++ dim.size ++ "; a" ++ toString depth ++
          "++) \x7b")] ++
      _decode_recursive lm (depth + 1) rest ++
      [emit (1 + depth) "\x7d"]

/-- The lines printed by `emit_decode_nohash` for a struct; `ls.structname` stands for
the short name of a struct outside any package. -/
def emit_decode_nohash (ls : lcm_struct_t) : List String :=
  [emit 0 ("int " ++ ls.structname ++
      "::_decodeNoHash(const void *buf, int offset, int maxlen)"),
   emit 0 "\x7b"] ++
  (if ls.members.length = 0 then [emit 1 "return 0;", emit 0 "\x7d", emit 0 " "]
   else
    [emit 1 "int pos = 0, tlen;", emit 0 ""] ++
    ls.members.flatMap (fun lm =>
      (if lm.dimensions.length = 0 && lcm_is_primitive_type lm.type then
        (if lm.type = "string" then
          [emit 1 ("int32_t __" ++ lm.membername ++ "_len__;"),
           emit 1 ("tlen = __int32_t_decode_array(buf, offset + pos, maxlen - pos, &__" ++
              lm.membername ++ "_len__, 1);"),
           emit 1 "if(tlen < 0) return tlen; else pos += tlen;",
           emit 1 ("if(__" ++ lm.membername ++ "_len__ > maxlen - pos) return -1;"),
           emit 1 ("this->" ++ lm.membername ++
              ".assign(((const char*)buf) + offset + pos, __" ++ lm.membername ++
              "_len__ - 1);"),
           emit 1 ("pos += __" ++ lm.membername ++ "_len__;")]
        else
          [emit 1 ("tlen = __" ++ lm.type ++
              "_decode_array(buf, offset + pos, maxlen - pos, &this->" ++ lm.membername ++
              ", 1);"),
           emit 1 "if(tlen < 0) return tlen; else pos += tlen;"])
      else _decode_recursive lm 0 lm.dimensions) ++
      [emit 0 " "]) ++
    [emit 1 "return pos;", emit 0 "\x7d", emit 0 ""])

/-- The member `double m[2][3]`, both dimensions constant. -/
def member_m23 : lcm_member_t :=
  ⟨"double", "m", [⟨lcm_dimension_mode_t.LCM_CONST, "2"⟩, ⟨lcm_dimension_mode_t.LCM_CONST, "3"⟩]⟩

/-- The member `string s[3]`, its dimension constant. -/
def member_s3 : lcm_member_t := ⟨"string", "s", [⟨lcm_dimension_mode_t.LCM_CONST, "3"⟩]⟩

/-- The member `int32_t v[4]`, its dimension constant. -/
def member_v4 : lcm_member_t := ⟨"int32_t", "v", [⟨lcm_dimension_mode_t.LCM_CONST, "4"⟩]⟩

/-! ### Coherence of the cache and tracking of scheduled subscriptions -/

/-- The cache agrees with the master list: no channel is cached twice, and the list
cached for a channel holds exactly the subscriptions of the master list whose pattern
matches the channel. -/
structure Coherent (s : lcm_t) : Prop where
  keys : (s.handlers_map.map Prod.fst).Nodup
  cached : ∀ e ∈ s.handlers_map, ∀ h, h ∈ e.2.elems ↔
    (h ∈ s.handlers_all.elems ∧ is_handler_subscriber (s.deref h) e.1 = true)

/-- While a frame on `channel` with `n` scheduled handlers is dispatched: every
subscription of the master list whose `callback_scheduled` is set is among the first `n`
elements of the list of `channel`. -/
def Tracked (n : Nat) (channel : List Char) (s : lcm_t) : Prop :=
  ∀ x ∈ s.handlers_all.elems, (s.deref x).callback_scheduled = true →
    x ∈ (s.handlers_of channel).elems.take n

/-! ## Lemmas on pointer arrays -/

theorem foldl_range_induction {σ : Type} (body : σ → Nat → σ) (P : Nat → σ → Prop) (n : Nat)
    (init : σ) (h0 : P 0 init) (hstep : ∀ i s, i < n → P i s → P (i + 1) (body s i)) :
    P n ((List.range n).foldl body init) := by
  induction n with
  | zero => simpa using h0
  | succ n ih =>
    rw [List.range_succ, List.foldl_append]
    simp only [List.foldl_cons, List.foldl_nil]
    exact hstep n _ (Nat.lt_succ_self n) (ih (fun i s hi hp => hstep i s (Nat.lt_succ_of_lt hi) hp))

theorem remove_elems (a : GPtrArray) (x : Nat) :
    (g_ptr_array_remove a x).1.elems = a.elems.erase x := by
  unfold g_ptr_array_remove
  split
  · rfl
  · rename_i h
    simp [List.erase_of_not_mem h]

theorem remove_found (a : GPtrArray) (x : Nat) :
    (g_ptr_array_remove a x).2 = decide (x ∈ a.elems) := by
  unfold g_ptr_array_remove
  split <;> simp_all

/-- The elements left by `g_ptr_array_remove_fast`, for an array written as `init ++ [last]`. -/
theorem remove_fast_snoc (init : List Nat) (last : Nat) (st : List Nat) (x : Nat)
    (hx : x ∈ init ++ [last]) :
    (g_ptr_array_remove_fast ⟨init ++ [last], st⟩ x).1 =
      ⟨if x ∈ init then init.set (init.indexOf x) last else init, last :: st⟩ := by
  unfold g_ptr_array_remove_fast
  have hl : (init ++ [last]).getLast? = some last := by simp
  simp only [hx, if_true, hl]
  by_cases hin : x ∈ init
  · have hlt : init.indexOf x < init.length := List.indexOf_lt_length.mpr hin
    simp only [hin, if_true]
    rw [List.indexOf_append_of_mem hin, List.set_append_left _ _ hlt]
    simp
  · have hxl : x = last := by simpa [hin] using hx
    subst hxl
    simp only [hin, if_false]
    rw [List.indexOf_append_of_not_mem hin]
    simp
theorem mem_set_indexOf (l : List Nat) (x v y : Nat) (h : y ∈ l.set (l.indexOf x) v) :
    y ∈ l ∨ y = v := by
  induction l with
  | nil => simp at h
  | cons a l ih =>
    rw [List.indexOf_cons] at h
    by_cases hax : a = x
    · simp [hax] at h
      rcases h with h | h
      · right; exact h
      · left; exact List.mem_cons_of_mem _ h
    · have hne : (a == x) = false := by simpa using hax
      simp [hne] at h
      rcases h with h | h
      · left; simp [h]
      · rcases ih h with h2 | h2
        · left; exact List.mem_cons_of_mem _ h2
        · right; exact h2

theorem nodup_set_indexOf (l : List Nat) (x v : Nat) (hl : l.Nodup) (hv : v ∉ l) :
    (l.set (l.indexOf x) v).Nodup := by
  induction l with
  | nil => simp
  | cons a l ih =>
    rw [List.indexOf_cons]
    have hl2 := List.nodup_cons.mp hl
    by_cases hax : a = x
    · simp [hax]
      exact ⟨fun h => hv (List.mem_cons_of_mem _ h), hl2.2⟩
    · have hne : (a == x) = false := by simpa using hax
      simp [hne]
      refine ⟨fun h => ?_, ih hl2.2 (fun h => hv (List.mem_cons_of_mem _ h))⟩
      rcases mem_set_indexOf l x v a h with h2 | h2
      · exact hl2.1 h2
      · exact hv (by simp [h2])

theorem not_mem_set_indexOf (l : List Nat) (x v : Nat) (hl : l.Nodup) (hxv : x ≠ v) :
    x ∉ l.set (l.indexOf x) v := by
  induction l with
  | nil => simp
  | cons a l ih =>
    rw [List.indexOf_cons]
    have hl2 := List.nodup_cons.mp hl
    by_cases hax : a = x
    · subst hax
      simp
      exact ⟨hxv, hl2.1⟩
    · have hne : (a == x) = false := by simpa using hax
      simp [hne]
      exact ⟨fun h => hax h.symm, ih hl2.2⟩

theorem mem_set_indexOf_of_ne (l : List Nat) (x v y : Nat) (hy : y ∈ l) (hyx : y ≠ x) :
    y ∈ l.set (l.indexOf x) v := by
  induction l with
  | nil => simp at hy
  | cons a l ih =>
    rw [List.indexOf_cons]
    by_cases hax : a = x
    · subst hax
      simp
      right
      rcases List.mem_cons.mp hy with h | h
      · exact absurd h hyx
      · exact h
    · have hne : (a == x) = false := by simpa using hax
      simp [hne]
      rcases List.mem_cons.mp hy with h | h
      · left; exact h
      · right; exact ih h

/-- Every array is empty or ends in a last element. -/
theorem elems_snoc_cases (l : List Nat) : l = [] ∨ ∃ init last, l = init ++ [last] := by
  rcases List.eq_nil_or_concat l with h | ⟨init, last, h⟩
  · left; exact h
  · right; exact ⟨init, last, by simpa using h⟩

theorem remove_fast_not_mem (a : GPtrArray) (x : Nat) (hx : x ∉ a.elems) :
    g_ptr_array_remove_fast a x = (a, false) := by
  unfold g_ptr_array_remove_fast
  simp [hx]

theorem mem_remove_fast (a : GPtrArray) (x y : Nat)
    (h : y ∈ (g_ptr_array_remove_fast a x).1.elems) : y ∈ a.elems := by
  by_cases hx : x ∈ a.elems
  · rcases elems_snoc_cases a.elems with hnil | ⟨init, last, hl⟩
    · rw [hnil] at hx; simp at hx
    · obtain ⟨el, st⟩ := a
      simp only at hl hx h ⊢
      subst hl
      rw [remove_fast_snoc init last st x hx] at h
      simp only at h
      split at h
      · rcases mem_set_indexOf init x last y h with h2 | h2
        · simp [h2]
        · simp [h2]
      · simp [h]
  · rw [remove_fast_not_mem a x hx] at h; exact h

theorem nodup_remove_fast (a : GPtrArray) (x : Nat) (hn : a.elems.Nodup) :
    (g_ptr_array_remove_fast a x).1.elems.Nodup := by
  by_cases hx : x ∈ a.elems
  · rcases elems_snoc_cases a.elems with hnil | ⟨init, last, hl⟩
    · rw [hnil] at hx; simp at hx
    · obtain ⟨el, st⟩ := a
      simp only at hl hx hn ⊢
      subst hl
      rw [remove_fast_snoc init last st x hx]
      simp only
      have hn2 : init.Nodup ∧ last ∉ init := by
        have := List.nodup_append.mp hn
        refine ⟨this.1, fun h => ?_⟩
        exact (List.disjoint_left.mp this.2.2) h (by simp)
      split
      · exact nodup_set_indexOf init x last hn2.1 hn2.2
      · exact hn2.1
  · rw [remove_fast_not_mem a x hx]; exact hn

theorem not_mem_remove_fast (a : GPtrArray) (x : Nat) (hn : a.elems.Nodup) :
    x ∉ (g_ptr_array_remove_fast a x).1.elems := by
  by_cases hx : x ∈ a.elems
  · rcases elems_snoc_cases a.elems with hnil | ⟨init, last, hl⟩
    · rw [hnil] at hx; simp at hx
    · obtain ⟨el, st⟩ := a
      simp only at hl hx hn ⊢
      subst hl
      rw [remove_fast_snoc init last st x hx]
      simp only
      have hn2 : init.Nodup ∧ last ∉ init := by
        have := List.nodup_append.mp hn
        refine ⟨this.1, fun h => ?_⟩
        exact (List.disjoint_left.mp this.2.2) h (by simp)
      split
      · rename_i hin
        exact not_mem_set_indexOf init x last hn2.1 (fun h => hn2.2 (h ▸ hin))
      · rename_i hin; exact hin
  · rw [remove_fast_not_mem a x hx]; exact hx

theorem mem_remove_fast_of_ne (a : GPtrArray) (x y : Nat) (hy : y ∈ a.elems) (hyx : y ≠ x)
    (hn : a.elems.Nodup) : y ∈ (g_ptr_array_remove_fast a x).1.elems := by
  by_cases hx : x ∈ a.elems
  · rcases elems_snoc_cases a.elems with hnil | ⟨init, last, hl⟩
    · rw [hnil] at hx; simp at hx
    · obtain ⟨el, st⟩ := a
      simp only at hl hx hn hy ⊢
      subst hl
      rw [remove_fast_snoc init last st x hx]
      simp only
      have hn2 : init.Nodup ∧ last ∉ init := by
        have := List.nodup_append.mp hn
        refine ⟨this.1, fun h => ?_⟩
        exact (List.disjoint_left.mp this.2.2) h (by simp)
      rcases List.mem_append.mp hy with h1 | h1
      · split
        · exact mem_set_indexOf_of_ne init x last y h1 hyx
        · exact h1
      · have hyl : y = last := by simpa using h1
        subst hyl
        have hxin : x ∈ init := by
          rcases List.mem_append.mp hx with h2 | h2
          · exact h2
          · exact absurd (by simpa using h2 : x = y).symm hyx
        simp only [hxin, if_true]
        have hlt : init.indexOf x < init.length := List.indexOf_lt_length.mpr hxin
        exact List.mem_iff_getElem.mpr ⟨init.indexOf x, by simpa using hlt, by simp⟩
  · rw [remove_fast_not_mem a x hx]; exact hy
theorem mem_take_iff_index (l : List Nat) (n y : Nat) :
    y ∈ l.take n ↔ ∃ i, i < n ∧ l[i]? = some y := by
  rw [List.mem_iff_getElem?]
  constructor
  · rintro ⟨i, hi⟩
    rw [List.getElem?_take] at hi
    by_cases h : i < n
    · exact ⟨i, h, by simpa [h] using hi⟩
    · simp [h] at hi
  · rintro ⟨i, h, hi⟩
    exact ⟨i, by rw [List.getElem?_take]; simpa [h] using hi⟩

theorem index_add (a : GPtrArray) (d i : Nat) :
    g_ptr_array_index (g_ptr_array_add a d) i =
      if i = a.len then some d else g_ptr_array_index a i := by
  obtain ⟨el, st⟩ := a
  simp only [g_ptr_array_index, g_ptr_array_add, GPtrArray.slots, GPtrArray.len,
    List.get?_eq_getElem?, List.append_assoc]
  rcases Nat.lt_trichotomy i el.length with h | h | h
  · rw [List.getElem?_append_left h, List.getElem?_append_left h]
    simp [Nat.ne_of_lt h]
  · subst h
    rw [List.getElem?_append_right (Nat.le_refl _)]
    simp
  · have hle : el.length ≤ i := Nat.le_of_lt h
    rw [List.getElem?_append_right hle, List.getElem?_append_right hle]
    obtain ⟨k, hk⟩ : ∃ k, i - el.length = k + 1 := ⟨i - el.length - 1, by omega⟩
    simp only [hk, Nat.ne_of_gt h, if_false]
    cases st with
    | nil => simp
    | cons s ss => simp

theorem index_remove_fast (a : GPtrArray) (x i : Nat) (hx : x ∈ a.elems) :
    g_ptr_array_index (g_ptr_array_remove_fast a x).1 i =
      if i = a.elems.indexOf x then a.elems.getLast? else g_ptr_array_index a i := by
  rcases elems_snoc_cases a.elems with hnil | ⟨init, last, hl⟩
  · rw [hnil] at hx; simp at hx
  · obtain ⟨el, st⟩ := a
    simp only at hl hx ⊢
    subst hl
    rw [remove_fast_snoc init last st x hx]
    have hlast : (init ++ [last]).getLast? = some last := by simp
    simp only [g_ptr_array_index, GPtrArray.slots, List.get?_eq_getElem?, hlast,
      List.append_assoc, List.singleton_append]
    by_cases hin : x ∈ init
    · have hlt : init.indexOf x < init.length := List.indexOf_lt_length.mpr hin
      simp only [hin, if_true, List.indexOf_append_of_mem hin]
      by_cases hi : i = init.indexOf x
      · subst hi
        simp only [if_true]
        rw [List.getElem?_append_left (by simpa using hlt)]
        simp [hlt]
      · simp only [hi, if_false]
        rcases Nat.lt_or_ge i init.length with h | h
        · rw [List.getElem?_append_left (by simpa using h), List.getElem?_append_left h]
          rw [List.getElem?_set_ne (fun h2 => hi h2.symm)]
        · rw [List.getElem?_append_right (by simpa using h), List.getElem?_append_right h]
          simp
    · simp only [hin, if_false, List.indexOf_append_of_not_mem hin]
      have hxl : x = last := by simpa [hin] using hx
      subst hxl
      simp only [List.indexOf_cons_self, Nat.add_zero]
      by_cases hi : i = init.length
      · subst hi
        rw [List.getElem?_append_right (Nat.le_refl _)]
        simp
      · simp [hi]

theorem add_slots_take (a : GPtrArray) (d n y : Nat)
    (h : y ∈ (g_ptr_array_add a d).slots.take n) : y ∈ a.slots.take n ∨ y = d := by
  rw [mem_take_iff_index] at h
  obtain ⟨i, hi, hy⟩ := h
  have := index_add a d i
  simp only [g_ptr_array_index, List.get?_eq_getElem?] at this
  rw [this] at hy
  split at hy
  · right; simpa using hy.symm
  · left; exact (mem_take_iff_index _ _ _).mpr ⟨i, hi, hy⟩

theorem remove_fast_slots_take (a : GPtrArray) (x n y : Nat)
    (h : y ∈ (g_ptr_array_remove_fast a x).1.slots.take n) :
    y ∈ a.slots.take n ∨ y ∈ a.elems := by
  by_cases hx : x ∈ a.elems
  · rw [mem_take_iff_index] at h
    obtain ⟨i, hi, hy⟩ := h
    have := index_remove_fast a x i hx
    simp only [g_ptr_array_index, List.get?_eq_getElem?] at this
    rw [this] at hy
    split at hy
    · right
      exact List.mem_of_getLast?_eq_some hy
    · left; exact (mem_take_iff_index _ _ _).mpr ⟨i, hi, hy⟩
  · rw [remove_fast_not_mem a x hx] at h
    left; exact h
/-! ## Lemmas on the registry operations -/

theorem lookup_map_entry (f : List Char × GPtrArray → List Char × GPtrArray)
    (hf : ∀ e, (f e).1 = e.1) (l : List (List Char × GPtrArray)) (c : List Char) :
    (l.map f).lookup c = (l.lookup c).map (fun a => (f (c, a)).2) := by
  induction l with
  | nil => rfl
  | cons e l ih =>
    obtain ⟨k, a⟩ := e
    have h1 : f (k, a) = (k, (f (k, a)).2) := by
      have := hf (k, a)
      exact Prod.ext this rfl
    rw [List.map_cons, h1, List.lookup_cons, List.lookup_cons]
    by_cases hck : c = k
    · subst hck; simp
    · have : (c == k) = false := by simpa using hck
      simp only [this]
      exact ih

theorem mem_of_lookup (l : List (List Char × GPtrArray)) (c : List Char) (a : GPtrArray)
    (h : l.lookup c = some a) : (c, a) ∈ l := by
  induction l with
  | nil => simp at h
  | cons e l ih =>
    obtain ⟨k, b⟩ := e
    rw [List.lookup_cons] at h
    by_cases hck : c = k
    · subst hck
      simp at h
      simp [h]
    · have : (c == k) = false := by simpa using hck
      simp only [this] at h
      exact List.mem_cons_of_mem _ (ih h)

theorem handlers_of_mem (s : lcm_t) (c : List Char) :
    s.handlers_of c = g_ptr_array_new ∨ (c, s.handlers_of c) ∈ s.handlers_map := by
  unfold lcm_t.handlers_of
  cases h : s.handlers_map.lookup c with
  | none => left; rfl
  | some a => right; exact mem_of_lookup _ _ _ h

theorem unsubscribe_eq (s : lcm_t) (x : Nat) :
    lcm_unsubscribe s x =
      if x ∈ s.handlers_all.elems then
        (if (s.deref x).callback_scheduled then
          { handlers_all := (g_ptr_array_remove s.handlers_all x).1,
            handlers_map := s.handlers_map.map (map_remove_handler_callback x),
            heap := s.heap.set x { s.deref x with marked_for_deletion := true },
            freed := s.freed }
        else
          { handlers_all := (g_ptr_array_remove s.handlers_all x).1,
            handlers_map := s.handlers_map.map (map_remove_handler_callback x),
            heap := s.heap.set x zeroed,
            freed := s.freed ++ [x] }, 0)
      else (s, -1) := by
  unfold lcm_unsubscribe
  simp only [remove_found]
  by_cases hx : x ∈ s.handlers_all.elems
  · simp only [hx, decide_True, if_true]
    cases hc : (s.deref x).callback_scheduled <;>
      simp [lcm_t.deref, lcm_handler_free] at hc ⊢ <;> simp [hc]
  · simp [hx]

theorem unsubscribe_ret (s : lcm_t) (x : Nat) :
    (lcm_unsubscribe s x).2 = if x ∈ s.handlers_all.elems then 0 else -1 := by
  rw [unsubscribe_eq]; split <;> rfl

theorem unsubscribe_all (s : lcm_t) (x : Nat) :
    (lcm_unsubscribe s x).1.handlers_all.elems = s.handlers_all.elems.erase x := by
  rw [unsubscribe_eq]
  by_cases hx : x ∈ s.handlers_all.elems
  · simp only [hx, if_true]
    split <;> exact remove_elems _ _
  · simp [hx, List.erase_of_not_mem hx]

theorem unsubscribe_map (s : lcm_t) (x : Nat) (hx : x ∈ s.handlers_all.elems) :
    (lcm_unsubscribe s x).1.handlers_map = s.handlers_map.map (map_remove_handler_callback x) := by
  rw [unsubscribe_eq]
  simp only [hx, if_true]
  split <;> rfl

theorem unsubscribe_heap_length (s : lcm_t) (x : Nat) :
    (lcm_unsubscribe s x).1.heap.length = s.heap.length := by
  rw [unsubscribe_eq]
  split
  · split <;> simp
  · rfl

theorem unsubscribe_deref_ne (s : lcm_t) (x y : Nat) (hy : y ≠ x) :
    (lcm_unsubscribe s x).1.deref y = s.deref y := by
  rw [unsubscribe_eq]
  split
  · split <;> simp [lcm_t.deref, List.getD_eq_getElem?_getD, List.getElem?_set_ne (Ne.symm hy)]
  · rfl

theorem deref_set_self (s : lcm_t) (x : Nat) (r : lcm_subscription_t) (hx : x < s.heap.length) :
    (s.heap.set x r).getD x zeroed = r := by
  simp [List.getD_eq_getElem?_getD, hx]

theorem unsubscribe_deref_self (s : lcm_t) (x : Nat) (hx : x ∈ s.handlers_all.elems)
    (hb : x < s.heap.length) :
    (lcm_unsubscribe s x).1.deref x =
      if (s.deref x).callback_scheduled then { s.deref x with marked_for_deletion := true }
      else zeroed := by
  rw [unsubscribe_eq]
  simp only [hx, if_true]
  split
  · exact deref_set_self s x _ hb
  · exact deref_set_self s x _ hb
theorem wf_unsubscribe (s : lcm_t) (x : Nat) (w : WF s) : WF (lcm_unsubscribe s x).1 := by
  by_cases hx : x ∈ s.handlers_all.elems
  · refine ⟨?_, ?_, ?_, ?_, ?_⟩
    · rw [unsubscribe_all]; exact w.nodup_all.erase x
    · intro y hy
      rw [unsubscribe_all] at hy
      rw [unsubscribe_heap_length]
      exact w.bounded y (List.mem_of_mem_erase hy)
    · intro y hy
      rw [unsubscribe_all] at hy
      have hne : y ≠ x := ((List.Nodup.mem_erase_iff w.nodup_all).mp hy).1
      rw [unsubscribe_deref_ne s x y hne]
      exact w.unmarked y (List.mem_of_mem_erase hy)
    · intro p hp
      rw [unsubscribe_map s x hx] at hp
      obtain ⟨e, he, rfl⟩ := List.mem_map.mp hp
      exact nodup_remove_fast e.2 x (w.nodup_map e he)
    · intro p hp y hy
      rw [unsubscribe_map s x hx] at hp
      obtain ⟨e, he, rfl⟩ := List.mem_map.mp hp
      rw [unsubscribe_all]
      have hne : y ≠ x := fun h => not_mem_remove_fast e.2 x (w.nodup_map e he) (h ▸ hy)
      exact (List.mem_erase_of_ne hne).mpr (w.sub_map e he y (mem_remove_fast e.2 x y hy))
  · rw [unsubscribe_eq]; simpa [hx] using w

theorem gone_unsubscribe (s : lcm_t) (x h : Nat) (g : Gone h s) : Gone h (lcm_unsubscribe s x).1 := by
  by_cases hx : x ∈ s.handlers_all.elems
  · refine ⟨?_, ?_, ?_⟩
    · rw [unsubscribe_heap_length]; exact g.1
    · rw [unsubscribe_all]; exact fun hm => g.2.1 (List.mem_of_mem_erase hm)
    · intro p hp hm
      rw [unsubscribe_map s x hx] at hp
      obtain ⟨e, he, rfl⟩ := List.mem_map.mp hp
      exact g.2.2 e he (mem_remove_fast e.2 x h hm)
  · rw [unsubscribe_eq]; simpa [hx] using g

/-- After a successful `lcm_unsubscribe` the subscription is in no list. -/
theorem gone_of_unsubscribe (s : lcm_t) (x : Nat) (w : WF s)
    (h0 : (lcm_unsubscribe s x).2 = 0) : Gone x (lcm_unsubscribe s x).1 := by
  have hx : x ∈ s.handlers_all.elems := by
    rw [unsubscribe_ret] at h0
    by_contra hn
    simp [hn] at h0
  refine ⟨?_, ?_, ?_⟩
  · rw [unsubscribe_heap_length]; exact w.bounded x hx
  · rw [unsubscribe_all]
    exact fun hm => ((List.Nodup.mem_erase_iff w.nodup_all).mp hm).1 rfl
  · intro p hp
    rw [unsubscribe_map s x hx] at hp
    obtain ⟨e, he, rfl⟩ := List.mem_map.mp hp
    exact not_mem_remove_fast e.2 x (w.nodup_map e he)

/-- What `lcm_subscribe` does: nothing when the pattern does not compile, otherwise a new
record, appended to the master list and to every cached list whose channel it matches. -/
theorem subscribe_cases (s : lcm_t) (p : List Char) :
    (regcomp ('^' :: p ++ ['$']) = none ∧ lcm_subscribe s p = (s, none)) ∨
    ∃ preg, regcomp ('^' :: p ++ ['$']) = some preg ∧
      lcm_subscribe s p =
        ({ handlers_all := g_ptr_array_add s.handlers_all s.heap.length,
           handlers_map := s.handlers_map.map (fun e =>
             if is_handler_subscriber ⟨p, preg, false, false⟩ e.1
             then (e.1, g_ptr_array_add e.2 s.heap.length) else e),
           heap := s.heap ++ [⟨p, preg, false, false⟩],
           freed := s.freed }, some s.heap.length) := by
  unfold lcm_subscribe
  cases h : regcomp ('^' :: p ++ ['$']) with
  | none => left; simp
  | some preg =>
    right
    refine ⟨preg, rfl, ?_⟩
    simp only [Prod.mk.injEq, and_true]
    congr 1
    apply List.map_congr_left
    intro e _
    simp [map_add_handler_callback, lcm_t.deref, List.getD_eq_getElem?_getD]
    split <;> simp_all

theorem deref_append_old (heap : List lcm_subscription_t) (r : lcm_subscription_t) (y : Nat)
    (hy : y < heap.length) : (heap ++ [r]).getD y zeroed = heap.getD y zeroed := by
  simp [List.getD_eq_getElem?_getD, List.getElem?_append_left hy]

theorem wf_subscribe (s : lcm_t) (p : List Char) (w : WF s) : WF (lcm_subscribe s p).1 := by
  rcases subscribe_cases s p with ⟨_, h⟩ | ⟨preg, _, h⟩
  · rw [h]; exact w
  · rw [h]
    have hfresh : s.heap.length ∉ s.handlers_all.elems :=
      fun hm => Nat.lt_irrefl _ (w.bounded _ hm)
    refine ⟨?_, ?_, ?_, ?_, ?_⟩
    · simp only [g_ptr_array_add]
      exact List.nodup_append.mpr ⟨w.nodup_all, List.nodup_singleton _, by simpa using hfresh⟩
    · intro y hy
      simp only [g_ptr_array_add, List.mem_append, List.mem_singleton] at hy
      simp only [List.length_append, List.length_singleton]
      rcases hy with hy | hy
      · exact Nat.lt_succ_of_lt (w.bounded y hy)
      · omega
    · intro y hy
      simp only [g_ptr_array_add, List.mem_append, List.mem_singleton] at hy
      simp only [lcm_t.deref]
      rcases hy with hy | hy
      · rw [deref_append_old _ _ _ (w.bounded y hy)]
        exact w.unmarked y hy
      · subst hy
        simp [List.getD_eq_getElem?_getD]
    · intro q hq
      simp only at hq
      obtain ⟨e, he, rfl⟩ := List.mem_map.mp hq
      split
      · simp only [g_ptr_array_add]
        refine List.nodup_append.mpr ⟨w.nodup_map e he, List.nodup_singleton _, ?_⟩
        simpa using fun hm => hfresh (w.sub_map e he _ hm)
      · exact w.nodup_map e he
    · intro q hq y hy
      simp only at hq
      obtain ⟨e, he, rfl⟩ := List.mem_map.mp hq
      simp only [g_ptr_array_add, List.mem_append, List.mem_singleton]
      split at hy
      · simp only [g_ptr_array_add, List.mem_append, List.mem_singleton] at hy
        rcases hy with hy | hy
        · left; exact w.sub_map e he y hy
        · right; exact hy
      · left; exact w.sub_map e he y hy

theorem gone_subscribe (s : lcm_t) (p : List Char) (h : Nat) (g : Gone h s) :
    Gone h (lcm_subscribe s p).1 := by
  rcases subscribe_cases s p with ⟨_, hs⟩ | ⟨preg, _, hs⟩
  · rw [hs]; exact g
  · rw [hs]
    have hne : h ≠ s.heap.length := Nat.ne_of_lt g.1
    refine ⟨?_, ?_, ?_⟩
    · simp only [List.length_append, List.length_singleton]; exact Nat.lt_succ_of_lt g.1
    · simp only [g_ptr_array_add, List.mem_append, List.mem_singleton]
      exact fun hm => hm.elim g.2.1 hne
    · intro q hq
      simp only at hq
      obtain ⟨e, he, rfl⟩ := List.mem_map.mp hq
      split
      · simp only [g_ptr_array_add, List.mem_append, List.mem_singleton]
        exact fun hm => hm.elim (g.2.2 e he) hne
      · exact g.2.2 e he
theorem foldl_add_filter (P : Nat → Bool) (l acc : List Nat) :
    l.foldl (fun hs h => if P h then g_ptr_array_add hs h else hs) ⟨acc, []⟩ =
      ⟨acc ++ l.filter P, []⟩ := by
  induction l generalizing acc with
  | nil => simp
  | cons a l ih =>
    simp only [List.foldl_cons]
    cases hp : P a
    · simp [hp, ih]
    · have := ih (acc ++ [a])
      simp only [hp, if_true, g_ptr_array_add, List.drop_nil] at this ⊢
      rw [this]
      simp [List.filter_cons, hp]

/-- What `lcm_get_handlers` does: it returns the cached list, or caches the matching part
of the master list. -/
theorem get_handlers_cases (s : lcm_t) (c : List Char) :
    (∃ a, s.handlers_map.lookup c = some a ∧ lcm_get_handlers s c = (s, a)) ∨
    (s.handlers_map.lookup c = none ∧
      lcm_get_handlers s c =
        ({ s with handlers_map := s.handlers_map ++
            [(c, ⟨s.handlers_all.elems.filter (fun h => is_handler_subscriber (s.deref h) c), []⟩)] },
          ⟨s.handlers_all.elems.filter (fun h => is_handler_subscriber (s.deref h) c), []⟩)) := by
  unfold lcm_get_handlers
  cases h : s.handlers_map.lookup c with
  | some a => left; exact ⟨a, rfl, rfl⟩
  | none =>
    right
    refine ⟨rfl, ?_⟩
    have := foldl_add_filter (fun h => is_handler_subscriber (s.deref h) c) s.handlers_all.elems []
    simp only [List.nil_append] at this
    simp only [g_ptr_array_new, this]

theorem handlers_of_get_handlers (s : lcm_t) (c : List Char) :
    (lcm_get_handlers s c).1.handlers_of c = (lcm_get_handlers s c).2 := by
  rcases get_handlers_cases s c with ⟨a, hl, h⟩ | ⟨hl, h⟩
  · rw [h]; simp [lcm_t.handlers_of, hl]
  · rw [h]; simp [lcm_t.handlers_of, List.lookup_append, hl]

theorem wf_get_handlers (s : lcm_t) (c : List Char) (w : WF s) : WF (lcm_get_handlers s c).1 := by
  rcases get_handlers_cases s c with ⟨a, _, h⟩ | ⟨_, h⟩
  · rw [h]; exact w
  · rw [h]
    refine ⟨w.nodup_all, w.bounded, w.unmarked, ?_, ?_⟩
    · intro p hp
      simp only [List.mem_append, List.mem_singleton] at hp
      rcases hp with hp | hp
      · exact w.nodup_map p hp
      · subst hp; exact w.nodup_all.filter _
    · intro p hp y hy
      simp only [List.mem_append, List.mem_singleton] at hp
      rcases hp with hp | hp
      · exact w.sub_map p hp y hy
      · subst hp; exact List.mem_of_mem_filter hy

theorem gone_get_handlers (s : lcm_t) (c : List Char) (h : Nat) (g : Gone h s) :
    Gone h (lcm_get_handlers s c).1 := by
  rcases get_handlers_cases s c with ⟨a, _, hs⟩ | ⟨_, hs⟩
  · rw [hs]; exact g
  · rw [hs]
    refine ⟨g.1, g.2.1, ?_⟩
    intro p hp
    simp only [List.mem_append, List.mem_singleton] at hp
    rcases hp with hp | hp
    · exact g.2.2 p hp
    · subst hp; exact fun hm => g.2.1 (List.mem_of_mem_filter hm)

theorem get_handlers_frame (s : lcm_t) (c : List Char) :
    (lcm_get_handlers s c).1.heap = s.heap ∧
    (lcm_get_handlers s c).1.handlers_all = s.handlers_all := by
  rcases get_handlers_cases s c with ⟨a, _, hs⟩ | ⟨_, hs⟩ <;> rw [hs] <;> exact ⟨rfl, rfl⟩

/-! ### Flags -/

theorem set_callback_scheduled_marked (s : lcm_t) (h y : Nat) (v : Bool) :
    ((set_callback_scheduled s h v).deref y).marked_for_deletion =
      (s.deref y).marked_for_deletion := by
  simp only [set_callback_scheduled, lcm_t.deref, List.getD_eq_getElem?_getD]
  by_cases hy : y = h
  · subst hy
    by_cases hb : y < s.heap.length
    · simp [hb]
    · have h1 : (s.heap.set y { s.heap[y]?.getD zeroed with callback_scheduled := v })[y]? = none := by
        rw [List.getElem?_eq_none]; simpa using Nat.le_of_not_lt hb
      have h2 : s.heap[y]? = none := List.getElem?_eq_none (Nat.le_of_not_lt hb)
      rw [h1, h2]
  · rw [List.getElem?_set_ne (Ne.symm hy)]

theorem wf_set_callback_scheduled (s : lcm_t) (h : Nat) (v : Bool) (w : WF s) :
    WF (set_callback_scheduled s h v) := by
  refine ⟨w.nodup_all, ?_, ?_, w.nodup_map, w.sub_map⟩
  · intro y hy
    simp only [set_callback_scheduled, List.length_set]
    exact w.bounded y hy
  · intro y hy
    rw [set_callback_scheduled_marked]
    exact w.unmarked y hy

theorem gone_set_callback_scheduled (s : lcm_t) (h x : Nat) (v : Bool) (g : Gone x s) :
    Gone x (set_callback_scheduled s h v) := by
  refine ⟨?_, g.2.1, g.2.2⟩
  simp only [set_callback_scheduled, List.length_set]
  exact g.1

/-! ### Deletion at the end of a dispatch -/

theorem wf_dispatch_delete (s : lcm_t) (x : Nat) (w : WF s) : WF (dispatch_delete s x) := by
  simp only [dispatch_delete, lcm_handler_free]
  refine ⟨?_, ?_, ?_, ?_, ?_⟩
  · simp only [remove_elems]; exact w.nodup_all.erase x
  · intro y hy
    simp only [remove_elems] at hy
    simp only [List.length_set]
    exact w.bounded y (List.mem_of_mem_erase hy)
  · intro y hy
    simp only [remove_elems] at hy
    have hne : y ≠ x := ((List.Nodup.mem_erase_iff w.nodup_all).mp hy).1
    have := w.unmarked y (List.mem_of_mem_erase hy)
    simp only [lcm_t.deref, List.getD_eq_getElem?_getD] at this
    simp only [lcm_t.deref, List.getD_eq_getElem?_getD, List.getElem?_set_ne (Ne.symm hne)]
    exact this
  · intro p hp
    simp only at hp
    obtain ⟨e, he, rfl⟩ := List.mem_map.mp hp
    exact nodup_remove_fast e.2 x (w.nodup_map e he)
  · intro p hp y hy
    simp only at hp
    obtain ⟨e, he, rfl⟩ := List.mem_map.mp hp
    simp only [remove_elems]
    have hne : y ≠ x := fun h => not_mem_remove_fast e.2 x (w.nodup_map e he) (h ▸ hy)
    exact (List.mem_erase_of_ne hne).mpr (w.sub_map e he y (mem_remove_fast e.2 x y hy))

theorem gone_dispatch_delete (s : lcm_t) (x h : Nat) (g : Gone h s) :
    Gone h (dispatch_delete s x) := by
  simp only [dispatch_delete, lcm_handler_free]
  refine ⟨?_, ?_, ?_⟩
  · simp only [List.length_set]; exact g.1
  · simp only [remove_elems]; exact fun hm => g.2.1 (List.mem_of_mem_erase hm)
  · intro p hp hm
    simp only at hp
    obtain ⟨e, he, rfl⟩ := List.mem_map.mp hp
    exact g.2.2 e he (mem_remove_fast e.2 x h hm)
/-! ### The cached list of one channel under the operations -/

theorem handlers_of_unsubscribe (s : lcm_t) (x : Nat) (c : List Char)
    (hx : x ∈ s.handlers_all.elems) :
    (lcm_unsubscribe s x).1.handlers_of c = (g_ptr_array_remove_fast (s.handlers_of c) x).1 := by
  simp only [lcm_t.handlers_of, unsubscribe_map s x hx]
  rw [lookup_map_entry (map_remove_handler_callback x) (fun e => rfl)]
  cases s.handlers_map.lookup c with
  | none => simp [g_ptr_array_new, g_ptr_array_remove_fast]
  | some a => simp [map_remove_handler_callback]

theorem handlers_of_subscribe (s : lcm_t) (p c : List Char) :
    (lcm_subscribe s p).1.handlers_of c = s.handlers_of c ∨
    (lcm_subscribe s p).1.handlers_of c = g_ptr_array_add (s.handlers_of c) s.heap.length := by
  rcases subscribe_cases s p with ⟨_, h⟩ | ⟨preg, _, h⟩
  · left; rw [h]
  · rw [h]
    simp only [lcm_t.handlers_of]
    rw [lookup_map_entry (fun e : List Char × GPtrArray =>
        if is_handler_subscriber ⟨p, preg, false, false⟩ e.1
        then (e.1, g_ptr_array_add e.2 s.heap.length) else e) (fun e => by dsimp only; split <;> rfl)]
    cases s.handlers_map.lookup c with
    | none => left; rfl
    | some a =>
      simp only [Option.map_some', Option.getD_some]
      split
      · right; rfl
      · left; rfl

theorem handlers_of_set_callback_scheduled (s : lcm_t) (h : Nat) (v : Bool) (c : List Char) :
    (set_callback_scheduled s h v).handlers_of c = s.handlers_of c := rfl

/-! ### The calls of a handler -/

theorem wf_run_calls (cs : List Call) (s : lcm_t) (w : WF s) : WF (run_calls s cs).1 := by
  induction cs generalizing s with
  | nil => exact w
  | cons c cs ih =>
    cases c with
    | subscribe p => exact ih _ (wf_subscribe s p w)
    | unsubscribe x => exact ih _ (wf_unsubscribe s x w)

theorem gone_run_calls (cs : List Call) (s : lcm_t) (h : Nat) (g : Gone h s) :
    Gone h (run_calls s cs).1 := by
  induction cs generalizing s with
  | nil => exact g
  | cons c cs ih =>
    cases c with
    | subscribe p => exact ih _ (gone_subscribe s p h g)
    | unsubscribe x => exact ih _ (gone_unsubscribe s x h g)

theorem handler_calls_append (a b : List Event) :
    handler_calls (a ++ b) = handler_calls a ++ handler_calls b := by
  induction a with
  | nil => rfl
  | cons e a ih => cases e <;> simp [handler_calls, ih]

theorem mem_handler_calls (h : Nat) (evs : List Event) :
    h ∈ handler_calls evs ↔ Event.handler h ∈ evs := by
  induction evs with
  | nil => simp [handler_calls]
  | cons e evs ih => cases e <;> simp [handler_calls, ih]

theorem handler_calls_run_calls (cs : List Call) (s : lcm_t) :
    handler_calls (run_calls s cs).2 = [] := by
  induction cs generalizing s with
  | nil => rfl
  | cons c cs ih => cases c <;> simp [run_calls, handler_calls, ih]

theorem gone_of_run_calls (cs : List Call) (s : lcm_t) (x : Nat) (w : WF s)
    (hx : Event.unsubscribe x 0 ∈ (run_calls s cs).2) : Gone x (run_calls s cs).1 := by
  induction cs generalizing s with
  | nil => simp [run_calls] at hx
  | cons c cs ih =>
    cases c with
    | subscribe p =>
      simp only [run_calls, List.mem_cons] at hx
      rcases hx with hx | hx
      · cases hx
      · exact ih _ (wf_subscribe s p w) hx
    | unsubscribe y =>
      simp only [run_calls, List.mem_cons] at hx
      rcases hx with hx | hx
      · injection hx with h1 h2
        subst h1
        exact gone_run_calls cs _ x (gone_of_unsubscribe s x w h2.symm)
      · exact ih _ (wf_unsubscribe s y w) hx

theorem gonein_subscribe (n : Nat) (c : List Char) (h : Nat) (s : lcm_t) (p : List Char)
    (g : GoneIn n c h s) : GoneIn n c h (lcm_subscribe s p).1 := by
  refine ⟨gone_subscribe s p h g.1, ?_⟩
  rcases handlers_of_subscribe s p c with h1 | h1
  · rw [h1]; exact g.2
  · rw [h1]
    intro hm
    rcases add_slots_take _ _ _ _ hm with h2 | h2
    · exact g.2 h2
    · exact Nat.ne_of_lt g.1.1 h2

theorem gonein_unsubscribe (n : Nat) (c : List Char) (h : Nat) (s : lcm_t) (x : Nat)
    (g : GoneIn n c h s) : GoneIn n c h (lcm_unsubscribe s x).1 := by
  refine ⟨gone_unsubscribe s x h g.1, ?_⟩
  by_cases hx : x ∈ s.handlers_all.elems
  · rw [handlers_of_unsubscribe s x c hx]
    intro hm
    rcases remove_fast_slots_take _ _ _ _ hm with h2 | h2
    · exact g.2 h2
    · rcases handlers_of_mem s c with h3 | h3
      · rw [h3] at h2; simp [g_ptr_array_new] at h2
      · exact g.1.2.2 _ h3 h2
  · rw [unsubscribe_eq]; simpa [hx] using g.2

theorem gonein_run_calls (n : Nat) (c : List Char) (h : Nat) (cs : List Call) (s : lcm_t)
    (g : GoneIn n c h s) : GoneIn n c h (run_calls s cs).1 := by
  induction cs generalizing s with
  | nil => exact g
  | cons a cs ih =>
    cases a with
    | subscribe p => exact ih _ (gonein_subscribe n c h s p g)
    | unsubscribe x => exact ih _ (gonein_unsubscribe n c h s x g)
/-! ### The loops of `lcm_dispatch_handlers` -/

theorem run_calls_no_handler (cs : List Call) (s : lcm_t) (h : Nat) :
    Event.handler h ∉ (run_calls s cs).2 := by
  rw [← mem_handler_calls, handler_calls_run_calls]
  simp

theorem wf_dispatch_ref (c : List Char) (s : lcm_t) (i : Nat) (w : WF s) :
    WF (dispatch_ref c s i) := by
  unfold dispatch_ref
  split
  · exact wf_set_callback_scheduled _ _ _ w
  · exact w

theorem gone_dispatch_ref (c : List Char) (s : lcm_t) (i h : Nat) (g : Gone h s) :
    Gone h (dispatch_ref c s i) := by
  unfold dispatch_ref
  split
  · exact gone_set_callback_scheduled _ _ _ _ g
  · exact g

theorem handlers_of_dispatch_ref (c : List Char) (s : lcm_t) (i : Nat) (c2 : List Char) :
    (dispatch_ref c s i).handlers_of c2 = s.handlers_of c2 := by
  unfold dispatch_ref
  split <;> rfl

theorem wf_dispatch_call (hs : Handlers) (c : List Char) (st : lcm_t × List Event) (i : Nat)
    (w : WF st.1) : WF (dispatch_call hs c st i).1 := by
  unfold dispatch_call
  split
  · split
    · exact wf_run_calls _ _ w
    · exact w
  · exact w

theorem gonein_dispatch_call (hs : Handlers) (c : List Char) (st : lcm_t × List Event)
    (n i h : Nat) (hi : i < n) (g : GoneIn n c h st.1) (hev : Event.handler h ∉ st.2) :
    GoneIn n c h (dispatch_call hs c st i).1 ∧ Event.handler h ∉ (dispatch_call hs c st i).2 := by
  unfold dispatch_call
  split
  · rename_i h2 hidx
    split
    · refine ⟨gonein_run_calls n c h _ _ g, ?_⟩
      simp only [List.mem_append, List.mem_cons, not_or]
      refine ⟨hev, ?_, run_calls_no_handler _ _ _⟩
      intro heq
      injection heq with heq
      subst heq
      apply g.2
      simp only [g_ptr_array_index, List.get?_eq_getElem?] at hidx
      exact (mem_take_iff_index _ _ _).mpr ⟨i, hi, hidx⟩
    · exact ⟨g, hev⟩
  · exact ⟨g, hev⟩

theorem gone_of_dispatch_call (hs : Handlers) (c : List Char) (st : lcm_t × List Event)
    (i : Nat) (w : WF st.1) (hinv : ∀ x, Event.unsubscribe x 0 ∈ st.2 → Gone x st.1) :
    ∀ x, Event.unsubscribe x 0 ∈ (dispatch_call hs c st i).2 → Gone x (dispatch_call hs c st i).1 := by
  unfold dispatch_call
  split
  · split
    · intro x hx
      simp only [List.mem_append, List.mem_cons] at hx
      rcases hx with hx | hx | hx
      · exact gone_run_calls _ _ _ (hinv x hx)
      · cases hx
      · exact gone_of_run_calls _ _ _ w hx
    · exact hinv
  · exact hinv

theorem wf_dispatch_unref (c : List Char) (st : lcm_t × List Nat) (i : Nat) (w : WF st.1) :
    WF (dispatch_unref c st i).1 := by
  unfold dispatch_unref
  split
  · dsimp only
    split <;> exact wf_set_callback_scheduled _ _ _ w
  · exact w

theorem gone_dispatch_unref (c : List Char) (st : lcm_t × List Nat) (i h : Nat)
    (g : Gone h st.1) : Gone h (dispatch_unref c st i).1 := by
  unfold dispatch_unref
  split
  · dsimp only
    split <;> exact gone_set_callback_scheduled _ _ _ _ g
  · exact g

theorem wf_foldl_delete (l : List Nat) (s : lcm_t) (w : WF s) : WF (l.foldl dispatch_delete s) := by
  induction l generalizing s with
  | nil => exact w
  | cons a l ih => exact ih _ (wf_dispatch_delete s a w)

theorem gone_foldl_delete (l : List Nat) (s : lcm_t) (h : Nat) (g : Gone h s) :
    Gone h (l.foldl dispatch_delete s) := by
  induction l generalizing s with
  | nil => exact g
  | cons a l ih => exact ih _ (gone_dispatch_delete s a h g)

/-! ### A whole dispatch -/

theorem wf_dispatch (hs : Handlers) (s : lcm_t) (c : List Char) (w : WF s) :
    WF (lcm_dispatch_handlers hs s c).1 := by
  simp only [lcm_dispatch_handlers]
  apply wf_foldl_delete
  apply foldl_range_induction (dispatch_unref c) (fun _ st => WF st.1)
  · apply foldl_range_induction (dispatch_call hs c) (fun _ st => WF st.1)
    · apply foldl_range_induction (dispatch_ref c) (fun _ st => WF st)
      · exact wf_get_handlers s c w
      · intro i st _ h; exact wf_dispatch_ref c st i h
    · intro i st _ h; exact wf_dispatch_call hs c st i h
  · intro i st _ h; exact wf_dispatch_unref c st i h

theorem gone_dispatch (hs : Handlers) (s : lcm_t) (c : List Char) (h : Nat) (g : Gone h s) :
    Gone h (lcm_dispatch_handlers hs s c).1 ∧ Event.handler h ∉ (lcm_dispatch_handlers hs s c).2 := by
  simp only [lcm_dispatch_handlers]
  have g0 : Gone h (lcm_get_handlers s c).1 := gone_get_handlers s c h g
  have h1 := foldl_range_induction (dispatch_ref c)
    (fun _ st => Gone h st ∧ st.handlers_of c = (lcm_get_handlers s c).1.handlers_of c)
    ((lcm_get_handlers s c).1.handlers_of c).len (lcm_get_handlers s c).1 ⟨g0, rfl⟩
    (fun i st _ hp => ⟨gone_dispatch_ref c st i h hp.1, by rw [handlers_of_dispatch_ref]; exact hp.2⟩)
  have h2 := foldl_range_induction (dispatch_call hs c)
    (fun _ st => GoneIn ((lcm_get_handlers s c).1.handlers_of c).len c h st.1 ∧
      Event.handler h ∉ st.2)
    ((lcm_get_handlers s c).1.handlers_of c).len
    ((List.range ((lcm_get_handlers s c).1.handlers_of c).len).foldl (dispatch_ref c)
      (lcm_get_handlers s c).1, [])
    (by
      refine ⟨⟨h1.1, ?_⟩, by simp⟩
      rw [h1.2]
      simp only [GPtrArray.slots, GPtrArray.len, List.take_left']
      rcases handlers_of_mem (lcm_get_handlers s c).1 c with h3 | h3
      · rw [h3]; simp [g_ptr_array_new]
      · exact g0.2.2 _ h3)
    (fun i st hi hp => gonein_dispatch_call hs c st _ i h hi hp.1 hp.2)
  refine ⟨?_, h2.2⟩
  apply gone_foldl_delete
  apply foldl_range_induction (dispatch_unref c) (fun _ st => Gone h st.1)
  · exact h2.1.1
  · intro i st _ hp; exact gone_dispatch_unref c st i h hp

theorem gone_of_dispatch (hs : Handlers) (s : lcm_t) (c : List Char) (w : WF s) (x : Nat)
    (hx : Event.unsubscribe x 0 ∈ (lcm_dispatch_handlers hs s c).2) :
    Gone x (lcm_dispatch_handlers hs s c).1 := by
  simp only [lcm_dispatch_handlers] at hx ⊢
  have w1 : WF ((List.range ((lcm_get_handlers s c).1.handlers_of c).len).foldl (dispatch_ref c)
      (lcm_get_handlers s c).1) := by
    apply foldl_range_induction (dispatch_ref c) (fun _ st => WF st)
    · exact wf_get_handlers s c w
    · intro i st _ h; exact wf_dispatch_ref c st i h
  have h2 := foldl_range_induction (dispatch_call hs c)
    (fun _ st => WF st.1 ∧ ∀ x, Event.unsubscribe x 0 ∈ st.2 → Gone x st.1)
    ((lcm_get_handlers s c).1.handlers_of c).len
    ((List.range ((lcm_get_handlers s c).1.handlers_of c).len).foldl (dispatch_ref c)
      (lcm_get_handlers s c).1, [])
    ⟨w1, by simp⟩
    (fun i st _ hp => ⟨wf_dispatch_call hs c st i hp.1, gone_of_dispatch_call hs c st i hp.1 hp.2⟩)
  apply gone_foldl_delete
  apply foldl_range_induction (dispatch_unref c) (fun _ st => Gone x st.1)
  · exact h2.2 x hx
  · intro i st _ hp; exact gone_dispatch_unref c st i x hp

/-! ### Sequences of steps -/

theorem wf_create : WF lcm_create_registry := by
  refine ⟨?_, ?_, ?_, ?_, ?_⟩ <;> simp [lcm_create_registry, g_ptr_array_new]

theorem wf_run_step (s : lcm_t) (st : Step) (w : WF s) : WF (run_step s st).1 := by
  cases st with
  | subscribe p => exact wf_subscribe s p w
  | unsubscribe x => exact wf_unsubscribe s x w
  | get_handlers c => exact wf_get_handlers s c w
  | has_handlers c =>
    simp only [run_step, lcm_has_handlers]
    split <;> exact wf_get_handlers s c w
  | dispatch hs c => exact wf_dispatch hs s c w

theorem wf_run_steps (steps : List Step) (s : lcm_t) (w : WF s) : WF (run_steps s steps).1 := by
  induction steps generalizing s with
  | nil => exact w
  | cons st steps ih => exact ih _ (wf_run_step s st w)

theorem gone_run_step (s : lcm_t) (st : Step) (h : Nat) (g : Gone h s) :
    Gone h (run_step s st).1 ∧ Event.handler h ∉ (run_step s st).2 := by
  cases st with
  | subscribe p => exact ⟨gone_subscribe s p h g, by simp [run_step]⟩
  | unsubscribe x => exact ⟨gone_unsubscribe s x h g, by simp [run_step]⟩
  | get_handlers c => exact ⟨gone_get_handlers s c h g, by simp [run_step]⟩
  | has_handlers c =>
    simp only [run_step, lcm_has_handlers]
    split <;> exact ⟨gone_get_handlers s c h g, by simp⟩
  | dispatch hs c => exact gone_dispatch hs s c h g

/-- A subscription that is in no list is never invoked again. -/
theorem gone_run_steps (steps : List Step) (s : lcm_t) (h : Nat) (g : Gone h s) :
    Event.handler h ∉ (run_steps s steps).2 := by
  induction steps generalizing s with
  | nil => simp [run_steps]
  | cons st steps ih =>
    simp only [run_steps, List.mem_append, not_or]
    exact ⟨(gone_run_step s st h g).2, ih _ (gone_run_step s st h g).1⟩
/-! ### Registries without unsubscribes -/

theorem deref_append (heap : List lcm_subscription_t) (fr : List Nat) (a : GPtrArray)
    (m : List (List Char × GPtrArray)) (r : lcm_subscription_t) (y : Nat) :
    (lcm_t.mk a m (heap ++ [r]) fr).deref y =
      if y < heap.length then heap.getD y zeroed else if y = heap.length then r else zeroed := by
  simp only [lcm_t.deref, List.getD_eq_getElem?_getD]
  rcases Nat.lt_trichotomy y heap.length with h | h | h
  · simp [h, List.getElem?_append_left h]
  · subst h; simp
  · have h1 : ¬ y < heap.length := Nat.not_lt.mpr (Nat.le_of_lt h)
    have h2 : (heap ++ [r])[y]? = none := by
      rw [List.getElem?_eq_none]; simp; omega
    simp [h1, Nat.ne_of_gt h, h2]

theorem pristine_subscribe (s : lcm_t) (p : List Char) (w : Pristine s) :
    Pristine (lcm_subscribe s p).1 := by
  rcases subscribe_cases s p with ⟨_, h⟩ | ⟨preg, _, h⟩
  · rw [h]; exact w
  · rw [h]
    refine ⟨?_, ?_, ?_⟩
    · simp only [g_ptr_array_add, w.all, List.length_append, List.length_singleton,
        List.range_succ]
    · intro y
      rw [deref_append]
      split
      · exact w.unmarked y
      · split <;> rfl
    · intro q hq
      simp only at hq
      obtain ⟨e, he, rfl⟩ := List.mem_map.mp hq
      have hold : ∀ k : List Char, (List.range s.heap.length).filter
          (fun h => is_handler_subscriber ((lcm_t.mk (g_ptr_array_add s.handlers_all s.heap.length)
            (s.handlers_map.map (fun e =>
              if is_handler_subscriber ⟨p, preg, false, false⟩ e.1
              then (e.1, g_ptr_array_add e.2 s.heap.length) else e))
            (s.heap ++ [⟨p, preg, false, false⟩]) s.freed).deref h) k) =
          (List.range s.heap.length).filter (fun h => is_handler_subscriber (s.deref h) k) := by
        intro k
        apply List.filter_congr
        intro x hx
        rw [deref_append]
        simp [List.mem_range.mp hx, lcm_t.deref]
      simp only [List.length_append, List.length_singleton, List.range_succ, List.filter_append,
        hold]
      split
      · rename_i hm
        simp only [g_ptr_array_add, w.cached e he, List.filter_cons, List.filter_nil]
        rw [deref_append]
        simp [hm]
      · rename_i hm
        simp only [w.cached e he, List.filter_cons, List.filter_nil]
        rw [deref_append]
        simp [hm]

theorem pristine_get_handlers (s : lcm_t) (c : List Char) (w : Pristine s) :
    Pristine (lcm_get_handlers s c).1 := by
  rcases get_handlers_cases s c with ⟨a, _, h⟩ | ⟨_, h⟩
  · rw [h]; exact w
  · rw [h]
    refine ⟨w.all, w.unmarked, ?_⟩
    intro e he
    simp only [List.mem_append, List.mem_singleton] at he
    rcases he with he | he
    · exact w.cached e he
    · subst he
      simp only [w.all]
      rfl

theorem pristine_create : Pristine lcm_create_registry := by
  refine ⟨rfl, ?_, ?_⟩
  · intro y; simp [lcm_create_registry, lcm_t.deref, zeroed]
  · intro e he; simp [lcm_create_registry] at he

/-- After a setup the registry is pristine and its records carry the subscribed patterns. -/
theorem pristine_setup (ops : List Setup) (s : lcm_t) (w : Pristine s) :
    Pristine (run_steps s (ops.map Setup.toStep)).1 ∧
    (run_steps s (ops.map Setup.toStep)).1.heap.map (fun r => r.preg) =
      s.heap.map (fun r => r.preg) ++ subscribed_patterns ops := by
  induction ops generalizing s with
  | nil => simp [run_steps, subscribed_patterns, w]
  | cons op ops ih =>
    cases op with
    | subscribe p =>
      simp only [List.map_cons, Setup.toStep, run_steps, run_step]
      have := ih (lcm_subscribe s p).1 (pristine_subscribe s p w)
      refine ⟨this.1, ?_⟩
      rw [this.2]
      rcases subscribe_cases s p with ⟨hr, h⟩ | ⟨preg, hr, h⟩
      · have hr2 : regcomp ('^' :: (p ++ ['$'])) = none := hr
        simp [h, subscribed_patterns, hr2]
      · have hr2 : regcomp ('^' :: (p ++ ['$'])) = some preg := hr
        simp [h, subscribed_patterns, hr2]
    | get_handlers c =>
      simp only [List.map_cons, Setup.toStep, run_steps, run_step]
      have := ih (lcm_get_handlers s c).1 (pristine_get_handlers s c w)
      refine ⟨this.1, ?_⟩
      rw [this.2, (get_handlers_frame s c).1]
      simp [subscribed_patterns]
theorem subscribe_unmarked (s : lcm_t) (p : List Char)
    (hu : ∀ y, (s.deref y).marked_for_deletion = false) :
    ∀ y, ((lcm_subscribe s p).1.deref y).marked_for_deletion = false := by
  rcases subscribe_cases s p with ⟨_, h⟩ | ⟨preg, _, h⟩
  · rw [h]; exact hu
  · rw [h]
    intro y
    rw [deref_append]
    split
    · exact hu y
    · split <;> rfl

theorem subscribe_extends (s : lcm_t) (p c : List Char) (snap : List Nat)
    (hp : snap <+: (s.handlers_of c).elems) :
    snap <+: ((lcm_subscribe s p).1.handlers_of c).elems := by
  rcases handlers_of_subscribe s p c with h | h
  · rw [h]; exact hp
  · rw [h]
    exact hp.trans (List.prefix_append _ _)

theorem run_subscribes (ps : List (List Char)) (s : lcm_t) (c : List Char) (snap : List Nat)
    (hp : snap <+: (s.handlers_of c).elems)
    (hu : ∀ y, (s.deref y).marked_for_deletion = false) :
    snap <+: ((run_calls s (ps.map Call.subscribe)).1.handlers_of c).elems ∧
    ∀ y, ((run_calls s (ps.map Call.subscribe)).1.deref y).marked_for_deletion = false := by
  induction ps generalizing s with
  | nil => exact ⟨hp, hu⟩
  | cons p ps ih =>
    exact ih (lcm_subscribe s p).1 (subscribe_extends s p c snap hp) (subscribe_unmarked s p hu)

theorem prefix_index (snap l : List Nat) (i : Nat) (hp : snap <+: l) (hi : i < snap.length) :
    l[i]? = snap[i]? := by
  obtain ⟨t, rfl⟩ := hp
  exact List.getElem?_append_left hi

/-- With handlers that only subscribe, the second loop calls the scheduled handlers one
by one. -/
theorem dispatch_call_subscribes (subs : lcm_t → Nat → List (List Char)) (c : List Char)
    (snap : List Nat) (st : lcm_t × List Event) (i : Nat) (hi : i < snap.length)
    (hp : snap <+: (st.1.handlers_of c).elems)
    (hu : ∀ y, (st.1.deref y).marked_for_deletion = false)
    (hev : handler_calls st.2 = snap.take i) :
    let st2 := dispatch_call (fun lcm h => (subs lcm h).map Call.subscribe) c st i
    snap <+: (st2.1.handlers_of c).elems ∧
    (∀ y, (st2.1.deref y).marked_for_deletion = false) ∧
    handler_calls st2.2 = snap.take (i + 1) := by
  have hidx : g_ptr_array_index (st.1.handlers_of c) i = some snap[i] := by
    simp only [g_ptr_array_index, GPtrArray.slots, List.get?_eq_getElem?]
    have hlen : i < (st.1.handlers_of c).elems.length := Nat.lt_of_lt_of_le hi hp.length_le
    rw [List.getElem?_append_left hlen, prefix_index snap _ i hp hi]
    exact List.getElem?_eq_getElem hi
  simp only [dispatch_call, hidx, hu, Bool.not_false, if_true]
  have := run_subscribes (subs st.1 snap[i]) st.1 c snap hp hu
  refine ⟨this.1, this.2, ?_⟩
  rw [handler_calls_append, hev]
  simp only [handler_calls, handler_calls_run_calls, List.take_succ,
    List.getElem?_eq_getElem hi, Option.toList]

theorem dispatch_ref_unmarked (c : List Char) (s : lcm_t) (i : Nat)
    (hu : ∀ y, (s.deref y).marked_for_deletion = false) :
    ∀ y, ((dispatch_ref c s i).deref y).marked_for_deletion = false := by
  unfold dispatch_ref
  split
  · intro y; rw [set_callback_scheduled_marked]; exact hu y
  · exact hu

/-- When no handler is marked and the handlers only subscribe, a dispatch calls exactly
the handlers of the channel's list, in list order. -/
theorem dispatch_subscribes (subs : lcm_t → Nat → List (List Char)) (s : lcm_t)
    (c : List Char) (hu : ∀ y, (s.deref y).marked_for_deletion = false) :
    handler_calls (lcm_dispatch_handlers (fun lcm h => (subs lcm h).map Call.subscribe) s c).2 =
      (lcm_get_handlers s c).2.elems := by
  simp only [lcm_dispatch_handlers]
  rw [handlers_of_get_handlers]
  have hu0 : ∀ y, ((lcm_get_handlers s c).1.deref y).marked_for_deletion = false := by
    intro y
    simp only [lcm_t.deref, (get_handlers_frame s c).1]
    exact hu y
  have h1 := foldl_range_induction (dispatch_ref c)
    (fun _ st => (∀ y, (st.deref y).marked_for_deletion = false) ∧
      st.handlers_of c = (lcm_get_handlers s c).2)
    (lcm_get_handlers s c).2.len (lcm_get_handlers s c).1 ⟨hu0, handlers_of_get_handlers s c⟩
    (fun i st _ hp => ⟨dispatch_ref_unmarked c st i hp.1, by
      rw [handlers_of_dispatch_ref]; exact hp.2⟩)
  have h2 := foldl_range_induction
    (dispatch_call (fun lcm h => (subs lcm h).map Call.subscribe) c)
    (fun i st => (lcm_get_handlers s c).2.elems <+: (st.1.handlers_of c).elems ∧
      (∀ y, (st.1.deref y).marked_for_deletion = false) ∧
      handler_calls st.2 = (lcm_get_handlers s c).2.elems.take i)
    (lcm_get_handlers s c).2.len
    ((List.range (lcm_get_handlers s c).2.len).foldl (dispatch_ref c) (lcm_get_handlers s c).1, [])
    ⟨by rw [h1.2], h1.1, by simp [handler_calls]⟩
    (fun i st hi hp => dispatch_call_subscribes subs c _ st i hi hp.1 hp.2.1 hp.2.2)
  rw [h2.2.2]
  exact List.take_length _

theorem pristine_snapshot (s : lcm_t) (c : List Char) (w : Pristine s) :
    (lcm_get_handlers s c).2.elems =
      (List.range s.heap.length).filter (fun h => is_handler_subscriber (s.deref h) c) := by
  rcases get_handlers_cases s c with ⟨a, hl, h⟩ | ⟨_, h⟩
  · rw [h]
    exact w.cached (c, a) (mem_of_lookup _ _ _ hl)
  · rw [h]
    simp only [w.all]
/-! ### Handlers that unsubscribe themselves -/

theorem run_unsubscribes_absent (k : Nat) (s : lcm_t) (h : Nat)
    (hn : h ∉ s.handlers_all.elems) :
    run_calls s (List.replicate k (Call.unsubscribe h)) =
      (s, List.replicate k (Event.unsubscribe h (-1))) := by
  induction k with
  | zero => rfl
  | succ k ih =>
    simp only [List.replicate_succ, run_calls]
    have h1 : lcm_unsubscribe s h = (s, -1) := by rw [unsubscribe_eq]; simp [hn]
    rw [h1]
    simp only [ih]

theorem run_self_unsubscribes (k : Nat) (s : lcm_t) (h : Nat) (w : WF s)
    (hin : h ∈ s.handlers_all.elems) :
    run_calls s (List.replicate k (Call.unsubscribe h)) =
      (if k = 0 then s else (lcm_unsubscribe s h).1, self_unsubscribe_events h k) := by
  cases k with
  | zero => rfl
  | succ k =>
    simp only [List.replicate_succ, run_calls, self_unsubscribe_events]
    have hg := gone_of_unsubscribe s h w (by rw [unsubscribe_ret]; simp [hin])
    rw [run_unsubscribes_absent k _ h hg.2.1]
    have h0 : (lcm_unsubscribe s h).2 = 0 := by rw [unsubscribe_ret]; simp [hin]
    simp [h0]

theorem indexOf_le_of_index (l : List Nat) (h i : Nat) (hi : l[i]? = some h) :
    l.indexOf h ≤ i := by
  induction l generalizing i with
  | nil => simp at hi
  | cons a l ih =>
    rw [List.indexOf_cons]
    by_cases hah : a = h
    · simp [hah]
    · have hne : (a == h) = false := by simpa using hah
      simp only [hne, cond_false]
      cases i with
      | zero => simp at hi; exact absurd hi hah
      | succ i =>
        simp only [List.getElem?_cons_succ] at hi
        exact Nat.succ_le_succ (ih i hi)

theorem indexOf_le_of_slot (a : GPtrArray) (h i : Nat) (hs : g_ptr_array_index a i = some h)
    (hm : h ∈ a.elems) : a.elems.indexOf h ≤ i := by
  simp only [g_ptr_array_index, GPtrArray.slots, List.get?_eq_getElem?] at hs
  by_cases hi : i < a.elems.length
  · rw [List.getElem?_append_left hi] at hs
    exact indexOf_le_of_index _ _ _ hs
  · exact Nat.le_of_lt (Nat.lt_of_lt_of_le (List.indexOf_lt_length.mpr hm) (Nat.le_of_not_lt hi))

/-- A handler that unsubscribes itself leaves the slots after its own untouched. -/
theorem self_unsubscribe_slots (s : lcm_t) (c : List Char) (h i j : Nat)
    (hin : h ∈ s.handlers_all.elems)
    (hs : g_ptr_array_index (s.handlers_of c) i = some h) (hj : i < j) :
    g_ptr_array_index ((lcm_unsubscribe s h).1.handlers_of c) j =
      g_ptr_array_index (s.handlers_of c) j := by
  rw [handlers_of_unsubscribe s h c hin]
  by_cases hm : h ∈ (s.handlers_of c).elems
  · rw [index_remove_fast _ _ _ hm]
    have := indexOf_le_of_slot _ _ _ hs hm
    have hne : j ≠ (s.handlers_of c).elems.indexOf h := by omega
    simp [hne]
  · rw [remove_fast_not_mem _ _ hm]
/-- One round of the second loop when every handler unsubscribes itself `k` times. -/
theorem dispatch_call_self (k : lcm_t → Nat → Nat) (c : List Char) (snap : List Nat)
    (hnd : snap.Nodup) (st : lcm_t × List Event) (i : Nat) (hi : i < snap.length)
    (w : WF st.1)
    (hslot : ∀ j, i ≤ j → j < snap.length →
      g_ptr_array_index (st.1.handlers_of c) j = snap[j]?)
    (hall : ∀ j, i ≤ j → j < snap.length → ∀ x, snap[j]? = some x → x ∈ st.1.handlers_all.elems)
    (hev : ∃ ks : List Nat, ks.length = i ∧ st.2 = ((snap.take i).zip ks).flatMap
      (fun hk => Event.handler hk.1 :: self_unsubscribe_events hk.1 hk.2)) :
    let st2 := dispatch_call (fun lcm h => List.replicate (k lcm h) (Call.unsubscribe h)) c st i
    WF st2.1 ∧
    (∀ j, i + 1 ≤ j → j < snap.length →
      g_ptr_array_index (st2.1.handlers_of c) j = snap[j]?) ∧
    (∀ j, i + 1 ≤ j → j < snap.length → ∀ x, snap[j]? = some x → x ∈ st2.1.handlers_all.elems) ∧
    (∃ ks : List Nat, ks.length = i + 1 ∧ st2.2 = ((snap.take (i + 1)).zip ks).flatMap
      (fun hk => Event.handler hk.1 :: self_unsubscribe_events hk.1 hk.2)) := by
  have hsi : snap[i]? = some snap[i] := List.getElem?_eq_getElem hi
  have hidx : g_ptr_array_index (st.1.handlers_of c) i = some snap[i] := by
    rw [hslot i (Nat.le_refl i) hi, hsi]
  have hin : snap[i] ∈ st.1.handlers_all.elems := hall i (Nat.le_refl i) hi _ hsi
  have hum := w.unmarked _ hin
  simp only [dispatch_call, hidx, hum, Bool.not_false, if_true]
  rw [run_self_unsubscribes _ _ _ w hin]
  obtain ⟨ks, hks, hev⟩ := hev
  have hev2 : ∃ ks2 : List Nat, ks2.length = i + 1 ∧
      st.2 ++ Event.handler snap[i] :: self_unsubscribe_events snap[i] (k st.1 snap[i]) =
      ((snap.take (i + 1)).zip ks2).flatMap
        (fun hk => Event.handler hk.1 :: self_unsubscribe_events hk.1 hk.2) := by
    refine ⟨ks ++ [k st.1 snap[i]], by simp [hks], ?_⟩
    rw [List.take_succ, hsi, Option.toList,
      List.zip_append (by simp [hks, Nat.min_eq_left (Nat.le_of_lt hi)]),
      List.flatMap_append, hev]
    simp
  by_cases hk : k st.1 snap[i] = 0
  · simp only [hk, if_true]
    refine ⟨w, ?_, ?_, ?_⟩
    · intro j hj hjn; exact hslot j (Nat.le_of_succ_le hj) hjn
    · intro j hj hjn; exact hall j (Nat.le_of_succ_le hj) hjn
    · simpa [hk] using hev2
  · simp only [hk, if_false]
    refine ⟨wf_unsubscribe _ _ w, ?_, ?_, hev2⟩
    · intro j hj hjn
      rw [self_unsubscribe_slots st.1 c snap[i] i j hin hidx (Nat.lt_of_succ_le hj)]
      exact hslot j (Nat.le_of_succ_le hj) hjn
    · intro j hj hjn x hx
      rw [unsubscribe_all]
      have hne : x ≠ snap[i] := by
        intro he
        have : i = j := List.getElem?_inj hi hnd (by rw [hsi, hx, he])
        omega
      exact (List.mem_erase_of_ne hne).mpr (hall j (Nat.le_of_succ_le hj) hjn x hx)
theorem handler_calls_self_unsubscribe_events (h k : Nat) :
    handler_calls (self_unsubscribe_events h k) = [] := by
  cases k with
  | zero => rfl
  | succ k =>
    simp only [self_unsubscribe_events, handler_calls]
    induction k with
    | zero => rfl
    | succ k ih => simpa [List.replicate_succ, handler_calls] using ih

theorem handler_calls_self_trace (l ks : List Nat) (hl : ks.length = l.length) :
    handler_calls ((l.zip ks).flatMap
      (fun hk => Event.handler hk.1 :: self_unsubscribe_events hk.1 hk.2)) = l := by
  induction l generalizing ks with
  | nil => simp [handler_calls]
  | cons a l ih =>
    cases ks with
    | nil => simp at hl
    | cons k ks =>
      rw [List.zip_cons_cons, List.flatMap_cons, List.cons_append]
      simp only [handler_calls]
      rw [handler_calls_append, handler_calls_self_unsubscribe_events, List.nil_append,
        ih ks (by simpa using hl)]

theorem handlers_all_dispatch_ref (c : List Char) (s : lcm_t) (i : Nat) :
    (dispatch_ref c s i).handlers_all = s.handlers_all := by
  unfold dispatch_ref
  split <;> rfl

/-- The list of a channel that `lcm_get_handlers` returns has no duplicates and is part
of the master list. -/
theorem snapshot_wf (s : lcm_t) (c : List Char) (w : WF s) :
    (lcm_get_handlers s c).2.elems.Nodup ∧
    ∀ x ∈ (lcm_get_handlers s c).2.elems, x ∈ (lcm_get_handlers s c).1.handlers_all.elems := by
  have w0 := wf_get_handlers s c w
  rw [← handlers_of_get_handlers]
  rcases handlers_of_mem (lcm_get_handlers s c).1 c with h | h
  · rw [h]; simp [g_ptr_array_new]
  · exact ⟨w0.nodup_map _ h, w0.sub_map _ h⟩

/-- The trace of a dispatch in which every handler unsubscribes itself `k` times. -/
theorem dispatch_self_trace (k : lcm_t → Nat → Nat) (s : lcm_t) (c : List Char) (w : WF s) :
    ∃ ks : List Nat, ks.length = (lcm_get_handlers s c).2.elems.length ∧
      (lcm_dispatch_handlers (fun lcm h => List.replicate (k lcm h) (Call.unsubscribe h)) s c).2 =
        ((lcm_get_handlers s c).2.elems.zip ks).flatMap
          (fun hk => Event.handler hk.1 :: self_unsubscribe_events hk.1 hk.2) := by
  simp only [lcm_dispatch_handlers]
  rw [handlers_of_get_handlers]
  obtain ⟨hnd, hsub⟩ := snapshot_wf s c w
  have h1 := foldl_range_induction (dispatch_ref c)
    (fun _ st => WF st ∧ st.handlers_of c = (lcm_get_handlers s c).2 ∧
      st.handlers_all = (lcm_get_handlers s c).1.handlers_all)
    (lcm_get_handlers s c).2.len (lcm_get_handlers s c).1
    ⟨wf_get_handlers s c w, handlers_of_get_handlers s c, rfl⟩
    (fun i st _ hp => ⟨wf_dispatch_ref c st i hp.1, by
      rw [handlers_of_dispatch_ref]; exact hp.2.1, by
      rw [handlers_all_dispatch_ref]; exact hp.2.2⟩)
  have h2 := foldl_range_induction
    (dispatch_call (fun lcm h => List.replicate (k lcm h) (Call.unsubscribe h)) c)
    (fun i st => WF st.1 ∧
      (∀ j, i ≤ j → j < (lcm_get_handlers s c).2.elems.length →
        g_ptr_array_index (st.1.handlers_of c) j = (lcm_get_handlers s c).2.elems[j]?) ∧
      (∀ j, i ≤ j → j < (lcm_get_handlers s c).2.elems.length →
        ∀ x, (lcm_get_handlers s c).2.elems[j]? = some x → x ∈ st.1.handlers_all.elems) ∧
      (∃ ks : List Nat, ks.length = i ∧ st.2 = (((lcm_get_handlers s c).2.elems.take i).zip ks).flatMap
        (fun hk => Event.handler hk.1 :: self_unsubscribe_events hk.1 hk.2)))
    (lcm_get_handlers s c).2.len
    ((List.range (lcm_get_handlers s c).2.len).foldl (dispatch_ref c) (lcm_get_handlers s c).1, [])
    (by
      refine ⟨h1.1, ?_, ?_, ⟨[], rfl, by simp⟩⟩
      · intro j _ hj
        simp only [h1.2.1, g_ptr_array_index, GPtrArray.slots, List.get?_eq_getElem?]
        exact List.getElem?_append_left hj
      · intro j _ _ x hx
        simp only [h1.2.2]
        exact hsub x (List.mem_iff_getElem?.mpr ⟨j, hx⟩))
    (fun i st hi hp => dispatch_call_self k c _ hnd st i hi hp.1 hp.2.1 hp.2.2.1 hp.2.2.2)
  obtain ⟨ks, hks, hev⟩ := h2.2.2.2
  refine ⟨ks, hks, ?_⟩
  rw [hev]
  simp [GPtrArray.len]
/-! ### Unsubscribing a scheduled handler -/

theorem events_after_append (e : Event) (l1 l2 : List Event) :
    events_after e (l1 ++ l2) =
      if e ∈ l1 then events_after e l1 ++ l2 else events_after e l2 := by
  induction l1 with
  | nil => simp
  | cons x l1 ih =>
    simp only [List.cons_append, events_after, List.mem_cons]
    by_cases hx : x = e
    · simp [hx]
    · have hx2 : ¬ e = x := fun h => hx h.symm
      simp only [hx, hx2, if_false, false_or]
      exact ih

theorem mem_of_mem_events_after (e y : Event) (l : List Event) (h : y ∈ events_after e l) :
    y ∈ l := by
  induction l with
  | nil => simp [events_after] at h
  | cons x l ih =>
    simp only [events_after] at h
    split at h
    · exact List.mem_cons_of_mem _ h
    · exact List.mem_cons_of_mem _ (ih h)

theorem mem_events_after_of_split (e y : Event) (a rest : List Event) (hy : y ∈ rest) :
    y ∈ events_after e (a ++ e :: rest) := by
  rw [events_after_append]
  split
  · exact List.mem_append_right _ (List.mem_cons_of_mem _ hy)
  · simpa [events_after] using hy

theorem scheduled_subscribe (s : lcm_t) (p : List Char) (x : Nat) (h : Scheduled x s) :
    Scheduled x (lcm_subscribe s p).1 ∧
    ((s.deref x).marked_for_deletion = true →
      ((lcm_subscribe s p).1.deref x).marked_for_deletion = true) := by
  rcases subscribe_cases s p with ⟨_, hs⟩ | ⟨preg, _, hs⟩
  · rw [hs]; exact ⟨h, id⟩
  · rw [hs]
    have hd : (lcm_t.mk (g_ptr_array_add s.handlers_all s.heap.length)
        (s.handlers_map.map (fun e =>
          if is_handler_subscriber ⟨p, preg, false, false⟩ e.1
          then (e.1, g_ptr_array_add e.2 s.heap.length) else e))
        (s.heap ++ [⟨p, preg, false, false⟩]) s.freed).deref x = s.deref x := by
      rw [deref_append]; simp [h.1, lcm_t.deref]
    refine ⟨⟨?_, ?_⟩, ?_⟩
    · simp only [List.length_append, List.length_singleton]; exact Nat.lt_succ_of_lt h.1
    · rw [hd]; exact h.2
    · rw [hd]; exact id

theorem scheduled_unsubscribe (s : lcm_t) (y x : Nat) (h : Scheduled x s) :
    Scheduled x (lcm_unsubscribe s y).1 ∧
    ((s.deref x).marked_for_deletion = true →
      ((lcm_unsubscribe s y).1.deref x).marked_for_deletion = true) ∧
    (y = x → (lcm_unsubscribe s y).2 = 0 →
      ((lcm_unsubscribe s y).1.deref x).marked_for_deletion = true) := by
  by_cases hyx : y = x
  · subst hyx
    by_cases hin : y ∈ s.handlers_all.elems
    · have hd := unsubscribe_deref_self s y hin h.1
      simp only [h.2, if_true] at hd
      refine ⟨⟨?_, ?_⟩, ?_, ?_⟩
      · rw [unsubscribe_heap_length]; exact h.1
      · rw [hd]
      · intro _; rw [hd]
      · intro _ _; rw [hd]
    · have he : lcm_unsubscribe s y = (s, -1) := by rw [unsubscribe_eq]; simp [hin]
      rw [he]
      exact ⟨h, id, fun _ h0 => by simp at h0⟩
  · have hd := unsubscribe_deref_ne s y x (Ne.symm hyx)
    refine ⟨⟨?_, ?_⟩, ?_, ?_⟩
    · rw [unsubscribe_heap_length]; exact h.1
    · rw [hd]; exact h.2
    · rw [hd]; exact id
    · intro he; exact absurd he hyx

theorem scheduled_run_calls (cs : List Call) (s : lcm_t) (x : Nat) (h : Scheduled x s) :
    Scheduled x (run_calls s cs).1 ∧
    ((s.deref x).marked_for_deletion = true →
      ((run_calls s cs).1.deref x).marked_for_deletion = true) ∧
    (Event.unsubscribe x 0 ∈ (run_calls s cs).2 →
      ((run_calls s cs).1.deref x).marked_for_deletion = true) := by
  induction cs generalizing s with
  | nil => exact ⟨h, id, by simp [run_calls]⟩
  | cons c cs ih =>
    cases c with
    | subscribe p =>
      have h1 := scheduled_subscribe s p x h
      have h2 := ih _ h1.1
      refine ⟨h2.1, fun hm => h2.2.1 (h1.2 hm), ?_⟩
      intro hm
      simp only [run_calls, List.mem_cons] at hm
      rcases hm with hm | hm
      · cases hm
      · exact h2.2.2 hm
    | unsubscribe y =>
      have h1 := scheduled_unsubscribe s y x h
      have h2 := ih _ h1.1
      refine ⟨h2.1, fun hm => h2.2.1 (h1.2.1 hm), ?_⟩
      intro hm
      simp only [run_calls, List.mem_cons] at hm
      rcases hm with hm | hm
      · injection hm with e1 e2
        exact h2.2.1 (h1.2.2 e1.symm e2.symm)
      · exact h2.2.2 hm

theorem set_callback_scheduled_self (s : lcm_t) (h : Nat) (hb : h < s.heap.length) :
    Scheduled h (set_callback_scheduled s h true) := by
  refine ⟨by simpa [set_callback_scheduled] using hb, ?_⟩
  simp only [set_callback_scheduled, lcm_t.deref]
  rw [deref_set_self s h _ hb]

theorem set_callback_scheduled_other (s : lcm_t) (h x : Nat) (hx : Scheduled x s) :
    Scheduled x (set_callback_scheduled s h true) := by
  by_cases hxh : x = h
  · subst hxh; exact set_callback_scheduled_self s x hx.1
  · refine ⟨by simpa [set_callback_scheduled] using hx.1, ?_⟩
    have := hx.2
    simp only [set_callback_scheduled, lcm_t.deref, List.getD_eq_getElem?_getD] at this ⊢
    rw [List.getElem?_set_ne (Ne.symm hxh)]
    exact this

/-- After the first loop every handler of the snapshot is scheduled. -/
theorem scheduled_after_ref (s : lcm_t) (c : List Char) (w : WF s) :
    let s1 := (List.range (s.handlers_of c).len).foldl (dispatch_ref c) s
    WF s1 ∧ s1.handlers_of c = s.handlers_of c ∧ ∀ x ∈ (s.handlers_of c).elems, Scheduled x s1 := by
  have hb : ∀ x ∈ (s.handlers_of c).elems, x < s.heap.length := by
    intro x hx
    rcases handlers_of_mem s c with h | h
    · rw [h] at hx; simp [g_ptr_array_new] at hx
    · exact w.bounded x (w.sub_map _ h x hx)
  have h1 := foldl_range_induction (dispatch_ref c)
    (fun i st => WF st ∧ st.handlers_of c = s.handlers_of c ∧ st.heap.length = s.heap.length ∧
      ∀ j, j < i → ∀ x, (s.handlers_of c).elems[j]? = some x → Scheduled x st)
    (s.handlers_of c).len s ⟨w, rfl, rfl, by intro j hj; omega⟩
    (by
      intro i st hi hp
      have hidx : g_ptr_array_index (st.handlers_of c) i = some (s.handlers_of c).elems[i] := by
        rw [hp.2.1]
        simp only [g_ptr_array_index, GPtrArray.slots, List.get?_eq_getElem?]
        rw [List.getElem?_append_left hi]
        exact List.getElem?_eq_getElem hi
      refine ⟨wf_dispatch_ref c st i hp.1, by rw [handlers_of_dispatch_ref]; exact hp.2.1, ?_, ?_⟩
      · simp only [dispatch_ref, hidx, set_callback_scheduled, List.length_set]
        exact hp.2.2.1
      · intro j hj x hx
        simp only [dispatch_ref, hidx]
        rcases Nat.lt_succ_iff_lt_or_eq.mp hj with hlt | heq
        · exact set_callback_scheduled_other _ _ _ (hp.2.2.2 j hlt x hx)
        · subst heq
          rw [List.getElem?_eq_getElem hi] at hx
          injection hx with hx
          subst hx
          apply set_callback_scheduled_self
          rw [hp.2.2.1]
          exact hb _ (List.getElem_mem _))
  refine ⟨h1.1, h1.2.1, ?_⟩
  intro x hx
  obtain ⟨j, hj, hxj⟩ := List.mem_iff_getElem.mp hx
  exact h1.2.2.2 j hj x (by rw [List.getElem?_eq_getElem hj, hxj])
/-- One round of the second loop: a scheduled handler that was unsubscribed is marked,
and is not called once it is marked. -/
theorem dispatch_call_marked (hs : Handlers) (c : List Char) (b : Nat)
    (st : lcm_t × List Event) (i : Nat) (w : WF st.1) (hsch : Scheduled b st.1)
    (hm : Event.unsubscribe b 0 ∈ st.2 → (st.1.deref b).marked_for_deletion = true)
    (hev : Event.handler b ∉ events_after (Event.unsubscribe b 0) st.2) :
    let st2 := dispatch_call hs c st i
    WF st2.1 ∧ Scheduled b st2.1 ∧
    (Event.unsubscribe b 0 ∈ st2.2 → (st2.1.deref b).marked_for_deletion = true) ∧
    Event.handler b ∉ events_after (Event.unsubscribe b 0) st2.2 := by
  unfold dispatch_call
  split
  · rename_i h hidx
    split
    · rename_i hum
      have hr := scheduled_run_calls (hs st.1 h) st.1 b hsch
      refine ⟨wf_run_calls _ _ w, hr.1, ?_, ?_⟩
      · intro hx
        simp only [List.mem_append, List.mem_cons] at hx
        rcases hx with hx | hx | hx
        · exact hr.2.1 (hm hx)
        · cases hx
        · exact hr.2.2 hx
      · simp only
        rw [events_after_append]
        split
        · rename_i hin
          simp only [List.mem_append, List.mem_cons, not_or]
          refine ⟨hev, ?_, run_calls_no_handler _ _ _⟩
          intro heq
          injection heq with heq
          subst heq
          rw [hm hin] at hum
          simp at hum
        · intro hx
          have : events_after (Event.unsubscribe b 0) (Event.handler h :: (run_calls st.1 (hs st.1 h)).2)
              = events_after (Event.unsubscribe b 0) (run_calls st.1 (hs st.1 h)).2 := by
            simp [events_after]
          rw [this] at hx
          exact run_calls_no_handler _ _ _ (mem_of_mem_events_after _ _ _ hx)
    · exact ⟨w, hsch, hm, hev⟩
  · exact ⟨w, hsch, hm, hev⟩

/-- In a dispatch, a handler of the snapshot is not called after it was unsubscribed. -/
theorem dispatch_marked (hs : Handlers) (s : lcm_t) (c : List Char) (b : Nat) (w : WF s)
    (hb : b ∈ (lcm_get_handlers s c).2.elems) :
    Event.handler b ∉ events_after (Event.unsubscribe b 0) (lcm_dispatch_handlers hs s c).2 := by
  simp only [lcm_dispatch_handlers]
  have h1 := scheduled_after_ref (lcm_get_handlers s c).1 c (wf_get_handlers s c w)
  simp only at h1
  rw [handlers_of_get_handlers] at h1
  have h2 := foldl_range_induction (dispatch_call hs c)
    (fun _ st => WF st.1 ∧ Scheduled b st.1 ∧
      (Event.unsubscribe b 0 ∈ st.2 → (st.1.deref b).marked_for_deletion = true) ∧
      Event.handler b ∉ events_after (Event.unsubscribe b 0) st.2)
    ((lcm_get_handlers s c).1.handlers_of c).len
    ((List.range ((lcm_get_handlers s c).1.handlers_of c).len).foldl (dispatch_ref c)
      (lcm_get_handlers s c).1, [])
    (by
      rw [handlers_of_get_handlers]
      exact ⟨h1.1, h1.2.2 b hb, by simp, by simp [events_after]⟩)
    (fun i st _ hp => dispatch_call_marked hs c b st i hp.1 hp.2.1 hp.2.2.1 hp.2.2.2)
  exact h2.2.2.2
/-! ## Dispatch order -/

/-- C3. For any sequence of `lcm_subscribe` calls on a fresh registry, interleaved in any
way with lookups that cache handler lists, and handlers that themselves make only
`lcm_subscribe` calls, `lcm_dispatch_handlers` on a channel invokes exactly the
subscriptions whose pattern matches the channel, each once, in the order they were
subscribed. -/
theorem dispatch_in_subscribe_order (ops : List Setup)
    (subs : lcm_t → Nat → List (List Char)) (channel : List Char) :
    handler_calls (lcm_dispatch_handlers (fun lcm h => (subs lcm h).map Call.subscribe)
      (run_steps lcm_create_registry (ops.map Setup.toStep)).1 channel).2 =
      matching_in_subscribe_order ops channel := by
  obtain ⟨hp, hpat⟩ := pristine_setup ops lcm_create_registry pristine_create
  rw [dispatch_subscribes subs _ channel hp.unmarked, pristine_snapshot _ channel hp]
  generalize (run_steps lcm_create_registry (ops.map Setup.toStep)).1 = s at hp hpat
  have h0 : lcm_create_registry.heap = [] := rfl
  rw [h0, List.map_nil, List.nil_append] at hpat
  unfold matching_in_subscribe_order
  rw [← hpat, List.length_map]
  apply List.filter_congr
  intro h hh
  have hlt := List.mem_range.mp hh
  simp only [is_handler_subscriber, lcm_t.deref,
    List.getD_eq_getElem?_getD, List.getElem?_map, List.getElem?_eq_getElem hlt,
    Option.map_some', Option.getD_some]

/-- Scenario for C3: two subscribers to `.*` and one to `^X$`; a frame on `X` invokes all
three in subscribe order, a frame on `Y` only the first two. -/
theorem dispatch_order_scenario :
    handler_calls (lcm_dispatch_handlers (fun _ _ => [])
      (run_steps lcm_create_registry
        [Step.subscribe ".*".toList, Step.subscribe ".*".toList, Step.subscribe "^X$".toList]).1
      "X".toList).2 = [0, 1, 2] ∧
    handler_calls (lcm_dispatch_handlers (fun _ _ => [])
      (run_steps lcm_create_registry
        [Step.subscribe ".*".toList, Step.subscribe ".*".toList, Step.subscribe "^X$".toList]).1
      "Y".toList).2 = [0, 1] := by
  decide

/-! ## Self-unsubscribe -/

/-- Self-unsubscribe on its own (the case of C5 that holds). In any registry state reached
by subscribes, unsubscribes, lookups and earlier dispatches, dispatch a frame whose
handlers do nothing but call `lcm_unsubscribe` on their own subscription (handler `h`
calls it `k lcm h` times). Then the trace of the
dispatch is: each subscription of the frame's snapshot, in order, is invoked once, and
the first unsubscribe call of a handler on itself returns 0 (any repeated call -1); the
snapshot has no duplicates; and a subscription unsubscribed this way is not invoked by
any later dispatch, whatever the later calls and handlers do. -/
theorem self_unsubscribe_completes_frame (pre post : List Step) (k : lcm_t → Nat → Nat)
    (channel : List Char) :
    let s := (run_steps lcm_create_registry pre).1
    let snapshot := (lcm_get_handlers s channel).2.elems
    let d := lcm_dispatch_handlers
      (fun lcm h => List.replicate (k lcm h) (Call.unsubscribe h)) s channel
    (∃ ks : List Nat, ks.length = snapshot.length ∧
      d.2 = (snapshot.zip ks).flatMap
        (fun hk => Event.handler hk.1 :: self_unsubscribe_events hk.1 hk.2)) ∧
    snapshot.Nodup ∧
    handler_calls d.2 = snapshot ∧
    ∀ x, Event.unsubscribe x 0 ∈ d.2 → Event.handler x ∉ (run_steps d.1 post).2 := by
  intro s snapshot d
  have w : WF s := wf_run_steps pre _ wf_create
  obtain ⟨ks, hks, hev⟩ := dispatch_self_trace k s channel w
  refine ⟨⟨ks, hks, hev⟩, (snapshot_wf s channel w).1, ?_, ?_⟩
  · show handler_calls (lcm_dispatch_handlers _ s channel).2 = _
    rw [hev]
    exact handler_calls_self_trace _ ks hks
  · intro x hx
    exact gone_run_steps post _ x (gone_of_dispatch _ s channel w x hx)

/-- Scenario for C5: subscribe on `Z`; the handler unsubscribes itself. The first frame
invokes it and the call returns 0; the second frame on `Z` invokes nothing. -/
theorem self_unsubscribe_scenario :
    (run_steps lcm_create_registry
      [Step.subscribe "Z".toList,
       Step.dispatch (fun _ h => [Call.unsubscribe h]) "Z".toList,
       Step.dispatch (fun _ h => [Call.unsubscribe h]) "Z".toList]).2 =
    [Event.subscribe "Z".toList (some 0), Event.handler 0, Event.unsubscribe 0 0] := by
  decide

/-- C5 (the code at the failing input). Two subscriptions 0, 1 to `X`, which are the
snapshot of a frame on `X`. While the frame is dispatched the handler of 0 calls
`lcm_unsubscribe` on its own subscription, which returns 0, and then subscribes to `X`
again, creating subscription 2. Subscription 1, which is in the snapshot and which nobody
unsubscribed, is not invoked for the frame: subscription 2 is invoked in its place.
Subscription 1 is still subscribed, and the next frame on `X` invokes it. -/
theorem self_unsubscribe_skips_snapshot :
    (lcm_get_handlers
      (run_steps lcm_create_registry
        [Step.subscribe "X".toList, Step.subscribe "X".toList]).1 "X".toList).2.elems = [0, 1] ∧
    (lcm_dispatch_handlers
      (fun _ h => if h = 0 then [Call.unsubscribe 0, Call.subscribe "X".toList] else [])
      (run_steps lcm_create_registry
        [Step.subscribe "X".toList, Step.subscribe "X".toList]).1 "X".toList).2 =
    [Event.handler 0, Event.unsubscribe 0 0, Event.subscribe "X".toList (some 2),
     Event.handler 2] ∧
    Event.handler 1 ∉
      (lcm_dispatch_handlers
        (fun _ h => if h = 0 then [Call.unsubscribe 0, Call.subscribe "X".toList] else [])
        (run_steps lcm_create_registry
          [Step.subscribe "X".toList, Step.subscribe "X".toList]).1 "X".toList).2 ∧
    (lcm_dispatch_handlers
      (fun _ h => if h = 0 then [Call.unsubscribe 0, Call.subscribe "X".toList] else [])
      (run_steps lcm_create_registry
        [Step.subscribe "X".toList, Step.subscribe "X".toList]).1
      "X".toList).1.handlers_all.elems = [1, 2] ∧
    (run_steps
      (lcm_dispatch_handlers
        (fun _ h => if h = 0 then [Call.unsubscribe 0, Call.subscribe "X".toList] else [])
        (run_steps lcm_create_registry
          [Step.subscribe "X".toList, Step.subscribe "X".toList]).1 "X".toList).1
      [Step.dispatch (fun _ _ => []) "X".toList]).2 = [Event.handler 1, Event.handler 2] := by
  decide

/-! ## Unsubscribes outside and during a dispatch -/

/-- C4 (the code at the failing input). Three subscriptions 0, 1, 2 to `X`, the list of
`X` is cached, then subscription 0 is unsubscribed: the master list keeps the subscribe
order `[1, 2]`, the cached list of `X` is `[2, 1]`, and a frame on `X` invokes 2 before 1. -/
theorem unsubscribe_reorders_cached_list :
    (run_steps lcm_create_registry
      [Step.subscribe "X".toList, Step.subscribe "X".toList, Step.subscribe "X".toList,
       Step.get_handlers "X".toList, Step.unsubscribe 0]).1.handlers_all.elems = [1, 2] ∧
    ((run_steps lcm_create_registry
      [Step.subscribe "X".toList, Step.subscribe "X".toList, Step.subscribe "X".toList,
       Step.get_handlers "X".toList, Step.unsubscribe 0]).1.handlers_of "X".toList).elems = [2, 1] ∧
    handler_calls (lcm_dispatch_handlers (fun _ _ => [])
      (run_steps lcm_create_registry
        [Step.subscribe "X".toList, Step.subscribe "X".toList, Step.subscribe "X".toList,
         Step.get_handlers "X".toList, Step.unsubscribe 0]).1 "X".toList).2 = [2, 1] := by
  decide

/-- C6 (the code at the failing input). Three subscriptions 0, 1, 2 to `X`; while the
frame is dispatched the handler of 0 unsubscribes 1. Subscription 2, which nobody
unsubscribed, is invoked twice for that frame. -/
theorem unsubscribe_other_invokes_twice :
    (lcm_dispatch_handlers (fun _ h => if h = 0 then [Call.unsubscribe 1] else [])
      (run_steps lcm_create_registry
        [Step.subscribe "X".toList, Step.subscribe "X".toList, Step.subscribe "X".toList]).1
      "X".toList).2 =
    [Event.handler 0, Event.unsubscribe 1 0, Event.handler 2, Event.handler 2] := by
  decide

/-- C7, counterexample. Two subscriptions 0, 1 to `X`, both in the snapshot of the frame;
the handler of 0 unsubscribes 1 before 1 was invoked: the handler of 1 is not invoked
for the current frame. -/
theorem unsubscribed_handler_not_invoked :
    (lcm_get_handlers (run_steps lcm_create_registry
      [Step.subscribe "X".toList, Step.subscribe "X".toList]).1 "X".toList).2.elems = [0, 1] ∧
    (lcm_dispatch_handlers (fun _ h => if h = 0 then [Call.unsubscribe 1] else [])
      (run_steps lcm_create_registry
        [Step.subscribe "X".toList, Step.subscribe "X".toList]).1 "X".toList).2 =
    [Event.handler 0, Event.unsubscribe 1 0] := by
  decide

/-- C7, amended. In any reachable registry state and for any handlers, if during the
dispatch of a frame a handler successfully unsubscribes a subscription `b` of the frame's
snapshot, then `b` is not invoked in the rest of that frame (so not at all for the frame
if it had not been invoked yet), and it is not invoked for any later frame. -/
theorem unsubscribe_during_dispatch (pre post : List Step) (hs : Handlers)
    (channel : List Char) (b : Nat) (a rest : List Event)
    (hb : b ∈ (lcm_get_handlers (run_steps lcm_create_registry pre).1 channel).2.elems)
    (hu : (lcm_dispatch_handlers hs (run_steps lcm_create_registry pre).1 channel).2 =
      a ++ Event.unsubscribe b 0 :: rest) :
    Event.handler b ∉ rest ∧
    Event.handler b ∉
      (run_steps (lcm_dispatch_handlers hs (run_steps lcm_create_registry pre).1 channel).1 post).2 := by
  have w : WF (run_steps lcm_create_registry pre).1 := wf_run_steps pre _ wf_create
  constructor
  · intro hin
    have := dispatch_marked hs _ channel b w hb
    rw [hu] at this
    exact this (mem_events_after_of_split _ _ a rest hin)
  · apply gone_run_steps
    apply gone_of_dispatch hs _ channel w
    rw [hu]
    simp

/-- Witness for C7 amended: subscriptions 0 and 1 to `X`, the handler of 0 unsubscribes 1. -/
theorem unsubscribe_during_dispatch_witness :
    (1 ∈ (lcm_get_handlers (run_steps lcm_create_registry
      [Step.subscribe "X".toList, Step.subscribe "X".toList]).1 "X".toList).2.elems) ∧
    ((lcm_dispatch_handlers (fun _ h => if h = 0 then [Call.unsubscribe 1] else [])
      (run_steps lcm_create_registry
        [Step.subscribe "X".toList, Step.subscribe "X".toList]).1 "X".toList).2 =
      [Event.handler 0] ++ Event.unsubscribe 1 0 :: []) ∧
    (Event.handler 1 ∉ ([] : List Event) ∧
    Event.handler 1 ∉
      (run_steps (lcm_dispatch_handlers (fun _ h => if h = 0 then [Call.unsubscribe 1] else [])
        (run_steps lcm_create_registry
          [Step.subscribe "X".toList, Step.subscribe "X".toList]).1 "X".toList).1
        [Step.dispatch (fun _ _ => []) "X".toList]).2) :=
  ⟨by decide, by decide,
    unsubscribe_during_dispatch [Step.subscribe "X".toList, Step.subscribe "X".toList]
      [Step.dispatch (fun _ _ => []) "X".toList]
      (fun _ h => if h = 0 then [Call.unsubscribe 1] else []) "X".toList 1 [Event.handler 0] []
      (by decide) (by decide)⟩

/-- C8 (the code at the failing input). Two subscriptions 0, 1 to `X`; while the frame
is dispatched the handler of 0 unsubscribes 1 and then subscribes to `X` again, creating
subscription 2. Subscription 2 is invoked for the frame during which it was created. -/
theorem subscription_added_in_dispatch_invoked :
    (lcm_dispatch_handlers
      (fun _ h => if h = 0 then [Call.unsubscribe 1, Call.subscribe "X".toList] else [])
      (run_steps lcm_create_registry
        [Step.subscribe "X".toList, Step.subscribe "X".toList]).1 "X".toList).2 =
    [Event.handler 0, Event.unsubscribe 1 0, Event.subscribe "X".toList (some 2),
     Event.handler 2] := by
  decide

/-! ## Pattern match -/

/-- C9 (the code at the failing input). A subscription with pattern `A|B` is compiled as
`^A|B$`; it matches channel `AX`, and a frame on `AX` invokes it, although `A|B` does not
match the whole of `AX` (it does match the whole of `A`). -/
theorem alternation_matches_substring :
    (lcm_subscribe lcm_create_registry "A|B".toList).2 = some 0 ∧
    is_handler_subscriber ((lcm_subscribe lcm_create_registry "A|B".toList).1.deref 0)
      "AX".toList = true ∧
    handler_calls (lcm_dispatch_handlers (fun _ _ => [])
      (lcm_subscribe lcm_create_registry "A|B".toList).1 "AX".toList).2 = [0] ∧
    whole_match "A|B".toList "AX".toList = false ∧
    whole_match "A|B".toList "A".toList = true := by
  decide
/-! ## Generated codec -/

/-- C1 (the code at the failing input). For `struct S { E e[2]; int32_t x; }` with the
enum `E` and the value `{e = [1, 2], x = 7}`: `S_encoded_size` is 20; `S_encode` into a
buffer of 24 bytes returns 16 and has written `x` over `e[1]`, because the emitted
`__E_encode_array` returns the length of one element; `S_decode` of those bytes
succeeds, returns 16 and yields `{e = [1, 7], x = 7}`, which is not the value encoded. -/
theorem enum_array_round_trip :
    S_encoded_size schema_enum_array "S" value_enum_array = some 20 ∧
    S_encode schema_enum_array "S" (List.replicate 24 0) 0 24 value_enum_array =
      some (16, [0, 0, 0, 0, 0, 0, 37, 154, 0, 0, 0, 1, 0, 0, 0, 7,
                 0, 0, 0, 0, 0, 0, 0, 0]) ∧
    S_decode schema_enum_array "S"
        [0, 0, 0, 0, 0, 0, 37, 154, 0, 0, 0, 1, 0, 0, 0, 7, 0, 0, 0, 0, 0, 0, 0, 0] 0 24
        (Value.struct []) =
      some (16, Value.struct [("e", Value.arr [Value.int 1, Value.int 7]), ("x", Value.int 7)]) ∧
    Value.struct [("e", Value.arr [Value.int 1, Value.int 7]), ("x", Value.int 7)] ≠
      value_enum_array := by
  refine ⟨by decide, by decide, by rfl, ?_⟩
  simp [value_enum_array]

/-- C2 (the code at the failing input). For `struct S { E e[2]; int32_t x; }` and the
value `{e = [1, 2], x = 7}`, `S_encoded_size` is 8 + 8 + 4 = 20 but `S_encode`, given a
buffer of 24 bytes, returns 16; for the struct `P` of the spec with `n = 2` both are 52. -/
theorem encoded_size_of_enum_array :
    S_encoded_size schema_enum_array "S" value_enum_array = some 20 ∧
    (S_encode schema_enum_array "S" (List.replicate 24 0) 0 24 value_enum_array).map
      (fun r => r.1) = some 16 ∧
    S_encoded_size schema_P "P" value_P = some 52 ∧
    (S_encode schema_P "P" (List.replicate 52 0) 0 52 value_P).map (fun r => r.1) = some 52 := by
  decide

/-- Round trip of the struct `P` of the spec: decoding what `S_encode` wrote returns the
same length, 52, and the value encoded. -/
theorem round_trip_P :
    (S_encode schema_P "P" (List.replicate 52 0) 0 52 value_P).bind
      (fun r => S_decode schema_P "P" r.2 0 52 (Value.struct [])) = some (52, value_P) := by
  rfl

/-- C10, counterexample. For `struct T { int32_t x; }` and a buffer of 8 bytes that holds
exactly the hash of `T`: the body decoder `__T_decode_array` returns -1 (nothing is left
to read) and `T_decode` returns -1, which is not 8 plus the body decoder's value. -/
theorem decode_truncated_body :
    be_int true 8 (read_bytes [0, 0, 0, 0, 0, 0, 36, 104] 0 8) = get_hash schema_T "T" ∧
    (decode_array schema_T 2 "T" [0, 0, 0, 0, 0, 0, 36, 104] 8 0 1).map (fun r => r.1) =
      some (-1) ∧
    (S_decode schema_T "T" [0, 0, 0, 0, 0, 0, 36, 104] 0 8 (Value.struct [])).map
      (fun r => r.1) = some (-1) ∧
    (-1 : Int) ≠ 8 + -1 := by
  decide

theorem prim_decode_one (buf : List Nat) (offset maxlen : Int) :
    prim_decode_array true 8 buf offset maxlen 1 =
      if maxlen < 8 then (-1, []) else (8, [be_int true 8 (read_bytes buf offset.toNat 8)]) := by
  unfold prim_decode_array
  have h1 : (1 : Int).toNat = 1 := rfl
  have h2 : List.range 1 = [0] := rfl
  simp [h1, h2]

theorem c_decode_eq {α : Type} (hash : Int)
    (dec : List Nat → Int → Int → α → Option (Int × α))
    (buf : List Nat) (offset maxlen : Int) (p : α) :
    c_decode hash dec buf offset maxlen p =
      if maxlen < 8 then some (-1, p)
      else if be_int true 8 (read_bytes buf offset.toNat 8) ≠ hash then some (-1, p)
      else (dec buf (offset + 8) (maxlen - 8) p).map
        (fun r => (if r.1 < 0 then r.1 else 8 + r.1, r.2)) := by
  unfold c_decode
  simp only [Int.add_zero, Int.sub_zero, prim_decode_one]
  by_cases hm : maxlen < 8
  · simp [hm]
  · simp only [hm, if_false]
    by_cases hh : be_int true 8 (read_bytes buf offset.toNat 8) = hash
    · simp only [List.headD_cons, hh, ne_eq, not_true_eq_false, if_false, Int.zero_add]
      cases dec buf (offset + 8) (maxlen - 8) p with
      | none => simp
      | some r =>
        obtain ⟨t, p2⟩ := r
        by_cases ht : t < 0 <;> simp [ht]
    · simp [hh]

theorem cpp_decode_eq {α : Type} (hash : Int)
    (dec : List Nat → Int → Int → α → Option (Int × α))
    (buf : List Nat) (offset maxlen : Int) (p : α) :
    cpp_decode hash dec buf offset maxlen p = c_decode hash dec buf offset maxlen p := rfl

/-- C10, amended. For the emitted `S_decode` (C) and `S::decode` (C++), whatever the body
decoder: if the first 8 bytes at `offset`, read as a big-endian 64-bit integer, differ
from the type's hash, the function returns a negative value and leaves the message as it
was (the body decoder is not run); if at least 8 bytes are available and they equal the
hash, the function returns 8 plus the body decoder's return value when that value is
non-negative, and the body decoder's negative value itself otherwise. -/
theorem decode_checks_hash {α : Type} (hash : Int)
    (dec : List Nat → Int → Int → α → Option (Int × α))
    (buf : List Nat) (offset maxlen : Int) (p : α) :
    (be_int true 8 (read_bytes buf offset.toNat 8) ≠ hash →
      ∃ code : Int, code < 0 ∧
        c_decode hash dec buf offset maxlen p = some (code, p) ∧
        cpp_decode hash dec buf offset maxlen p = some (code, p)) ∧
    (8 ≤ maxlen → be_int true 8 (read_bytes buf offset.toNat 8) = hash →
      c_decode hash dec buf offset maxlen p =
        (dec buf (offset + 8) (maxlen - 8) p).map
          (fun r => (if r.1 < 0 then r.1 else 8 + r.1, r.2)) ∧
      cpp_decode hash dec buf offset maxlen p =
        (dec buf (offset + 8) (maxlen - 8) p).map
          (fun r => (if r.1 < 0 then r.1 else 8 + r.1, r.2))) := by
  rw [cpp_decode_eq, c_decode_eq]
  constructor
  · intro hne
    refine ⟨-1, by decide, ?_⟩
    by_cases hm : maxlen < 8 <;> simp [hm, hne]
  · intro hm heq
    have : ¬ maxlen < 8 := Int.not_lt.mpr hm
    simp [this, heq]

/-- Witness for C10 amended: a buffer that starts with the hash 5 followed by a body, the
same buffer checked against the hash 6, and a body decoder that reads 4 bytes. -/
theorem decode_checks_hash_witness :
    (∃ code : Int, code < 0 ∧
        c_decode 6 (fun _ _ _ (p : Nat) => some (4, p + 1))
          [0, 0, 0, 0, 0, 0, 0, 5, 1, 2, 3, 4] 0 12 0 = some (code, 0) ∧
        cpp_decode 6 (fun _ _ _ (p : Nat) => some (4, p + 1))
          [0, 0, 0, 0, 0, 0, 0, 5, 1, 2, 3, 4] 0 12 0 = some (code, 0)) ∧
    (c_decode 5 (fun _ _ _ (p : Nat) => some (4, p + 1))
        [0, 0, 0, 0, 0, 0, 0, 5, 1, 2, 3, 4] 0 12 0 =
        (some ((4 : Int), 1)).map (fun r => (if r.1 < 0 then r.1 else 8 + r.1, r.2)) ∧
      cpp_decode 5 (fun _ _ _ (p : Nat) => some (4, p + 1))
        [0, 0, 0, 0, 0, 0, 0, 5, 1, 2, 3, 4] 0 12 0 =
        (some ((4 : Int), 1)).map (fun r => (if r.1 < 0 then r.1 else 8 + r.1, r.2))) :=
  ⟨(decode_checks_hash 6 (fun _ _ _ (p : Nat) => some (4, p + 1))
      [0, 0, 0, 0, 0, 0, 0, 5, 1, 2, 3, 4] 0 12 0).1 (by decide),
   (decode_checks_hash 5 (fun _ _ _ (p : Nat) => some (4, p + 1))
      [0, 0, 0, 0, 0, 0, 0, 5, 1, 2, 3, 4] 0 12 0).2 (by decide) (by decide)⟩

/-! ## Unsubscribe and subscribe as calls -/

/-- C15. In every registry state: `lcm_unsubscribe` of a handle that is not in the master
list returns -1 and leaves the registry as it was (master list, every cached list and
every record with its flags); for a handle that is in the master list it returns 0. -/
theorem unsubscribe_unknown (s : lcm_t) (h : Nat) :
    (h ∉ s.handlers_all.elems → lcm_unsubscribe s h = (s, -1)) ∧
    (h ∈ s.handlers_all.elems → (lcm_unsubscribe s h).2 = 0) := by
  constructor
  · intro hn
    rw [unsubscribe_eq]
    simp [hn]
  · intro hin
    rw [unsubscribe_ret]
    simp [hin]

/-- Witness for C15: on the registry with subscriptions 0 and 1 to `X`, unsubscribing 5
fails without effect and unsubscribing 1 returns 0. -/
theorem unsubscribe_unknown_witness :
    lcm_unsubscribe (run_steps lcm_create_registry
        [Step.subscribe "X".toList, Step.subscribe "X".toList]).1 5 =
      ((run_steps lcm_create_registry
        [Step.subscribe "X".toList, Step.subscribe "X".toList]).1, -1) ∧
    (lcm_unsubscribe (run_steps lcm_create_registry
        [Step.subscribe "X".toList, Step.subscribe "X".toList]).1 1).2 = 0 :=
  ⟨(unsubscribe_unknown _ 5).1 (by decide), (unsubscribe_unknown _ 1).2 (by decide)⟩

theorem keys_map_remove (m : List (List Char × GPtrArray)) (h : Nat) :
    (m.map (map_remove_handler_callback h)).map Prod.fst = m.map Prod.fst := by
  induction m with
  | nil => rfl
  | cons e m ih => simp [map_remove_handler_callback, ih]

/-- C16. In every registry state reached by subscribes, unsubscribes, lookups and
dispatches, when `lcm_unsubscribe (h)` returns 0: afterwards `h` is neither in the master
list nor in the cached list of any channel; every other subscription is in the master
list, and in the cached list of a channel, exactly if it was before; the cached channel
keys are the same; and a second `lcm_unsubscribe (h)` returns -1. -/
theorem unsubscribe_removes_one (pre : List Step) (h : Nat)
    (h0 : (lcm_unsubscribe (run_steps lcm_create_registry pre).1 h).2 = 0) :
    h ∉ (lcm_unsubscribe (run_steps lcm_create_registry pre).1 h).1.handlers_all.elems ∧
    (∀ c, h ∉ ((lcm_unsubscribe (run_steps lcm_create_registry pre).1 h).1.handlers_of c).elems) ∧
    (∀ y, y ≠ h →
      (y ∈ (lcm_unsubscribe (run_steps lcm_create_registry pre).1 h).1.handlers_all.elems ↔
        y ∈ (run_steps lcm_create_registry pre).1.handlers_all.elems) ∧
      ∀ c, (y ∈ ((lcm_unsubscribe (run_steps lcm_create_registry pre).1 h).1.handlers_of c).elems ↔
        y ∈ ((run_steps lcm_create_registry pre).1.handlers_of c).elems)) ∧
    (lcm_unsubscribe (run_steps lcm_create_registry pre).1 h).1.handlers_map.map Prod.fst =
      (run_steps lcm_create_registry pre).1.handlers_map.map Prod.fst ∧
    (lcm_unsubscribe (lcm_unsubscribe (run_steps lcm_create_registry pre).1 h).1 h).2 = -1 := by
  generalize hs : (run_steps lcm_create_registry pre).1 = s at h0 ⊢
  have w : WF s := by rw [← hs]; exact wf_run_steps pre _ wf_create
  have hin : h ∈ s.handlers_all.elems := by
    rw [unsubscribe_ret] at h0
    by_contra hn
    simp [hn] at h0
  have hg := gone_of_unsubscribe s h w h0
  have hcache : ∀ c, (s.handlers_of c).elems.Nodup := by
    intro c
    rcases handlers_of_mem s c with hc | hc
    · rw [hc]; simp [g_ptr_array_new]
    · exact w.nodup_map _ hc
  refine ⟨hg.2.1, ?_, ?_, ?_, ?_⟩
  · intro c
    rw [handlers_of_unsubscribe s h c hin]
    exact not_mem_remove_fast _ _ (hcache c)
  · intro y hy
    refine ⟨?_, ?_⟩
    · rw [unsubscribe_all]
      exact List.mem_erase_of_ne hy
    · intro c
      rw [handlers_of_unsubscribe s h c hin]
      exact ⟨mem_remove_fast _ _ _, fun hm => mem_remove_fast_of_ne _ _ _ hm hy (hcache c)⟩
  · rw [unsubscribe_map s h hin]
    exact keys_map_remove _ _
  · rw [unsubscribe_ret]
    simp [hg.2.1]

/-- Witness for C16: subscriptions 0, 1, 2 to `X`, the list of `X` cached, then
subscription 0 is unsubscribed. -/
theorem unsubscribe_removes_one_witness :
    (lcm_unsubscribe (run_steps lcm_create_registry
      [Step.subscribe "X".toList, Step.subscribe "X".toList, Step.subscribe "X".toList,
       Step.get_handlers "X".toList]).1 0).2 = 0 ∧
    (lcm_unsubscribe (lcm_unsubscribe (run_steps lcm_create_registry
      [Step.subscribe "X".toList, Step.subscribe "X".toList, Step.subscribe "X".toList,
       Step.get_handlers "X".toList]).1 0).1 0).2 = -1 :=
  ⟨by decide,
   (unsubscribe_removes_one
      [Step.subscribe "X".toList, Step.subscribe "X".toList, Step.subscribe "X".toList,
       Step.get_handlers "X".toList] 0 (by decide)).2.2.2.2⟩

/-- The registry model calls `lcm_subscribe` with the regular expressions of this
development for the library functions. -/
theorem lcm_subscribe_eq_with (s : lcm_t) (P : List Char) :
    lcm_subscribe s P = lcm_subscribe_with regcomp regexec s P :=
  rfl

/-- C17. Whatever the C library functions `regcomp` and `regexec` are, in every registry
state and for every pattern `P`: if `regcomp` does not compile `^P$` (its status is not 0),
`lcm_subscribe` returns `NULL` and leaves the registry as it was (master list and every
cached list included); if `regcomp` compiles `^P$`, `lcm_subscribe` returns a handle, which
is the new last element of the master list. -/
theorem subscribe_rejects_bad_pattern (comp : List Char → Option Regex)
    (exec : Regex → List Char → Int) (s : lcm_t) (P : List Char) :
    (comp ('^' :: P ++ ['$']) = none → lcm_subscribe_with comp exec s P = (s, none)) ∧
    (comp ('^' :: P ++ ['$']) ≠ none →
      ∃ h, (lcm_subscribe_with comp exec s P).2 = some h ∧
        (lcm_subscribe_with comp exec s P).1.handlers_all.elems =
          s.handlers_all.elems ++ [h]) := by
  unfold lcm_subscribe_with
  cases hc : comp ('^' :: P ++ ['$']) with
  | none => exact ⟨fun _ => rfl, fun hn => absurd rfl hn⟩
  | some preg =>
    refine ⟨fun hn => ?_, fun _ => ⟨s.heap.length, rfl, rfl⟩⟩
    cases hn

/-- Witness for C17, with the regular expressions of this development for the library
functions: the pattern `(` does not compile, the pattern `X` does. -/
theorem subscribe_rejects_bad_pattern_witness :
    lcm_subscribe_with regcomp regexec lcm_create_registry "(".toList =
      (lcm_create_registry, none) ∧
    ∃ h, (lcm_subscribe_with regcomp regexec lcm_create_registry "X".toList).2 = some h ∧
      (lcm_subscribe_with regcomp regexec lcm_create_registry "X".toList).1.handlers_all.elems =
        lcm_create_registry.handlers_all.elems ++ [h] :=
  ⟨(subscribe_rejects_bad_pattern regcomp regexec lcm_create_registry "(".toList).1 (by decide),
   (subscribe_rejects_bad_pattern regcomp regexec lcm_create_registry "X".toList).2
     (by decide)⟩
/-! ## URL parsing and construction -/

theorem strstr_scheme (scheme r : List Char) (hs : ¬ "://".toList <:+: scheme) :
    strstr (scheme ++ "://".toList ++ r) "://".toList = some scheme.length := by
  induction scheme with
  | nil => simp [strstr, List.isPrefixOf]
  | cons c s ih =>
    have hs2 : ¬ "://".toList <:+: s := fun h => hs (h.trans (List.suffix_cons c s).isInfix)
    have hnp : List.isPrefixOf "://".toList (c :: s ++ "://".toList ++ r) = false := by
      rcases s with _ | ⟨a, _ | ⟨b, s⟩⟩
      · simp [List.isPrefixOf]
      · simp [List.isPrefixOf]
      · by_contra hp
        apply hs
        simp [List.isPrefixOf] at hp
        obtain ⟨h1, h2, h3⟩ := hp
        subst h1; subst h2; subst h3
        exact (List.prefix_append [':', '/', '/'] s).isInfix
    have e : c :: s ++ "://".toList ++ r = c :: (s ++ "://".toList ++ r) := rfl
    rw [e] at hnp ⊢
    rw [strstr, hnp, ih hs2]
    simp

theorem strstr_char_none (c : Char) (s : List Char) (h : c ∉ s) : strstr s [c] = none := by
  induction s with
  | nil => simp [strstr]
  | cons x s ih =>
    have hx : c ≠ x := fun e => h (by simp [e])
    have hs : c ∉ s := fun e => h (by simp [e])
    simp [strstr, List.isPrefixOf, hx, ih hs]

theorem strstr_char (c : Char) (a b : List Char) (h : c ∉ a) :
    strstr (a ++ c :: b) [c] = some a.length := by
  induction a with
  | nil => simp [strstr, List.isPrefixOf]
  | cons x a ih =>
    have hx : c ≠ x := fun e => h (by simp [e])
    have ha : c ∉ a := fun e => h (by simp [e])
    have e : x :: a ++ c :: b = x :: (a ++ c :: b) := rfl
    rw [e, strstr, ih ha]
    simp [List.isPrefixOf, hx]

theorem g_strsplit_two (s d : List Char) (i : Nat) (hne : s ≠ []) (h : strstr s d = some i) :
    g_strsplit s d 2 = [s.take i, s.drop (i + d.length)] := by
  simp [g_strsplit, hne, g_strsplit_loop, h]

theorem g_strsplit_two_none (s d : List Char) (hne : s ≠ []) (h : strstr s d = none) :
    g_strsplit s d 2 = [s] := by
  simp [g_strsplit, hne, g_strsplit_loop, h]

theorem g_strsplit_set_loop_token (d s r cur : List Char) (h : ∀ c ∈ s, c ∉ d) :
    g_strsplit_set_loop d (s ++ r) cur = g_strsplit_set_loop d r (cur ++ s) := by
  induction s generalizing cur with
  | nil => simp
  | cons x s ih =>
    have hx : x ∉ d := h x (by simp)
    have e : x :: s ++ r = x :: (s ++ r) := rfl
    rw [e, g_strsplit_set_loop]
    have hc : d.contains x = false := by simpa using hx
    simp only [hc, if_false, Bool.false_eq_true]
    rw [ih _ (fun c hc => h c (by simp [hc]))]
    simp

/-- The text of one item of a query. -/
theorem arguments_text_cons (it : List Char × List Char × Char)
    (rest : List (List Char × List Char × Char)) (hr : rest ≠ []) :
    arguments_text (it :: rest) = (it.1 ++ '=' :: it.2.1) ++ it.2.2 :: arguments_text rest := by
  obtain ⟨n, v, sep⟩ := it
  cases rest with
  | nil => exact absurd rfl hr
  | cons a rest => simp [arguments_text]

theorem g_strsplit_set_arguments (items : List (List Char × List Char × Char))
    (h : ∀ it ∈ items, ',' ∉ it.1 ∧ '&' ∉ it.1 ∧ ',' ∉ it.2.1 ∧ '&' ∉ it.2.1 ∧
      (it.2.2 = ',' ∨ it.2.2 = '&'))
    (it : List Char × List Char × Char) (cur : List Char) (hit : ',' ∉ it.1 ∧ '&' ∉ it.1 ∧
      ',' ∉ it.2.1 ∧ '&' ∉ it.2.1 ∧ (it.2.2 = ',' ∨ it.2.2 = '&')) :
    g_strsplit_set_loop [',', '&'] (arguments_text (it :: items)) cur =
      (cur ++ (it.1 ++ '=' :: it.2.1)) :: items.map (fun it => it.1 ++ '=' :: it.2.1) := by
  induction items generalizing it cur with
  | nil =>
    obtain ⟨n, v, sep⟩ := it
    have := g_strsplit_set_loop_token [',', '&'] (n ++ '=' :: v) [] cur (by
      intro c hc hd
      simp at hc hd
      rcases hd with rfl | rfl <;> rcases hc with hc | hc | hc <;> simp_all)
    simpa [arguments_text, g_strsplit_set_loop] using this
  | cons a rest ih =>
    rw [arguments_text_cons it (a :: rest) (by simp)]
    have htok := g_strsplit_set_loop_token [',', '&'] (it.1 ++ '=' :: it.2.1)
      (it.2.2 :: arguments_text (a :: rest)) cur (by
      intro c hc hd
      simp at hc hd
      rcases hd with rfl | rfl <;> rcases hc with hc | hc | hc <;> simp_all)
    rw [htok, g_strsplit_set_loop]
    have hsep : [',', '&'].contains it.2.2 = true := by
      rcases hit.2.2.2.2 with e | e <;> simp [e]
    rw [if_pos hsep, ih (fun x hx => h x (by simp [hx])) a [] (h a (by simp))]
    simp

theorem parse_url_item_eq (table : List (List Char × List Char)) (n v : List Char)
    (hn : n ≠ []) (he : '=' ∉ n) :
    parse_url_item table (n ++ '=' :: v) = g_hash_table_insert table n v := by
  have hne : n ++ '=' :: v ≠ [] := by simp
  have hs := g_strsplit_two (n ++ '=' :: v) ['='] n.length hne (strstr_char '=' n v he)
  have hl : n.length ≠ 0 := fun e => hn (List.length_eq_zero.mp e)
  simp [parse_url_item, hs, hl]

theorem lookup_filter_key (t : List (List Char × List Char)) (k name : List Char) :
    (t.filter (fun e => e.1 != k)).lookup name = if name = k then none else t.lookup name := by
  induction t with
  | nil => simp
  | cons e t ih =>
    obtain ⟨a, b⟩ := e
    by_cases hak : a = k
    · subst hak
      by_cases hna : name = a
      · simp [List.filter_cons, ih, hna]
        exact fun _ _ _ h e => h e.symm
      · have : (name == a) = false := by simpa using hna
        simp [List.filter_cons, ih, hna, List.lookup_cons, this]
    · have h1 : (a != k) = true := by simpa using hak
      rw [List.filter_cons, if_pos h1, List.lookup_cons, List.lookup_cons, ih]
      by_cases hna : name = a
      · subst hna; simp [hak]
      · have : (name == a) = false := by simpa using hna
        simp [this]

theorem lookup_insert (t : List (List Char × List Char)) (k v name : List Char) :
    (g_hash_table_insert t k v).lookup name = if k = name then some v else t.lookup name := by
  unfold g_hash_table_insert
  rw [List.lookup_append, lookup_filter_key]
  by_cases h : name = k
  · subst h; simp [List.lookup_cons]
  · have h2 : (name == k) = false := by simpa using h
    have h3 : ¬ k = name := fun e => h e.symm
    simp [h, h3, List.lookup_cons, h2]

theorem lookup_foldl_insert (items : List (List Char × List Char × Char)) (name : List Char) :
    (items.foldl (fun t it => g_hash_table_insert t it.1 it.2.1) []).lookup name =
      last_value items name := by
  induction items using List.reverseRecOn with
  | nil => simp [last_value]
  | append_singleton l it ih =>
    rw [List.foldl_append, List.foldl_cons, List.foldl_nil, lookup_insert, ih]
    by_cases h : it.1 = name
    · simp [last_value, h]
    · have h2 : (it.1 == name) = false := by simpa using h
      simp [last_value, h, List.find?_cons, h2]

theorem foldl_parse_url_item (items : List (List Char × List Char × Char))
    (h : ∀ it ∈ items, it.1 ≠ [] ∧ '=' ∉ it.1) (t : List (List Char × List Char)) :
    (items.map (fun it => it.1 ++ '=' :: it.2.1)).foldl parse_url_item t =
      items.foldl (fun t it => g_hash_table_insert t it.1 it.2.1) t := by
  induction items generalizing t with
  | nil => rfl
  | cons it items ih =>
    rw [List.map_cons, List.foldl_cons, List.foldl_cons,
      parse_url_item_eq t it.1 it.2.1 (h it (by simp)).1 (h it (by simp)).2,
      ih (fun x hx => h x (by simp [hx]))]

theorem g_strsplit_url (scheme r : List Char) (hs : ¬ "://".toList <:+: scheme) :
    g_strsplit (scheme ++ "://".toList ++ r) "://".toList 2 = [scheme, r] := by
  rw [g_strsplit_two _ _ scheme.length (by simp) (strstr_scheme scheme r hs)]
  simp

theorem lcm_parse_url_query (url s0 s1 t q : List Char) (p0 t0 : Option (List Char))
    (hu : url ≠ []) (h1 : g_strsplit url "://".toList 2 = [s0, s1])
    (h2 : g_strsplit s1 ['?'] 2 = [t, q]) (ht : t ≠ []) :
    lcm_parse_url (some url) true true true ⟨p0, t0, []⟩ =
      (0, ⟨some s0, some t,
        if q = [] then [] else (g_strsplit_set q [',', '&']).foldl parse_url_item []⟩) := by
  have hl : url.length ≠ 0 := fun e => hu (List.length_eq_zero.mp e)
  have hl2 : t.length ≠ 0 := fun e => ht (List.length_eq_zero.mp e)
  have h3 : g_strsplit url [':', '/', '/'] 2 = [s0, s1] := h1
  by_cases hq : q = []
  · simp [lcm_parse_url, hu, h3, h2, ht, hq]
  · simp [lcm_parse_url, hu, h3, h2, ht, hq]

theorem lcm_parse_url_plain (url s0 s1 t : List Char) (p0 t0 : Option (List Char))
    (hu : url ≠ []) (h1 : g_strsplit url "://".toList 2 = [s0, s1])
    (h2 : g_strsplit s1 ['?'] 2 = [t]) (ht : t ≠ []) :
    lcm_parse_url (some url) true true true ⟨p0, t0, []⟩ = (0, ⟨some s0, some t, []⟩) := by
  have h3 : g_strsplit url [':', '/', '/'] 2 = [s0, s1] := h1
  simp [lcm_parse_url, hu, h3, h2, ht]
/-- C18. For every URL `scheme ++ "://" ++ target ++ "?" ++ arguments`, where `scheme`
contains no "://", `target` is not empty and contains no question mark, and `arguments`
is the text of a list of `name=value` items separated by commas or ampersands (names not
empty and without an equals sign, no separator inside a name or a value),
`lcm_parse_url` returns 0, sets the provider to `scheme` and the target to `target`, and
fills the empty table so that each name is mapped to the value of its last occurrence and
no other name is mapped. For the same URL without the question mark and the arguments the
result is the same with an empty table. -/
theorem parse_url_form (scheme target : List Char)
    (items : List (List Char × List Char × Char)) (p0 t0 : Option (List Char))
    (hs : ¬ "://".toList <:+: scheme) (ht : target ≠ []) (hq : '?' ∉ target)
    (hitems : ∀ it ∈ items, it.1 ≠ [] ∧ '=' ∉ it.1 ∧ ',' ∉ it.1 ∧ '&' ∉ it.1 ∧
      ',' ∉ it.2.1 ∧ '&' ∉ it.2.1 ∧ (it.2.2 = ',' ∨ it.2.2 = '&')) :
    lcm_parse_url (some (scheme ++ "://".toList ++ (target ++ '?' :: arguments_text items)))
        true true true ⟨p0, t0, []⟩ =
      (0, ⟨some scheme, some target,
        items.foldl (fun t it => g_hash_table_insert t it.1 it.2.1) []⟩) ∧
    (∀ name, (items.foldl (fun t it => g_hash_table_insert t it.1 it.2.1) []).lookup name =
      last_value items name) ∧
    lcm_parse_url (some (scheme ++ "://".toList ++ target)) true true true ⟨p0, t0, []⟩ =
      (0, ⟨some scheme, some target, []⟩) := by
  refine ⟨?_, lookup_foldl_insert items, ?_⟩
  · have h1 := g_strsplit_url scheme (target ++ '?' :: arguments_text items) hs
    have h2 : g_strsplit (target ++ '?' :: arguments_text items) ['?'] 2 =
        [target, arguments_text items] := by
      rw [g_strsplit_two _ _ target.length (by simp) (strstr_char '?' target _ hq)]
      simp
    rw [lcm_parse_url_query _ _ _ _ _ p0 t0 (by simp) h1 h2 ht]
    cases items with
    | nil => simp [arguments_text]
    | cons it rest =>
      have hne : arguments_text (it :: rest) ≠ [] := by
        have hn := (hitems it (by simp)).1
        obtain ⟨n, v, sep⟩ := it
        cases rest with
        | nil => simp [arguments_text]
        | cons a rest => simp [arguments_text]
      have hsplit : g_strsplit_set (arguments_text (it :: rest)) [',', '&'] =
          (it :: rest).map (fun it => it.1 ++ '=' :: it.2.1) := by
        unfold g_strsplit_set
        rw [if_neg hne, g_strsplit_set_arguments rest
          (fun x hx => (hitems x (by simp [hx])).2.2) it [] (hitems it (by simp)).2.2]
        simp
      rw [if_neg hne, hsplit, foldl_parse_url_item (it :: rest) (fun x hx => ⟨(hitems x hx).1,
        (hitems x hx).2.1⟩) []]
  · have h1 := g_strsplit_url scheme target hs
    have h2 : g_strsplit target ['?'] 2 = [target] :=
      g_strsplit_two_none _ _ ht (strstr_char_none '?' target hq)
    exact lcm_parse_url_plain _ _ _ _ p0 t0 (by simp) h1 h2 ht

theorem parse_url_form_witness :
    lcm_parse_url (some "udpm://239.255.76.67:7667?ttl=1".toList) true true true
        ⟨none, none, []⟩ =
      (0, ⟨some "udpm".toList, some "239.255.76.67:7667".toList,
        [("ttl".toList, "1".toList)]⟩) ∧
    lcm_parse_url (some "file:///tmp/log.lcm".toList) true true true ⟨none, none, []⟩ =
      (0, ⟨some "file".toList, some "/tmp/log.lcm".toList, []⟩) :=
  ⟨(parse_url_form "udpm".toList "239.255.76.67:7667".toList
      [("ttl".toList, "1".toList, ',')] none none (by decide) (by decide) (by decide)
      (by decide)).1,
   (parse_url_form "file".toList "/tmp/log.lcm".toList [] none none (by decide) (by decide)
      (by decide) (by decide)).2.2⟩
theorem strstr_first (d : List Char) (s : List Char) (i : Nat) (h : strstr s d = some i) :
    d <+: s.drop i ∧ ∀ j, j < i → ¬ d <+: s.drop j := by
  induction s generalizing i with
  | nil =>
    by_cases hd : d = []
    · simp [strstr, hd] at h
      subst h; subst hd
      simp
    · simp [strstr, hd] at h
  | cons c s ih =>
    rw [strstr] at h
    by_cases hp : d.isPrefixOf (c :: s) = true
    · rw [if_pos hp] at h
      cases h
      exact ⟨List.isPrefixOf_iff_prefix.mp hp, fun j hj => absurd hj (Nat.not_lt_zero j)⟩
    · rw [if_neg hp] at h
      cases hr : strstr s d with
      | none => rw [hr] at h; cases h
      | some k =>
        rw [hr] at h
        simp at h
        subst h
        refine ⟨(ih k hr).1, fun j hj => ?_⟩
        cases j with
        | zero => exact fun hpre => hp (List.isPrefixOf_iff_prefix.mpr hpre)
        | succ j => exact (ih k hr).2 j (by omega)

theorem strstr_ne_nil (s : List Char) (i : Nat) (h : strstr s "://".toList = some i) :
    s ≠ [] := by
  rintro rfl
  simp [strstr] at h

theorem lcm_parse_url_provider (url : List Char) (i : Nat) (out : url_parts)
    (h : strstr url "://".toList = some i) :
    lcm_parse_url (some url) true false false out =
      (0, { out with provider := some (url.take i) }) := by
  have hu := strstr_ne_nil url i h
  have h3 : g_strsplit url [':', '/', '/'] 2 = [url.take i, url.drop (i + 3)] :=
    g_strsplit_two url "://".toList i hu h
  simp only [lcm_parse_url]
  simp [hu, h3]
  split
  · rfl
  · split <;> rfl

theorem find_provider_none (n : List Char) (l : List lcm_provider_info_t) (b : Nat)
    (h : ∀ p ∈ l, p.name ≠ n) : find_provider n l b = none := by
  induction l generalizing b with
  | nil => rfl
  | cons p l ih =>
    rw [find_provider, if_neg (h p (by simp))]
    exact ih _ (fun q hq => h q (by simp [hq]))

theorem find_provider_some (n : List Char) (l : List lcm_provider_info_t) (b k : Nat)
    (info : lcm_provider_info_t) (hk : l.get? k = some info) (hn : info.name = n)
    (hfirst : ∀ j q, j < k → l.get? j = some q → q.name ≠ n) :
    find_provider n l b = some (b + k, info) := by
  induction l generalizing b k with
  | nil => simp at hk
  | cons p l ih =>
    cases k with
    | zero =>
      simp at hk
      subst hk
      simp [find_provider, hn]
    | succ k =>
      have hp : p.name ≠ n := hfirst 0 p (by omega) (by simp)
      rw [find_provider, if_neg hp, ih (b + 1) k (by simpa using hk)
        (fun j q hj hq => hfirst (j + 1) q (by omega) (by simpa using hq))]
      congr 2
      omega

theorem lcm_create_eq (providers : List lcm_provider_info_t) (url : List Char) (i : Nat)
    (h : strstr url "://".toList = some i) :
    lcm_create providers (some url) =
      match find_provider (url.take i) providers 0 with
      | none => ⟨false, []⟩
      | some (k, info) => ⟨info.create url, [(k, url)]⟩ := by
  have hu := strstr_ne_nil url i h
  have hl : url.length ≠ 0 := fun e => hu (List.length_eq_zero.mp e)
  cases providers with
  | nil => rfl
  | cons p ps =>
    simp only [lcm_create, List.length_cons, Nat.succ_ne_zero, if_false, hl,
      lcm_parse_url_provider url i _ h]
    simp

/-- C19. For every list of registered providers and every URL that contains "://", with
`i` the index of its first occurrence (so that the scheme is the first `i` characters):
if no provider has the scheme as its name, `lcm_create` returns `NULL` and no `create`
is called; if the provider at index `k` has the scheme as its name and no provider
before it has, `lcm_create` calls exactly the `create` of that provider, with the full
URL, and returns an `lcm_t` exactly when that call returns a provider. -/
theorem create_unknown_scheme (providers : List lcm_provider_info_t) (url : List Char)
    (i : Nat) (hi : strstr url "://".toList = some i) :
    ((∀ p ∈ providers, p.name ≠ url.take i) →
      lcm_create providers (some url) = ⟨false, []⟩) ∧
    (∀ k info, providers.get? k = some info → info.name = url.take i →
      (∀ j q, j < k → providers.get? j = some q → q.name ≠ url.take i) →
      lcm_create providers (some url) = ⟨info.create url, [(k, url)]⟩) := by
  constructor
  · intro hn
    rw [lcm_create_eq providers url i hi, find_provider_none _ _ _ hn]
  · intro k info hk hname hfirst
    rw [lcm_create_eq providers url i hi, find_provider_some _ _ 0 k info hk hname hfirst]
    simp

theorem create_unknown_scheme_witness :
    lcm_create [⟨"udpm".toList, fun _ => true⟩, ⟨"file".toList, fun _ => true⟩]
        (some "bogus://x".toList) = ⟨false, []⟩ ∧
    lcm_create [⟨"udpm".toList, fun _ => true⟩, ⟨"file".toList, fun _ => false⟩,
        ⟨"file".toList, fun _ => true⟩] (some "file:///tmp/log.lcm".toList) =
      ⟨false, [(1, "file:///tmp/log.lcm".toList)]⟩ :=
  ⟨(create_unknown_scheme [⟨"udpm".toList, fun _ => true⟩, ⟨"file".toList, fun _ => true⟩]
      "bogus://x".toList 5 (by decide)).1 (by decide),
   (create_unknown_scheme [⟨"udpm".toList, fun _ => true⟩, ⟨"file".toList, fun _ => false⟩,
      ⟨"file".toList, fun _ => true⟩] "file:///tmp/log.lcm".toList 4 (by decide)).2 1
      ⟨"file".toList, fun _ => false⟩ rfl (by decide) (by
        intro j q hj hq
        obtain rfl : j = 0 := by omega
        simp at hq
        subst hq
        decide)⟩

/-- C20. For every list of registered providers, `lcm_create` with a null URL and with an
empty URL gives what `lcm_create` gives for "udpm://"; `lcm_parse_url` on "udpm://"
returns 0, sets the provider to "udpm" and the target to `NULL`, and leaves the table
alone; and `lcm_create` for "udpm://" calls the `create` of the first provider named
"udpm" with the URL "udpm://". -/
theorem create_default_url (providers : List lcm_provider_info_t) :
    lcm_create providers none = lcm_create providers (some "udpm://".toList) ∧
    lcm_create providers (some []) = lcm_create providers (some "udpm://".toList) ∧
    (∀ out, lcm_parse_url (some "udpm://".toList) true true true out =
      (0, ⟨some "udpm".toList, none, out.args⟩)) ∧
    (∀ k info, providers.get? k = some info → info.name = "udpm".toList →
      (∀ j q, j < k → providers.get? j = some q → q.name ≠ "udpm".toList) →
      lcm_create providers (some "udpm://".toList) =
        ⟨info.create "udpm://".toList, [(k, "udpm://".toList)]⟩) := by
  refine ⟨rfl, rfl, fun out => rfl, fun k info hk hname hfirst => ?_⟩
  have hi : strstr "udpm://".toList "://".toList = some 4 := by decide
  rw [lcm_create_eq providers _ 4 hi]
  have ht : List.take 4 "udpm://".toList = "udpm".toList := by decide
  rw [ht, find_provider_some _ _ 0 k info hk hname hfirst]
  simp

theorem create_default_url_witness :
    lcm_create [⟨"file".toList, fun _ => true⟩, ⟨"udpm".toList, fun _ => true⟩] none =
      ⟨true, [(1, "udpm://".toList)]⟩ :=
  (create_default_url [⟨"file".toList, fun _ => true⟩, ⟨"udpm".toList, fun _ => true⟩]).1.trans
    ((create_default_url [⟨"file".toList, fun _ => true⟩, ⟨"udpm".toList, fun _ => true⟩]).2.2.2
      1 ⟨"udpm".toList, fun _ => true⟩ rfl rfl (by
        intro j q hj hq
        obtain rfl : j = 0 := by omega
        simp at hq
        subst hq
        decide))
/-! ## Frame layout of the encoders -/

theorem write_bytes_length (bs : List Nat) (buf : List Nat) (start : Nat) :
    (write_bytes buf start bs).length = buf.length := by
  induction bs generalizing buf start with
  | nil => rfl
  | cons b bs ih => rw [write_bytes, ih]; simp

theorem write_bytes_below (bs : List Nat) (buf : List Nat) (start i : Nat) (h : i < start) :
    (write_bytes buf start bs)[i]? = buf[i]? := by
  induction bs generalizing buf start with
  | nil => rfl
  | cons b bs ih =>
    rw [write_bytes, ih _ _ (by omega), List.getElem?_set_ne (by omega)]

theorem write_bytes_at (bs : List Nat) (buf : List Nat) (start i : Nat)
    (hi : i < bs.length) (hb : start + bs.length ≤ buf.length) :
    (write_bytes buf start bs)[start + i]? = bs[i]? := by
  induction bs generalizing buf start i with
  | nil => simp at hi
  | cons b bs ih =>
    rw [write_bytes]
    simp only [List.length_cons] at hi hb
    cases i with
    | zero =>
      rw [Nat.add_zero, write_bytes_below _ _ _ _ (by omega)]
      have hlt : start < buf.length := by omega
      simp [List.getElem?_set_self hlt]
    | succ i =>
      have := ih (buf.set start b) (start + 1) i (by omega) (by simp; omega)
      rw [show start + (i + 1) = start + 1 + i by omega, this]
      simp

theorem read_write_bytes (bs : List Nat) (buf : List Nat) (start : Nat)
    (hb : start + bs.length ≤ buf.length) :
    read_bytes (write_bytes buf start bs) start bs.length = bs := by
  apply List.ext_getElem?
  intro i
  unfold read_bytes
  by_cases hi : i < bs.length
  · rw [List.getElem?_map, List.getElem?_range hi]
    simp only [Option.map_some']
    rw [List.getD_eq_getElem?_getD, write_bytes_at bs buf start i hi hb]
    simp [List.getElem?_eq_getElem hi]
  · rw [List.getElem?_eq_none (by simpa using hi), List.getElem?_eq_none (by simpa using hi)]

theorem be_bytes_length (w : Nat) (v : Int) : (be_bytes w v).length = w := by
  simp [be_bytes]

theorem be_int_be_bytes (hash : Int) (h1 : -(2 : Int) ^ 63 ≤ hash) (h2 : hash < (2 : Int) ^ 63) :
    be_int true 8 (be_bytes 8 hash) = hash := by
  have hr : List.range 8 = [0, 1, 2, 3, 4, 5, 6, 7] := by decide
  have hn : 0 ≤ hash % (2 : Int) ^ 64 := Int.emod_nonneg _ (by norm_num)
  have hlt : hash % (2 : Int) ^ 64 < (2 : Int) ^ 64 := Int.emod_lt_of_pos _ (by norm_num)
  obtain ⟨n, hnat⟩ := Int.eq_ofNat_of_zero_le hn
  have hv : be_value (be_bytes 8 hash) = n := by
    simp only [be_bytes, hr, List.map, be_value, List.foldl, hnat, Int.toNat_ofNat]
    norm_num
    have : n < 2 ^ 64 := by
      have := hlt
      rw [hnat] at this
      exact_mod_cast this
    omega
  unfold be_int
  rw [hv]
  norm_num at h1 h2 hnat hlt ⊢
  split <;> omega
theorem below_refl (n : Nat) (b : List Nat) : Below n b b := fun _ _ => rfl

theorem below_trans {n : Nat} {b b2 b3 : List Nat} (h1 : Below n b b2) (h2 : Below n b2 b3) :
    Below n b b3 := fun i hi => (h2 i hi).trans (h1 i hi)

theorem below_mono {n m : Nat} {b b2 : List Nat} (hnm : n ≤ m) (h : Below m b b2) :
    Below n b b2 := fun i hi => h i (by omega)

theorem below_write_bytes (buf : List Nat) (start : Nat) (bs : List Nat) :
    Below start buf (write_bytes buf start bs) :=
  fun i hi => write_bytes_below bs buf start i hi

theorem below_prim (w : Nat) (buf : List Nat) (offset maxlen : Int) (p : List Int)
    (elements : Int) : Below offset.toNat buf (prim_encode_array w buf offset maxlen p elements).2 := by
  unfold prim_encode_array
  split
  · exact below_refl _ _
  · exact below_write_bytes _ _ _

theorem flowBelow_step (n : Nat) (b : List Nat) (offset : Int) (hn : n ≤ offset.toNat)
    (f : Int → List Nat → Option (Int × List Nat)) (fl : Flow (List Nat))
    (hf : ∀ pos st r, 0 ≤ pos → f pos st = some r → Below (offset + pos).toNat st r.2)
    (h : FlowBelow id n b fl) : FlowBelow id n b (fl.step f) := by
  cases fl with
  | next pos st =>
    obtain ⟨hp, hb⟩ := h
    simp only [Flow.step]
    cases hr : f pos st with
    | none => trivial
    | some r =>
      obtain ⟨thislen, st2⟩ := r
      have h2 : Below n st st2 := below_mono (by omega) (hf pos st _ hp hr)
      simp only
      split
      · exact below_trans hb h2
      · exact ⟨by omega, below_trans hb h2⟩
  | ret code st => exact h
  | undef => trivial

theorem flowBelow_result (n : Nat) (b : List Nat) (fl : Flow (List Nat))
    (h : FlowBelow id n b fl) (r : Int × List Nat) (hr : fl.result = some r) :
    Below n b r.2 := by
  cases fl with
  | next pos st => simp [Flow.result] at hr; subst hr; exact h.2
  | ret code st => simp [Flow.result] at hr; subst hr; exact h
  | undef => simp [Flow.result] at hr

theorem foldl_invariant {α β : Type} (P : β → Prop) (f : β → α → β) (l : List α) (init : β)
    (h0 : P init) (hstep : ∀ acc x, P acc → P (f acc x)) : P (l.foldl f init) := by
  induction l generalizing init with
  | nil => exact h0
  | cons x l ih => exact ih _ (hstep _ _ h0)

theorem flowBelow_string (buf : List Nat) (offset maxlen : Int) (p : List (List Nat)) :
    FlowBelow id offset.toNat buf (string_encode_array buf offset maxlen p) := by
  unfold string_encode_array
  apply foldl_invariant (FlowBelow id offset.toNat buf)
  · exact ⟨le_refl _, below_refl _ _⟩
  · intro acc s hacc
    apply flowBelow_step _ _ offset (le_refl _)
    · intro pos st r _ hr
      cases hr
      exact below_prim _ _ _ _ _ _
    · apply flowBelow_step _ _ offset (le_refl _)
      · intro pos st r _ hr
        cases hr
        exact below_prim _ _ _ _ _ _
      · exact hacc

theorem below_enum_return (n : Nat) (b : List Nat) (fl : Flow (EnumLoop (List Nat)))
    (r : Int × List Nat) (hr : enum_return fl = some r)
    (hinv : FlowBelow (fun l : EnumLoop (List Nat) => l.st) n b fl) : Below n b r.2 := by
  cases fl with
  | next pos l =>
    simp only [enum_return] at hr
    cases ht : l.thislen with
    | none => rw [ht] at hr; cases hr
    | some t => rw [ht] at hr; cases hr; exact hinv.2
  | ret code l => simp only [enum_return] at hr; cases hr; exact hinv
  | undef => simp [enum_return] at hr

theorem below_enum (buf : List Nat) (offset maxlen : Int) (p : List Int) (elements : Nat)
    (r : Int × List Nat) (hr : enum_encode_array buf offset maxlen p elements = some r) :
    Below offset.toNat buf r.2 := by
  unfold enum_encode_array at hr
  have hinv : FlowBelow (fun l : EnumLoop (List Nat) => l.st) offset.toNat buf
      ((List.range elements).foldl (fun (fl : Flow (EnumLoop (List Nat))) element =>
        match fl with
        | Flow.next pos l =>
          match p.get? element with
          | none => Flow.undef
          | some v =>
            let r := prim_encode_array 4 l.st (offset + pos) (maxlen - pos) [v] 1
            if r.1 < 0 then Flow.ret r.1 ⟨some r.1, r.2⟩
            else Flow.next (pos + r.1) ⟨some r.1, r.2⟩
        | other => other)
      (Flow.next 0 ⟨none, buf⟩)) := by
    apply foldl_invariant (FlowBelow (fun l : EnumLoop (List Nat) => l.st) offset.toNat buf)
    · exact ⟨le_refl _, below_refl _ _⟩
    · intro acc element hacc
      cases acc with
      | next pos l =>
        obtain ⟨hp, hb⟩ := hacc
        simp only
        cases p.get? element with
        | none => trivial
        | some v =>
          have h2 : Below offset.toNat l.st
              (prim_encode_array 4 l.st (offset + pos) (maxlen - pos) [v] 1).2 :=
            below_mono (by omega) (below_prim _ _ _ _ _ _)
          simp only
          split
          · exact below_trans hb h2
          · exact ⟨by omega, below_trans hb h2⟩
      | ret code l => exact hacc
      | undef => trivial
  exact below_enum_return _ _ _ _ hr hinv
theorem below_call (gen : lcmgen_t)
    (enc : String → List Nat → Int → Int → List Value → Int → Option (Int × List Nat))
    (henc : EncBelow enc) (tn : String) (buf : List Nat) (offset maxlen : Int)
    (p : List Value) (elements : Int) (r : Int × List Nat)
    (hr : call_encode_array gen enc tn buf offset maxlen p elements = some r) :
    Below offset.toNat buf r.2 := by
  unfold call_encode_array at hr
  split at hr
  · cases hr
  · split at hr
    · split at hr
      · exact flowBelow_result _ _ _ (flowBelow_string buf offset maxlen _) r hr
      · cases hr
    · split at hr
      · split at hr
        · cases hr
          exact below_prim _ _ _ _ _ _
        · cases hr
      · split at hr
        · split at hr
          · exact below_enum _ _ _ _ _ r hr
          · cases hr
        · exact henc _ _ _ _ _ _ r hr

theorem flowBelow_member
    (call : List Nat → Int → Int → List Value → Int → Option (Int × List Nat))
    (hcall : ∀ b o m p e r, call b o m p e = some r → Below o.toNat b r.2)
    (size : lcm_dimension_t → Option Int) (offset maxlen : Int) (buf : List Nat)
    (dims : List lcm_dimension_t) (v : Value) (fl : Flow (List Nat))
    (h : FlowBelow id offset.toNat buf fl) :
    FlowBelow id offset.toNat buf (encode_member call size offset maxlen dims v fl) := by
  induction dims generalizing v fl with
  | nil =>
    rw [encode_member]
    exact flowBelow_step _ _ offset (le_refl _) _ _ (fun pos st r _ hr => hcall _ _ _ _ _ r hr) h
  | cons ld rest ih =>
    cases rest with
    | nil =>
      rw [encode_member]
      split
      · exact flowBelow_step _ _ offset (le_refl _) _ _
          (fun pos st r _ hr => hcall _ _ _ _ _ r hr) h
      · trivial
    | cons ld2 rest =>
      rw [encode_member]
      split
      · split
        · trivial
        · exact foldl_invariant (FlowBelow id offset.toNat buf) _ _ _ h
            (fun acc x hacc => ih x acc hacc)
      · trivial

theorem encBelow_encode_array (gen : lcmgen_t) (fuel : Nat) :
    EncBelow (encode_array gen fuel) := by
  induction fuel with
  | zero =>
    intro tn b o m p e r hr
    simp [encode_array] at hr
  | succ fuel ih =>
    intro tn b o m p e r hr
    rw [encode_array] at hr
    split at hr
    · cases hr
    · split at hr
      · cases hr
      · refine flowBelow_result _ _ _ ?_ r hr
        apply foldl_invariant (FlowBelow id o.toNat b)
        · exact ⟨le_refl _, below_refl _ _⟩
        · intro acc element hacc
          apply foldl_invariant (FlowBelow id o.toNat b)
          · exact hacc
          · intro acc2 lm hacc2
            split
            · trivial
            · exact flowBelow_member _
                (fun b2 o2 m2 p2 e2 r2 hr2 => below_call gen _ ih _ _ _ _ _ _ r2 hr2)
                _ _ _ _ _ _ _ hacc2

theorem read_bytes_below (n : Nat) (b b2 : List Nat) (start len : Nat) (h : Below n b b2)
    (hn : start + len ≤ n) : read_bytes b2 start len = read_bytes b start len := by
  unfold read_bytes
  apply List.map_congr_left
  intro i hi
  rw [List.getD_eq_getElem?_getD, List.getD_eq_getElem?_getD, h _ (by
    have := List.mem_range.mp hi
    omega)]

theorem encode_template (hash : Int)
    (enc : List Nat → Int → Int → Option (Int × List Nat)) (buf : List Nat)
    (offset maxlen : Int) :
    (maxlen < 8 → c_encode hash enc buf offset maxlen = some (-1, buf)) ∧
    (8 ≤ maxlen → c_encode hash enc buf offset maxlen =
      (enc (write_bytes buf offset.toNat (be_bytes 8 hash)) (offset + 8) (maxlen - 8)).map
        (fun r => (if r.1 < 0 then r.1 else 8 + r.1, r.2))) := by
  have h1 : List.range 8 = [0, 1, 2, 3, 4, 5, 6, 7] := by decide
  constructor
  · intro h
    simp [c_encode, Flow.step, Flow.result, prim_encode_array, h]
  · intro h
    have h2 : ¬ maxlen < 8 := by omega
    simp only [c_encode, Flow.step, prim_encode_array, Int.add_zero, Int.sub_zero]
    norm_num [h2]
    cases enc (write_bytes buf offset.toNat (be_bytes 8 hash)) (offset + 8) (maxlen - 8) with
    | none => simp [Flow.result]
    | some r =>
      obtain ⟨len, b⟩ := r
      by_cases hl : len < 0
      · simp [hl, Flow.result]
      · simp [hl, Flow.result]

/-- The frame template (the part of C11 that holds; the lengths are those the body
encoder reports). For every hash and every body encoder, the emitted C `S_encode` and the
emitted
C++ `S::encode` are the same function; when `maxlen` is below 8 they return a negative
value and the body encoder is not run; otherwise the big-endian bytes of the hash are
written at `offset` and the body encoder is run on that buffer at `offset + 8` with
budget `maxlen - 8`, its negative result is returned as it is and its length `n` is
returned as `8 + n`. The eight bytes written read back as the hash. For every schema,
struct type and value, whatever the emitted C encoder returns with at least 8 bytes of
room, its buffer holds the hash of the type at `offset .. offset + 8`. -/
theorem encode_frame_layout (hash : Int)
    (enc : List Nat → Int → Int → Option (Int × List Nat)) (buf : List Nat)
    (offset maxlen : Int) (gen : lcmgen_t) (tn : String) (p : Value) :
    cpp_encode hash enc buf offset maxlen = c_encode hash enc buf offset maxlen ∧
    (maxlen < 8 → c_encode hash enc buf offset maxlen = some (-1, buf)) ∧
    (8 ≤ maxlen → c_encode hash enc buf offset maxlen =
      (enc (write_bytes buf offset.toNat (be_bytes 8 hash)) (offset + 8) (maxlen - 8)).map
        (fun r => (if r.1 < 0 then r.1 else 8 + r.1, r.2))) ∧
    (offset.toNat + 8 ≤ buf.length →
      read_bytes (write_bytes buf offset.toNat (be_bytes 8 hash)) offset.toNat 8 =
        be_bytes 8 hash) ∧
    (-(2 : Int) ^ 63 ≤ hash → hash < (2 : Int) ^ 63 → be_int true 8 (be_bytes 8 hash) = hash) ∧
    (∀ r, 0 ≤ offset → offset.toNat + 8 ≤ buf.length → 8 ≤ maxlen →
      S_encode gen tn buf offset maxlen p = some r →
      read_bytes r.2 offset.toNat 8 = be_bytes 8 (get_hash gen tn)) := by
  refine ⟨rfl, (encode_template hash enc buf offset maxlen).1,
    (encode_template hash enc buf offset maxlen).2, ?_, be_int_be_bytes hash, ?_⟩
  · intro hb
    exact read_write_bytes (be_bytes 8 hash) buf offset.toNat (by rw [be_bytes_length]; exact hb)
  · intro r ho hb hm hr
    unfold S_encode at hr
    rw [(encode_template _ _ buf offset maxlen).2 hm] at hr
    cases he : encode_array gen (gen.structs.length + 1) tn
        (write_bytes buf offset.toNat (be_bytes 8 (get_hash gen tn))) (offset + 8) (maxlen - 8)
        [p] 1 with
    | none => rw [he] at hr; cases hr
    | some r2 =>
      rw [he] at hr
      simp only [Option.map_some', Option.some.injEq] at hr
      subst hr
      have hbelow := encBelow_encode_array gen _ _ _ _ _ _ _ r2 he
      have ht : (offset + 8).toNat = offset.toNat + 8 := by omega
      rw [ht] at hbelow
      rw [read_bytes_below _ _ _ _ _ hbelow (le_refl _)]
      exact read_write_bytes (be_bytes 8 _) buf offset.toNat (by rw [be_bytes_length]; exact hb)

theorem encode_frame_layout_witness :
    S_encode schema_P "P" (List.replicate 24 0) 1 20 value_P =
      some (-1, [0, 0, 0, 0, 0, 0, 0, 36, 104, 0, 0, 0, 0, 0, 0, 0, 7,
        0, 0, 0, 0, 0, 0, 0]) ∧
    read_bytes [0, 0, 0, 0, 0, 0, 0, 36, 104, 0, 0, 0, 0, 0, 0, 0, 7,
        0, 0, 0, 0, 0, 0, 0] 1 8 = [0, 0, 0, 0, 0, 0, 36, 104] ∧
    c_encode 9320 (fun b _ _ => some (0, b)) (List.replicate 24 0) 1 7 =
      some (-1, List.replicate 24 0) :=
  ⟨by decide,
   (encode_frame_layout 9320 (fun b _ _ => some (0, b)) (List.replicate 24 0) 1 20 schema_P
      "P" value_P).2.2.2.2.2
      (-1, [0, 0, 0, 0, 0, 0, 0, 36, 104, 0, 0, 0, 0, 0, 0, 0, 7, 0, 0, 0, 0, 0, 0, 0])
      (by decide) (by decide) (by decide) (by decide),
   (encode_frame_layout 9320 (fun b _ _ => some (0, b)) (List.replicate 24 0) 1 7 schema_P
      "P" value_P).2.1 (by decide)⟩

/-- C11 (the code at the failing inputs). With `enum E` and `struct S { E e[2]; int32_t x; }`
the frame of `{e = [B, C], x = 7}` takes 20 bytes (`S_encoded_size`), yet with
`maxlen = 16` the emitted `S_encode` does not return a negative value: it returns 16, with
`x` written over `e[1]`. With `struct S3 { E e[3]; }` and `maxlen = 20` the emitted
`S3_encode` writes the hash and a body of 12 bytes, 20 bytes in all, and returns 12, which
is not 8 plus the length of the body. -/
theorem encode_frame_length_short :
    S_encoded_size schema_enum_array "S" value_enum_array = some 20 ∧
    S_encode schema_enum_array "S" (List.replicate 16 0) 0 16 value_enum_array =
      some (16, [0, 0, 0, 0, 0, 0, 37, 154, 0, 0, 0, 1, 0, 0, 0, 7]) ∧
    S_encoded_size schema_enum_array3 "S3" value_enum_array3 = some 20 ∧
    S_encode schema_enum_array3 "S3" (List.replicate 20 0) 0 20 value_enum_array3 =
      some (12, [0, 0, 0, 0, 0, 0, 37, 154, 0, 0, 0, 1, 0, 0, 0, 2, 0, 0, 0, 1]) := by
  decide
/-! ## The type hash -/

theorem hash_rotate_lt (h : Nat) : hash_rotate h < 2 ^ 64 :=
  Nat.mod_lt _ (by norm_num)

theorem hash_rotate_eq (h : Nat) :
    hash_rotate h = (h % 2 ^ 64 % 2 ^ 63) * 2 + h % 2 ^ 64 / 2 ^ 63 := by
  unfold hash_rotate
  have : h % 2 ^ 64 < 2 ^ 64 := Nat.mod_lt _ (by norm_num)
  omega

theorem rotate_testBit_zero (n : Nat) (hlt : n < 2 ^ 64) :
    (n % 2 ^ 63 * 2 + n / 2 ^ 63).testBit 0 = n.testBit 63 := by
  rw [Nat.testBit_to_div_mod, Nat.testBit_to_div_mod]
  have : n / 2 ^ 63 < 2 := by omega
  simp only [pow_zero, Nat.div_one]
  have e : (n % 2 ^ 63 * 2 + n / 2 ^ 63) % 2 = n / 2 ^ 63 % 2 := by omega
  rw [e]

theorem rotate_testBit_succ (n i : Nat) (hlt : n < 2 ^ 64) (hi : i + 1 < 64) :
    (n % 2 ^ 63 * 2 + n / 2 ^ 63).testBit (i + 1) = n.testBit i := by
  rw [Nat.testBit_succ]
  have hdiv : (n % 2 ^ 63 * 2 + n / 2 ^ 63) / 2 = n % 2 ^ 63 := by omega
  rw [hdiv, Nat.testBit_mod_two_pow]
  have : i < 63 := by omega
  simp only [this, decide_True, Bool.true_and]

theorem hash_rotate_testBit (h i : Nat) (hi : i < 64) :
    (hash_rotate h).testBit i = (h % 2 ^ 64).testBit ((i + 63) % 64) := by
  rw [hash_rotate_eq]
  have hlt : h % 2 ^ 64 < 2 ^ 64 := Nat.mod_lt _ (by norm_num)
  cases i with
  | zero => exact rotate_testBit_zero _ hlt
  | succ i =>
    have hidx : (i + 1 + 63) % 64 = i := by omega
    rw [hidx]
    exact rotate_testBit_succ _ i hlt hi

theorem bits_sum (k x : Nat) :
    x % 2 ^ k = ((List.range k).map (fun i => if x.testBit i then 2 ^ i else 0)).sum := by
  induction k with
  | zero => simp [Nat.mod_one]
  | succ k ih =>
    rw [List.range_succ, List.map_append, List.sum_append, ← ih, Nat.mod_pow_succ]
    simp only [List.map_cons, List.map_nil, List.sum_cons, List.sum_nil,
      Nat.testBit_to_div_mod, Nat.add_zero]
    have h2 : x / 2 ^ k % 2 < 2 := Nat.mod_lt _ (by norm_num)
    by_cases hb : x / 2 ^ k % 2 = 1
    · simp [hb]
    · have h0 : x / 2 ^ k % 2 = 0 := by omega
      simp [h0]

theorem hash_rotate_eq_rotl64 (h : Nat) (hlt : h < 2 ^ 64) : hash_rotate h = rotl64 h := by
  have hm : h % 2 ^ 64 = h := Nat.mod_eq_of_lt hlt
  have h1 : hash_rotate h = hash_rotate h % 2 ^ 64 :=
    (Nat.mod_eq_of_lt (hash_rotate_lt h)).symm
  rw [h1, bits_sum 64 (hash_rotate h)]
  unfold rotl64
  congr 1
  apply List.map_congr_left
  intro i hi
  rw [hash_rotate_testBit h i (List.mem_range.mp hi), hm]

theorem int64_wrap_mod (y : Int) : int64_wrap y % 2 ^ 64 = y % 2 ^ 64 := by
  unfold int64_wrap
  omega

theorem hash_rotate_expr_bits (x : Int) (h1 : -(2 : Int) ^ 63 ≤ x) (h2 : x < (2 : Int) ^ 63) :
    int64_bits (hash_rotate_expr x) = hash_rotate (int64_bits x) := by
  unfold int64_bits
  have ha := Int.toNat_of_nonneg (Int.emod_nonneg x (show (2 : Int) ^ 64 ≠ 0 by norm_num))
  have hb := Int.toNat_of_nonneg
    (Int.emod_nonneg (hash_rotate_expr x) (show (2 : Int) ^ 64 ≠ 0 by norm_num))
  generalize (x % 2 ^ 64).toNat = n at ha ⊢
  generalize (hash_rotate_expr x % 2 ^ 64).toNat = m at hb ⊢
  unfold hash_rotate_expr at hb
  rw [int64_wrap_mod, Int.add_emod, int64_wrap_mod, ← Int.add_emod] at hb
  unfold hash_rotate
  by_cases hx : 0 ≤ x
  · have e1 : x / 2 ^ 63 = 0 := Int.ediv_eq_zero_of_lt hx h2
    rw [e1] at hb
    have hn : (n : Int) = x := by omega
    have hm : (m : Int) = 2 * x := by omega
    have hn2 : n < 2 ^ 63 := by omega
    have hm2 : m = 2 * n := by omega
    rw [Nat.mod_eq_of_lt (show n < 2 ^ 64 by omega), Nat.div_eq_of_lt hn2,
      Nat.mod_eq_of_lt (show n * 2 + 0 < 2 ^ 64 by omega)]
    omega
  · have e1 : x / 2 ^ 63 = -1 := by omega
    rw [e1] at hb
    have hn : (n : Int) = x + 2 ^ 64 := by omega
    have hm : (m : Int) = 2 * x + 1 + 2 ^ 64 := by omega
    have hn2 : 2 ^ 63 ≤ n := by omega
    have hn3 : n < 2 ^ 64 := by omega
    have hm2 : m + 2 ^ 64 = 2 * n + 1 := by omega
    have hd : n / 2 ^ 63 = 1 := by
      apply Nat.div_eq_of_lt_le <;> omega
    have hmod : (n * 2 + 1) % 2 ^ 64 = n * 2 + 1 - 2 ^ 64 := by
      rw [Nat.mod_eq_sub_mod (by omega), Nat.mod_eq_of_lt (by omega)]
    rw [Nat.mod_eq_of_lt hn3, hd, hmod]
    omega
theorem find_struct_some (gen : lcmgen_t) (tn : String) (ls : lcm_struct_t)
    (h : gen.find_struct tn = some ls) : ls ∈ gen.structs ∧ ls.structname = tn := by
  unfold lcmgen_t.find_struct at h
  exact ⟨List.mem_of_find?_eq_some h, by simpa using List.find?_some h⟩

theorem mem_struct_names (gen : lcmgen_t) (tn : String) (ls : lcm_struct_t)
    (h : gen.find_struct tn = some ls) : tn ∈ struct_names gen := by
  obtain ⟨hm, hn⟩ := find_struct_some gen tn ls h
  unfold struct_names
  rw [List.mem_dedup, List.mem_map]
  exact ⟨ls, hm, hn⟩

theorem countP_lt_of_imp {α : Type} (l : List α) (q r : α → Bool)
    (himp : ∀ x, q x = true → r x = true) (a : α) (ha : a ∈ l) (hr : r a = true)
    (hq : q a = false) : l.countP q < l.countP r := by
  induction l with
  | nil => simp at ha
  | cons x l ih =>
    have hle : l.countP q ≤ l.countP r := List.countP_mono_left (fun x _ => himp x)
    rw [List.countP_cons, List.countP_cons]
    rcases List.mem_cons.mp ha with rfl | hmem
    · simp [hr, hq]
      omega
    · have := ih hmem
      by_cases hqx : q x = true
      · simp [hqx, himp x hqx]
        omega
      · by_cases hrx : r x = true
        · simp [hqx, hrx]
          omega
        · simp [hqx, hrx]
          omega

theorem remaining_cons_lt (gen : lcmgen_t) (tn : String) (p : List String)
    (hn : tn ∈ struct_names gen) (hp : p.contains tn = false) :
    remaining gen (tn :: p) < remaining gen p := by
  unfold remaining
  refine countP_lt_of_imp _ _ _ ?_ tn hn ?_ ?_
  · intro x hx
    simp at hx ⊢
    exact hx.2
  · simpa using hp
  · simp

theorem remaining_le (gen : lcmgen_t) (p : List String) :
    remaining gen p ≤ (struct_names gen).length := List.countP_le_length _

theorem struct_names_length_le (gen : lcmgen_t) :
    (struct_names gen).length ≤ gen.structs.length := by
  unfold struct_names
  have := (List.dedup_sublist (gen.structs.map (fun ls => ls.structname))).length_le
  simpa using this

theorem remaining_nil (gen : lcmgen_t) : remaining gen [] = (struct_names gen).length := by
  unfold remaining
  simp

theorem foldl_congr_mem {α β : Type} (f g : β → α → β) (l : List α) (init : β)
    (h : ∀ acc, ∀ x ∈ l, f acc x = g acc x) : l.foldl f init = l.foldl g init := by
  induction l generalizing init with
  | nil => rfl
  | cons x l ih =>
    rw [List.foldl_cons, List.foldl_cons, h init x (by simp)]
    exact ih _ (fun acc y hy => h acc y (by simp [hy]))

theorem hash_recursive_stable (gen : lcmgen_t) (f1 f2 : Nat) (tn : String) (p : List String)
    (h1 : remaining gen p + 1 ≤ f1) (h2 : remaining gen p + 1 ≤ f2) :
    hash_recursive gen f1 tn p = hash_recursive gen f2 tn p := by
  induction f1 generalizing f2 tn p with
  | zero => omega
  | succ f1 ih =>
    cases f2 with
    | zero => omega
    | succ f2 =>
      rw [hash_recursive, hash_recursive]
      split
      · rfl
      · split
        · rfl
        · split
          · rfl
          · rename_i ls hls
            split
            · rfl
            · rename_i hc
              have hlt := remaining_cons_lt gen tn p (mem_struct_names gen tn ls hls)
                (by simpa using hc)
              congr 1
              apply foldl_congr_mem
              intro acc lm _
              rw [ih f2 lm.type (tn :: p) (by omega) (by omega)]

theorem foldl_add_mod (g : lcm_member_t → Nat) (l : List lcm_member_t) (acc : Nat) :
    (l.foldl (fun hash lm => (hash + g lm) % 2 ^ 64) acc) % 2 ^ 64 =
      (acc + (l.map g).sum) % 2 ^ 64 := by
  induction l generalizing acc with
  | nil => simp
  | cons x l ih =>
    rw [List.foldl_cons, ih, List.map_cons, List.sum_cons]
    omega

theorem hash_rotate_mod (h : Nat) : hash_rotate (h % 2 ^ 64) = hash_rotate h := by
  unfold hash_rotate
  rw [Nat.mod_mod]

/-- C12. For every schema, every type `T` that is a struct `ls` of it (and neither a
primitive nor an enum), every stack `p` and every fuel above the number of structs, the
emitted `__T_hash_recursive (p)` returns 0 if `T` is on `p` and otherwise the 64-bit left
rotation by one of `(seed + sum over the members of the hash of the member type with T
pushed on p) mod 2^64`, the hashes of the members taken with the same fuel. A primitive
type contributes 0 and an enum type its seed, not rotated. The emitted expression
`(hash<<1) + ((hash>>63)&1)` is that rotation: on every `int64_t` it gives the bit
pattern `hash_rotate` gives, which below `2^64` equals `rotl64`, stays below `2^64`, and
has at bit `i` the bit `i - 1` (mod 64) of its argument. -/
theorem type_hash_definition (gen : lcmgen_t) (T : String) (ls : lcm_struct_t)
    (p : List String) (fuel : Nat)
    (hprim : lcm_is_primitive_type T = false) (henum : gen.find_enum T = none)
    (hstruct : gen.find_struct T = some ls) (hfuel : gen.structs.length + 1 ≤ fuel) :
    hash_recursive gen fuel T p =
      (if T ∈ p then 0
       else rotl64 ((ls.hash +
          (ls.members.map (fun lm => hash_recursive gen fuel lm.type (T :: p))).sum) % 2 ^ 64)) ∧
    (∀ tn q, lcm_is_primitive_type tn = true → hash_recursive gen fuel tn q = 0) ∧
    (∀ tn q le, lcm_is_primitive_type tn = false → gen.find_enum tn = some le →
      hash_recursive gen fuel tn q = le.hash % 2 ^ 64) ∧
    (∀ h, h < 2 ^ 64 → hash_rotate h = rotl64 h ∧ rotl64 h < 2 ^ 64 ∧
      ∀ i, i < 64 → (rotl64 h).testBit i = h.testBit ((i + 63) % 64)) ∧
    (∀ hash : Int, -(2 : Int) ^ 63 ≤ hash → hash < (2 : Int) ^ 63 →
      int64_bits (hash_rotate_expr hash) = rotl64 (int64_bits hash)) := by
  obtain ⟨k, rfl⟩ : ∃ k, fuel = k + 1 := ⟨fuel - 1, by omega⟩
  have hN : ∀ q, remaining gen q + 1 ≤ k + 1 := fun q => by
    have := remaining_le gen q
    have := struct_names_length_le gen
    omega
  refine ⟨?_, ?_, ?_, ?_, ?_⟩
  · rw [hash_recursive]
    simp only [hprim, Bool.false_eq_true, if_false, henum, hstruct]
    by_cases hc : T ∈ p
    · simp [hc]
    · have hc2 : p.contains T = false := by simpa using hc
      simp only [hc, hc2, if_false, Bool.false_eq_true]
      have hlt := remaining_cons_lt gen T p (mem_struct_names gen T ls hstruct) hc2
      have hmap : ls.members.map (fun lm => hash_recursive gen k lm.type (T :: p)) =
          ls.members.map (fun lm => hash_recursive gen (k + 1) lm.type (T :: p)) := by
        apply List.map_congr_left
        intro lm _
        exact hash_recursive_stable gen _ _ _ _ (by have := hN p; omega) (hN _)
      rw [← hash_rotate_eq_rotl64 _ (Nat.mod_lt _ (by norm_num)), ← hash_rotate_mod,
        foldl_add_mod, Nat.mod_add_mod, hmap]
  · intro tn q hp
    rw [hash_recursive]
    simp [hp]
  · intro tn q le hp he
    rw [hash_recursive]
    simp [hp, he]
  · intro h hlt
    refine ⟨hash_rotate_eq_rotl64 h hlt, ?_, ?_⟩
    · rw [← hash_rotate_eq_rotl64 h hlt]
      exact hash_rotate_lt h
    · intro i hi
      rw [← hash_rotate_eq_rotl64 h hlt, hash_rotate_testBit h i hi, Nat.mod_eq_of_lt hlt]
  · intro hash h1 h2
    rw [hash_rotate_expr_bits hash h1 h2]
    apply hash_rotate_eq_rotl64
    unfold int64_bits
    have := Int.emod_lt_of_pos hash (show (0 : Int) < 2 ^ 64 by norm_num)
    have := Int.emod_nonneg hash (show (2 : Int) ^ 64 ≠ 0 by norm_num)
    omega

theorem type_hash_definition_witness :
    hash_recursive schema_cycle 4 "A" [] =
      rotl64 ((0x8000000000000001 + (hash_recursive schema_cycle 4 "B" ["A"] +
        (hash_recursive schema_cycle 4 "int32_t" ["A"] + 0))) % 2 ^ 64) ∧
    hash_recursive schema_cycle 4 "A" ["B", "A"] = 0 ∧
    hash_recursive schema_cycle 4 "A" [] = 547 :=
  ⟨(type_hash_definition schema_cycle "A"
      ⟨"A", [⟨"B", "b", []⟩, ⟨"int32_t", "x", []⟩], 0x8000000000000001⟩ [] 4
      (by decide) (by decide) (by decide) (by decide)).1,
   (type_hash_definition schema_cycle "A"
      ⟨"A", [⟨"B", "b", []⟩, ⟨"int32_t", "x", []⟩], 0x8000000000000001⟩ ["B", "A"] 4
      (by decide) (by decide) (by decide) (by decide)).1,
   by decide⟩
theorem fold_hash_add_none (g : lcm_member_t → Option (Nat × Nat)) (l : List lcm_member_t) :
    l.foldl (fun acc lm => hash_add acc (g lm)) none = none := by
  induction l with
  | nil => rfl
  | cons x l ih => rw [List.foldl_cons]; exact ih

theorem hash_add_some (acc call : Option (Nat × Nat)) (r : Nat × Nat)
    (h : hash_add acc call = some r) :
    ∃ hash depth hh d, acc = some (hash, depth) ∧ call = some (hh, d) ∧
      r = ((hash + hh) % 2 ^ 64, max depth d) := by
  rcases acc with _ | ⟨hash, depth⟩ <;> rcases call with _ | ⟨hh, d⟩ <;>
    simp [hash_add] at h
  exact ⟨hash, depth, hh, d, rfl, rfl, h.symm⟩

theorem fold_hash_add_some (g : lcm_member_t → Option (Nat × Nat)) (l : List lcm_member_t)
    (acc : Option (Nat × Nat)) (r : Nat × Nat)
    (h : l.foldl (fun acc lm => hash_add acc (g lm)) acc = some r) : acc ≠ none := by
  rintro rfl
  rw [fold_hash_add_none] at h
  cases h

theorem fold_hash_add_mono (g1 g2 : lcm_member_t → Option (Nat × Nat))
    (l : List lcm_member_t) (acc : Option (Nat × Nat)) (r : Nat × Nat)
    (hg : ∀ lm ∈ l, ∀ r, g1 lm = some r → g2 lm = some r)
    (h : l.foldl (fun acc lm => hash_add acc (g1 lm)) acc = some r) :
    l.foldl (fun acc lm => hash_add acc (g2 lm)) acc = some r := by
  induction l generalizing acc with
  | nil => exact h
  | cons x l ih =>
    rw [List.foldl_cons] at h ⊢
    have hne := fold_hash_add_some g1 l _ r h
    obtain ⟨r1, hr1⟩ := Option.ne_none_iff_exists'.mp hne
    obtain ⟨hash, depth, hh, d, ha, hc, _⟩ := hash_add_some _ _ r1 hr1
    rw [hg x (by simp) _ hc, ← hc]
    exact ih _ (fun lm hlm => hg lm (by simp [hlm])) h

theorem fold_hash_add_total (g : lcm_member_t → Option (Nat × Nat)) (B : Nat)
    (l : List lcm_member_t) (h0 d0 : Nat) (hd0 : d0 ≤ B)
    (hg : ∀ lm ∈ l, ∃ v d, g lm = some (v, d) ∧ d ≤ B) :
    ∃ v d, l.foldl (fun acc lm => hash_add acc (g lm)) (some (h0, d0)) = some (v, d) ∧
      d0 ≤ d ∧ d ≤ B := by
  induction l generalizing h0 d0 with
  | nil => exact ⟨h0, d0, rfl, le_refl _, hd0⟩
  | cons x l ih =>
    obtain ⟨v, d, hx, hd⟩ := hg x (by simp)
    rw [List.foldl_cons, hx]
    obtain ⟨v2, d2, h2, hle, hB⟩ := ih ((h0 + v) % 2 ^ 64) (max d0 d) (max_le hd0 hd)
      (fun lm hlm => hg lm (by simp [hlm]))
    exact ⟨v2, d2, h2, le_trans (le_max_left _ _) hle, hB⟩

theorem fold_hash_add_value (g : lcm_member_t → Option (Nat × Nat)) (hr : lcm_member_t → Nat)
    (l : List lcm_member_t) (h0 d0 : Nat) (r : Nat × Nat)
    (hg : ∀ lm ∈ l, ∀ r, g lm = some r → hr lm = r.1)
    (h : l.foldl (fun acc lm => hash_add acc (g lm)) (some (h0, d0)) = some r) :
    l.foldl (fun hash lm => (hash + hr lm) % 2 ^ 64) h0 = r.1 := by
  induction l generalizing h0 d0 with
  | nil => simp at h; subst h; rfl
  | cons x l ih =>
    rw [List.foldl_cons] at h ⊢
    have hne := fold_hash_add_some g l _ r h
    obtain ⟨r1, hr1⟩ := Option.ne_none_iff_exists'.mp hne
    obtain ⟨hash, depth, hh, d, ha, hc, he⟩ := hash_add_some _ _ r1 hr1
    cases ha
    rw [hr1, he] at h
    rw [hg x (by simp) _ hc]
    exact ih _ _ (fun lm hlm => hg lm (by simp [hlm])) h

theorem hash_recursive_run_mono (gen : lcmgen_t) (fuel : Nat) (tn : String) (p : List String)
    (r : Nat × Nat) (h : hash_recursive_run gen fuel tn p = some r) :
    hash_recursive_run gen (fuel + 1) tn p = some r := by
  induction fuel generalizing tn p r with
  | zero => simp [hash_recursive_run] at h
  | succ fuel ih =>
    rw [hash_recursive_run] at h ⊢
    split
    · rename_i hp; rw [if_pos hp] at h; exact h
    · rename_i hp
      rw [if_neg hp] at h
      split
      · rename_i le he; rw [he] at h; exact h
      · rename_i he
        rw [he] at h
        split
        · rename_i hs; rw [hs] at h; exact h
        · rename_i ls hs
          rw [hs] at h
          simp only at h ⊢
          split
          · rename_i hc; rw [if_pos hc] at h; exact h
          · rename_i hc
            rw [if_neg hc] at h
            obtain ⟨r1, hr1, hmap⟩ := Option.map_eq_some'.mp h
            rw [fold_hash_add_mono _ _ _ _ r1 (fun lm _ r hr => ih _ _ r hr) hr1]
            simpa using hmap

theorem hash_recursive_run_stable (gen : lcmgen_t) (f1 f2 : Nat) (tn : String)
    (p : List String) (r : Nat × Nat) (hle : f1 ≤ f2)
    (h : hash_recursive_run gen f1 tn p = some r) :
    hash_recursive_run gen f2 tn p = some r := by
  induction f2 with
  | zero =>
    have : f1 = 0 := by omega
    subst this
    exact h
  | succ f2 ih =>
    by_cases he : f1 = f2 + 1
    · subst he; exact h
    · exact hash_recursive_run_mono gen f2 tn p r (ih (by omega))

theorem hash_recursive_run_value (gen : lcmgen_t) (fuel : Nat) (tn : String)
    (p : List String) (r : Nat × Nat) (h : hash_recursive_run gen fuel tn p = some r) :
    hash_recursive gen fuel tn p = r.1 := by
  induction fuel generalizing tn p r with
  | zero => simp [hash_recursive_run] at h
  | succ fuel ih =>
    rw [hash_recursive_run] at h
    rw [hash_recursive]
    split
    · rename_i hp; rw [if_pos hp] at h; cases h; rfl
    · rename_i hp
      rw [if_neg hp] at h
      split
      · rename_i le he; rw [he] at h; cases h; rfl
      · rename_i he
        rw [he] at h
        split
        · rename_i hs; rw [hs] at h; cases h
        · rename_i ls hs
          rw [hs] at h
          simp only at h ⊢
          split
          · rename_i hc; rw [if_pos hc] at h; cases h; rfl
          · rename_i hc
            rw [if_neg hc] at h
            obtain ⟨r1, hr1, hmap⟩ := Option.map_eq_some'.mp h
            rw [fold_hash_add_value _ (fun lm => hash_recursive gen fuel lm.type (tn :: p))
              _ _ _ r1 (fun lm _ r hr => ih _ _ r hr) hr1]
            rw [← hmap]

theorem hash_recursive_run_total (gen : lcmgen_t) (hcl : Closed gen) (fuel : Nat)
    (tn : String) (p : List String)
    (htn : lcm_is_primitive_type tn = true ∨ gen.find_enum tn ≠ none ∨
      gen.find_struct tn ≠ none)
    (hfuel : remaining gen p + 1 ≤ fuel) :
    ∃ v d, hash_recursive_run gen fuel tn p = some (v, d) ∧
      d ≤ p.length + remaining gen p := by
  induction fuel generalizing tn p with
  | zero => omega
  | succ fuel ih =>
    rw [hash_recursive_run]
    split
    · exact ⟨_, _, rfl, by omega⟩
    · rename_i hp
      split
      · exact ⟨_, _, rfl, by omega⟩
      · rename_i he
        split
        · rename_i hs
          rcases htn with h | h | h
          · exact absurd h hp
          · exact absurd he h
          · exact absurd hs h
        · rename_i ls hs
          split
          · exact ⟨_, _, rfl, by omega⟩
          · rename_i hc
            have hlt := remaining_cons_lt gen tn p (mem_struct_names gen tn ls hs)
              (by simpa using hc)
            obtain ⟨v, d, hfold, _, hd⟩ := fold_hash_add_total
              (fun lm => hash_recursive_run gen fuel lm.type (tn :: p))
              (p.length + remaining gen p) ls.members (ls.hash % 2 ^ 64) p.length (by omega)
              (fun lm hlm => by
                obtain ⟨v, d, hv, hd⟩ := ih lm.type (tn :: p)
                  (hcl ls (find_struct_some gen tn ls hs).1 lm hlm) (by omega)
                refine ⟨v, d, hv, ?_⟩
                simp only [List.length_cons] at hd
                omega)
            rw [hfold]
            exact ⟨_, _, rfl, hd⟩
theorem computeHash_run_mono (gen : lcmgen_t) (fuel : Nat) (tn : String) (p : List String)
    (r : Nat × Nat) (h : computeHash_run gen fuel tn p = some r) :
    computeHash_run gen (fuel + 1) tn p = some r := by
  induction fuel generalizing tn p r with
  | zero => simp [computeHash_run] at h
  | succ fuel ih =>
    rw [computeHash_run] at h ⊢
    split
    · rename_i hs; rw [hs] at h; exact h
    · rename_i ls hs
      rw [hs] at h
      simp only at h ⊢
      split
      · rename_i ha
        rw [if_pos ha] at h
        split
        · rename_i hc; rw [if_pos hc] at h; exact h
        · rename_i hc
          rw [if_neg hc] at h
          obtain ⟨r1, hr1, hmap⟩ := Option.map_eq_some'.mp h
          rw [fold_hash_add_mono _ _ _ _ r1 (fun lm _ r hr => ih _ _ r hr) hr1]
          simpa using hmap
      · rename_i ha; rw [if_neg ha] at h; exact h

theorem computeHash_run_stable (gen : lcmgen_t) (f1 f2 : Nat) (tn : String)
    (p : List String) (r : Nat × Nat) (hle : f1 ≤ f2)
    (h : computeHash_run gen f1 tn p = some r) :
    computeHash_run gen f2 tn p = some r := by
  induction f2 with
  | zero =>
    have : f1 = 0 := by omega
    subst this
    exact h
  | succ f2 ih =>
    by_cases he : f1 = f2 + 1
    · subst he; exact h
    · exact computeHash_run_mono gen f2 tn p r (ih (by omega))

theorem computeHash_run_total (gen : lcmgen_t) (hcl : ClosedCpp gen) (fuel : Nat)
    (tn : String) (p : List String) (htn : gen.find_struct tn ≠ none)
    (hfuel : remaining gen p + 1 ≤ fuel) :
    ∃ v d, computeHash_run gen fuel tn p = some (v, d) ∧
      d ≤ p.length + remaining gen p := by
  induction fuel generalizing tn p with
  | zero => omega
  | succ fuel ih =>
    rw [computeHash_run]
    split
    · rename_i hs; exact absurd hs htn
    · rename_i ls hs
      split
      · split
        · exact ⟨_, _, rfl, by omega⟩
        · rename_i hc
          have hlt := remaining_cons_lt gen tn p (mem_struct_names gen tn ls hs)
            (by simpa using hc)
          obtain ⟨v, d, hfold, _, hd⟩ := fold_hash_add_total
            (fun lm => computeHash_run gen fuel lm.type (tn :: p))
            (p.length + remaining gen p)
            (ls.members.filter (fun lm => !lcm_is_primitive_type lm.type))
            (ls.hash % 2 ^ 64) p.length (by omega)
            (fun lm hlm => by
              obtain ⟨hmem, hnp⟩ := List.mem_filter.mp hlm
              have hst : gen.find_struct lm.type ≠ none := by
                rcases hcl ls (find_struct_some gen tn ls hs).1 lm hmem with h | h
                · simp [h] at hnp
                · exact h
              obtain ⟨v, d, hv, hd⟩ := ih lm.type (tn :: p) hst (by omega)
              refine ⟨v, d, hv, ?_⟩
              simp only [List.length_cons] at hd
              omega)
          rw [hfold]
          exact ⟨_, _, rfl, hd⟩
      · exact ⟨_, _, rfl, by omega⟩

theorem fold_hash_add_filter (g1 g2 : lcm_member_t → Option (Nat × Nat))
    (l : List lcm_member_t) (h0 d0 e0 : Nat) (hh : h0 < 2 ^ 64) (r : Nat × Nat)
    (hprim : ∀ lm ∈ l, lcm_is_primitive_type lm.type = true →
      ∀ r, g1 lm = some r → r.1 = 0)
    (hnon : ∀ lm ∈ l, lcm_is_primitive_type lm.type = false →
      ∀ r, g1 lm = some r → ∃ d2, g2 lm = some (r.1, d2))
    (h : l.foldl (fun acc lm => hash_add acc (g1 lm)) (some (h0, d0)) = some r) :
    ∃ d, (l.filter (fun lm => !lcm_is_primitive_type lm.type)).foldl
      (fun acc lm => hash_add acc (g2 lm)) (some (h0, e0)) = some (r.1, d) := by
  induction l generalizing h0 d0 e0 with
  | nil => simp at h; subst h; exact ⟨e0, rfl⟩
  | cons x l ih =>
    rw [List.foldl_cons] at h
    have hne := fold_hash_add_some g1 l _ r h
    obtain ⟨r1, hr1⟩ := Option.ne_none_iff_exists'.mp hne
    obtain ⟨hash, depth, hv, d, ha, hc, he⟩ := hash_add_some _ _ r1 hr1
    cases ha
    rw [hr1, he] at h
    by_cases hp : lcm_is_primitive_type x.type = true
    · have h0v : hv = 0 := hprim x (by simp) hp _ hc
      subst h0v
      rw [Nat.add_zero, Nat.mod_eq_of_lt hh] at h
      rw [List.filter_cons]
      simp only [hp, Bool.not_true, Bool.false_eq_true, if_false]
      exact ih _ _ e0 hh (fun lm hlm => hprim lm (by simp [hlm]))
        (fun lm hlm => hnon lm (by simp [hlm])) h
    · have hp2 : lcm_is_primitive_type x.type = false := by simpa using hp
      obtain ⟨d2, hg2⟩ := hnon x (by simp) hp2 _ hc
      rw [List.filter_cons]
      simp only [hp2, Bool.not_false, if_true, List.foldl_cons, hg2]
      exact ih _ _ _ (Nat.mod_lt _ (by norm_num)) (fun lm hlm => hprim lm (by simp [hlm]))
        (fun lm hlm => hnon lm (by simp [hlm])) h

theorem hash_recursive_run_prim (gen : lcmgen_t) (fuel : Nat) (tn : String) (p : List String)
    (r : Nat × Nat) (hp : lcm_is_primitive_type tn = true)
    (h : hash_recursive_run gen fuel tn p = some r) : r.1 = 0 := by
  cases fuel with
  | zero => simp [hash_recursive_run] at h
  | succ fuel =>
    rw [hash_recursive_run, if_pos hp] at h
    cases h
    rfl

theorem find_enum_none (gen : lcmgen_t) (h : gen.enums = []) (tn : String) :
    gen.find_enum tn = none := by
  unfold lcmgen_t.find_enum
  rw [h]
  rfl

theorem computeHash_run_of_c (gen : lcmgen_t) (hs : StructSchema gen) (fuel : Nat)
    (tn : String) (p : List String) (r : Nat × Nat)
    (hp : ∀ q ∈ p, ∀ ls, gen.find_struct q = some ls →
      ls.members.any (fun lm => !lcm_is_primitive_type lm.type) = true)
    (htn : gen.find_struct tn ≠ none)
    (h : hash_recursive_run gen fuel tn p = some r) :
    ∃ d, computeHash_run gen fuel tn p = some (r.1, d) := by
  induction fuel generalizing tn p r with
  | zero => simp [hash_recursive_run] at h
  | succ fuel ih =>
    obtain ⟨ls, hls⟩ := Option.ne_none_iff_exists'.mp htn
    obtain ⟨hmem, hname⟩ := find_struct_some gen tn ls hls
    have hprim : lcm_is_primitive_type tn = false := by
      rw [← hname]; exact hs.2.1 ls hmem
    rw [hash_recursive_run] at h
    simp only [hprim, Bool.false_eq_true, if_false, find_enum_none gen hs.1, hls] at h
    rw [computeHash_run]
    simp only [hls]
    by_cases hc : p.contains tn = true
    · rw [if_pos hc] at h
      cases h
      have hany := hp tn (by simpa using hc) ls hls
      rw [if_pos hany, if_pos hc]
      exact ⟨_, rfl⟩
    · rw [if_neg hc] at h
      obtain ⟨r1, hr1, hmap⟩ := Option.map_eq_some'.mp h
      subst hmap
      by_cases hany : ls.members.any (fun lm => !lcm_is_primitive_type lm.type) = true
      · rw [if_pos hany, if_neg hc]
        have hp2 : ∀ q ∈ tn :: p, ∀ ls2, gen.find_struct q = some ls2 →
            ls2.members.any (fun lm => !lcm_is_primitive_type lm.type) = true := by
          intro q hq ls2 hq2
          rcases List.mem_cons.mp hq with rfl | hq
          · rw [hls] at hq2
            cases hq2
            exact hany
          · exact hp q hq ls2 hq2
        obtain ⟨d, hd⟩ := fold_hash_add_filter
          (fun lm => hash_recursive_run gen fuel lm.type (tn :: p))
          (fun lm => computeHash_run gen fuel lm.type (tn :: p)) ls.members
          (ls.hash % 2 ^ 64) p.length p.length (Nat.mod_lt _ (by norm_num)) r1
          (fun lm _ hpl r hr => hash_recursive_run_prim gen fuel _ _ r hpl hr)
          (fun lm hlm hpl r hr => by
            have hst : gen.find_struct lm.type ≠ none := by
              rcases hs.2.2 ls hmem lm hlm with h | h
              · rw [h] at hpl; cases hpl
              · exact h
            exact ih lm.type (tn :: p) r hp2 hst hr)
          hr1
        rw [hd]
        exact ⟨_, rfl⟩
      · rw [if_neg hany]
        have hfil : ls.members.filter (fun lm => !lcm_is_primitive_type lm.type) = [] := by
          rw [List.filter_eq_nil_iff]
          intro lm hlm hnp
          exact hany (List.any_eq_true.mpr ⟨lm, hlm, hnp⟩)
        obtain ⟨d, hd⟩ := fold_hash_add_filter
          (fun lm => hash_recursive_run gen fuel lm.type (tn :: p))
          (fun lm => computeHash_run gen fuel lm.type (tn :: p)) ls.members
          (ls.hash % 2 ^ 64) p.length p.length (Nat.mod_lt _ (by norm_num)) r1
          (fun lm _ hpl r hr => hash_recursive_run_prim gen fuel _ _ r hpl hr)
          (fun lm hlm hpl r hr => by
            exfalso
            exact hany (List.any_eq_true.mpr ⟨lm, hlm, by simp [hpl]⟩))
          hr1
        rw [hfil] at hd
        simp only [List.foldl_nil, Option.some.injEq, Prod.mk.injEq] at hd
        rw [hd.1]
        exact ⟨_, rfl⟩
theorem closed_of_closedCpp (gen : lcmgen_t) (h : ClosedCpp gen) : Closed gen := by
  intro ls hls lm hlm
  rcases h ls hls lm hlm with h1 | h1
  · exact Or.inl h1
  · exact Or.inr (Or.inr h1)

/-- C13. For every schema and every struct type of it, with `N` the number of distinct
struct names of the schema, cyclic references or not: if every member type is a
primitive, an enum or a struct of the schema, the emitted C `__T_hash_recursive (NULL)`
returns a hash `v` whenever it is allowed a nesting of `N + 1` calls or more, always the
same one (the value `hash_recursive` gives), and no call is handed a stack longer than
`N`; if every member type is a primitive or a struct, the same holds for the emitted C++
`T::_computeHash (NULL)`. -/
theorem hash_computation_terminates (gen : lcmgen_t) (tn : String)
    (htn : gen.find_struct tn ≠ none) :
    (Closed gen → ∃ v d, d ≤ (struct_names gen).length ∧
      ∀ fuel, (struct_names gen).length + 1 ≤ fuel →
        hash_recursive_run gen fuel tn [] = some (v, d) ∧ hash_recursive gen fuel tn [] = v) ∧
    (ClosedCpp gen → ∃ v d, d ≤ (struct_names gen).length ∧
      ∀ fuel, (struct_names gen).length + 1 ≤ fuel →
        computeHash_run gen fuel tn [] = some (v, d)) := by
  constructor
  · intro hcl
    obtain ⟨v, d, hrun, hd⟩ := hash_recursive_run_total gen hcl ((struct_names gen).length + 1)
      tn [] (Or.inr (Or.inr htn)) (by rw [remaining_nil])
    rw [remaining_nil] at hd
    refine ⟨v, d, by simpa using hd, fun fuel hfuel => ?_⟩
    have h2 := hash_recursive_run_stable gen _ fuel tn [] (v, d) hfuel hrun
    exact ⟨h2, hash_recursive_run_value gen fuel tn [] (v, d) h2⟩
  · intro hcl
    obtain ⟨v, d, hrun, hd⟩ := computeHash_run_total gen hcl ((struct_names gen).length + 1)
      tn [] htn (by rw [remaining_nil])
    rw [remaining_nil] at hd
    exact ⟨v, d, by simpa using hd, fun fuel hfuel =>
      computeHash_run_stable gen _ fuel tn [] (v, d) hfuel hrun⟩

theorem hash_computation_terminates_witness :
    (∃ v d, d ≤ (struct_names schema_cycle).length ∧
      ∀ fuel, (struct_names schema_cycle).length + 1 ≤ fuel →
        hash_recursive_run schema_cycle fuel "A" [] = some (v, d) ∧
          hash_recursive schema_cycle fuel "A" [] = v) ∧
    (struct_names schema_cycle).length = 3 ∧
    hash_recursive_run schema_cycle 4 "A" [] = some (547, 3) ∧
    computeHash_run schema_cycle 4 "A" [] = some (547, 2) :=
  ⟨(hash_computation_terminates schema_cycle "A" (by decide)).1 (by decide),
   by decide, by decide, by decide⟩

/-- C14. For every schema of struct types (no enum, no struct with the name of a
primitive type, every member type a primitive or a struct of the schema), every struct
type of it and every stack that holds only structs with a non-primitive member (the ones
that push themselves before calling a struct routine), and enough nesting of calls: the
routine emitted by `emit_c.c`, where every member contributes and the stack is always
checked, and the routine emitted by `emit_cpp.c`, where only the non-primitive members
contribute and the stack is checked only when there is one, return the same hash, which
is the value `hash_recursive` gives. -/
theorem cpp_hash_agrees (gen : lcmgen_t) (hs : StructSchema gen) (tn : String)
    (p : List String) (fuel : Nat) (htn : gen.find_struct tn ≠ none)
    (hp : ∀ q ∈ p, ∀ ls, gen.find_struct q = some ls →
      ls.members.any (fun lm => !lcm_is_primitive_type lm.type) = true)
    (hfuel : remaining gen p + 1 ≤ fuel) :
    ∃ v d1 d2, hash_recursive_run gen fuel tn p = some (v, d1) ∧
      computeHash_run gen fuel tn p = some (v, d2) ∧ hash_recursive gen fuel tn p = v := by
  obtain ⟨v, d, hrun, _⟩ := hash_recursive_run_total gen (closed_of_closedCpp gen hs.2.2) fuel
    tn p (Or.inr (Or.inr htn)) hfuel
  obtain ⟨d2, hcpp⟩ := computeHash_run_of_c gen hs fuel tn p (v, d) hp htn hrun
  exact ⟨v, d, d2, hrun, hcpp, hash_recursive_run_value gen fuel tn p (v, d) hrun⟩

theorem cpp_hash_agrees_witness :
    (∃ v d1 d2, hash_recursive_run schema_cycle 4 "B" ["A"] = some (v, d1) ∧
      computeHash_run schema_cycle 4 "B" ["A"] = some (v, d2) ∧
      hash_recursive schema_cycle 4 "B" ["A"] = v) ∧
    hash_recursive_run schema_cycle 4 "B" ["A"] = some (272, 3) ∧
    computeHash_run schema_cycle 4 "B" ["A"] = some (272, 2) :=
  ⟨cpp_hash_agrees schema_cycle (by decide) "B" ["A"] 4 (by decide)
    (by
      intro q hq ls hls
      have hq2 : q = "A" := by simpa using hq
      subst hq2
      have hA : schema_cycle.find_struct "A" =
          some ⟨"A", [⟨"B", "b", []⟩, ⟨"int32_t", "x", []⟩], 0x8000000000000001⟩ := by decide
      rw [hA] at hls
      cases hls
      decide)
    (by decide),
   by decide, by decide⟩
/-! ## The Lua binding, the trampoline and strings in C++ -/

/-- C21 (the code at the failing input). When `select` reports a timeout, `timedhandle`
returns false without calling `lcm_handle`, and when the descriptor is ready and
`lcm_handle` returns 0 it calls `lcm_handle` once and returns true. But when `select`
itself fails, the descriptor is still in the set (a failing `select` does not modify
it), so `timedhandle` calls `lcm_handle` once, and returns true if that call returns 0
and raises the error of a failed `lcm_handle` otherwise; the error of the branch
commented "select must have encountered an error" is raised for no outcome of
`select`. -/
theorem timedhandle_select_error :
    (∀ handle, timedhandle select_outcome.timeout handle = (lua_result.returned false, 0)) ∧
    timedhandle select_outcome.ready 0 = (lua_result.returned true, 1) ∧
    timedhandle select_outcome.error 0 = (lua_result.returned true, 1) ∧
    (∀ handle, handle ≠ 0 →
      timedhandle select_outcome.error handle = (lua_result.raised "error lcm handle", 1)) ∧
    (∀ o handle, (timedhandle o handle).1 ≠ lua_result.raised "error lcm handle (select)") ∧
    (∀ status handle, status ≠ 0 →
      impl_lcm_timedhandle status false handle =
        (lua_result.raised "error lcm handle (select)", 0)) := by
  refine ⟨fun _ => rfl, rfl, rfl, ?_, ?_, ?_⟩
  · intro handle h
    simp [timedhandle, select, impl_lcm_timedhandle, h]
  · intro o handle
    cases o
    · simp [timedhandle, select, impl_lcm_timedhandle]
    · by_cases h : handle = 0 <;> simp [timedhandle, select, impl_lcm_timedhandle, h]
    · by_cases h : handle = 0 <;> simp [timedhandle, select, impl_lcm_timedhandle, h]
  · intro status handle h
    simp [impl_lcm_timedhandle, h]

/-- C22. For every schema, struct type and received buffer: when the emitted `S_decode`
returns a status that is not negative, `S_handler_stub` invokes the user handler exactly
once, with the decoded message; when it returns a negative status the user handler is
not invoked and the stub returns. In particular a buffer of fewer than 8 bytes, or one
that does not start with the hash of the type, invokes no handler. -/
theorem stub_drops_undecodable (gen : lcmgen_t) (tn : String) (rbuf : List Nat) :
    (∀ status p, S_decode gen tn rbuf 0 rbuf.length (Value.struct []) = some (status, p) →
      (0 ≤ status → S_handler_stub gen tn rbuf = some [p]) ∧
      (status < 0 → S_handler_stub gen tn rbuf = some [])) ∧
    (rbuf.length < 8 ∨ be_int true 8 (read_bytes rbuf 0 8) ≠ get_hash gen tn →
      S_handler_stub gen tn rbuf = some []) := by
  constructor
  · intro status p h
    unfold S_handler_stub handler_stub
    rw [h]
    constructor
    · intro hs
      have : ¬ status < 0 := Int.not_lt.mpr hs
      simp [this]
    · intro hs
      simp [hs]
  · intro h
    unfold S_handler_stub handler_stub S_decode
    rw [c_decode_eq]
    rcases h with h | h
    · have : (rbuf.length : Int) < 8 := by exact_mod_cast h
      simp [this]
    · have h0 : (0 : Int).toNat = 0 := rfl
      rw [h0]
      by_cases hl : (rbuf.length : Int) < 8
      · simp [hl]
      · simp [hl, h]

theorem stub_drops_undecodable_witness :
    S_handler_stub schema_T "T" [0, 0, 0, 0, 0, 0, 36, 104, 0, 0, 0, 5] =
      some [Value.struct [("x", Value.int 5)]] ∧
    S_handler_stub schema_T "T" [0, 0, 0, 0, 0, 0, 36, 104, 0, 0] = some [] ∧
    S_handler_stub schema_T "T" [0, 0, 0, 0, 0, 0, 36, 105, 0, 0, 0, 5] = some [] :=
  ⟨((stub_drops_undecodable schema_T "T" [0, 0, 0, 0, 0, 0, 36, 104, 0, 0, 0, 5]).1 12
      (Value.struct [("x", Value.int 5)]) (by rfl)).1 (by decide),
   ((stub_drops_undecodable schema_T "T" [0, 0, 0, 0, 0, 0, 36, 104, 0, 0]).1 (-1)
      (Value.struct [("x", Value.arr [])]) (by rfl)).2 (by decide),
   (stub_drops_undecodable schema_T "T" [0, 0, 0, 0, 0, 0, 36, 105, 0, 0, 0, 5]).2
      (Or.inr (by decide))⟩

theorem prim_decode_one_int32 (buf : List Nat) (offset maxlen : Int) :
    prim_decode_array true 4 buf offset maxlen 1 =
      if maxlen < 4 then (-1, []) else (4, [be_int true 4 (read_bytes buf offset.toNat 4)]) := by
  unfold prim_decode_array
  have h1 : (1 : Int).toNat = 1 := rfl
  have h2 : List.range 1 = [0] := rfl
  simp [h1, h2]

theorem be_int_four_bounds (buf : List Nat) (start : Nat) :
    -(2 : Int) ^ 31 ≤ be_int true 4 (read_bytes buf start 4) ∧
      be_int true 4 (read_bytes buf start 4) < (2 : Int) ^ 31 := by
  have hr : List.range 4 = [0, 1, 2, 3] := by decide
  have hv : be_value (read_bytes buf start 4) < 2 ^ 32 := by
    simp only [read_bytes, hr, List.map, be_value, List.foldl]
    omega
  unfold be_int
  generalize be_value (read_bytes buf start 4) = v at hv
  by_cases h : 2 ^ (8 * 4 - 1) ≤ v
  · simp only [h, decide_True, Bool.and_self, if_true]
    norm_num at h hv ⊢
    omega
  · simp only [h, decide_False, Bool.and_false, Bool.false_eq_true, if_false]
    norm_num at h hv ⊢
    omega

/-- C23 (the code at the failing input). With the length prefix 0 the statements emitted
for a string do not return a negative value: they call `assign` with the count
`2^64 - 1`. With the prefix -5 they call `assign` with `2^64 - 6` and then move `pos`
back, from 4 to -1. In general, once the prefix has been read, a prefix below 1 never
leads to a `return`; a prefix above the bytes that remain returns -1, and a prefix `len`
from 1 to the bytes that remain assigns `len - 1` bytes and advances `pos` by `len`. -/
theorem cpp_string_length_unchecked :
    cpp_decode_string [0, 0, 0, 0] 0 4 0 = string_decode.assign (2 ^ 64 - 1) 4 ∧
    cpp_decode_string [255, 255, 255, 251, 65, 66, 0, 1, 1, 1] 0 10 0 =
      string_decode.assign (2 ^ 64 - 6) (-1) ∧
    (∀ buf offset maxlen pos, 4 ≤ maxlen - pos →
      be_int true 4 (read_bytes buf (offset + pos).toNat 4) < 1 →
      ∃ n p, cpp_decode_string buf offset maxlen pos = string_decode.assign n p ∧
        2 ^ 63 ≤ n ∧ p < pos + 4 + 1) ∧
    (∀ buf offset maxlen pos, 4 ≤ maxlen - pos →
      maxlen - (pos + 4) < be_int true 4 (read_bytes buf (offset + pos).toNat 4) →
      cpp_decode_string buf offset maxlen pos = string_decode.ret (-1)) ∧
    (∀ buf offset maxlen pos, 4 ≤ maxlen - pos →
      1 ≤ be_int true 4 (read_bytes buf (offset + pos).toNat 4) →
      be_int true 4 (read_bytes buf (offset + pos).toNat 4) ≤ maxlen - (pos + 4) →
      cpp_decode_string buf offset maxlen pos =
        string_decode.assign
          (be_int true 4 (read_bytes buf (offset + pos).toNat 4) - 1).toNat
          (pos + 4 + be_int true 4 (read_bytes buf (offset + pos).toNat 4))) := by
  refine ⟨by decide, by decide, ?_, ?_, ?_⟩
  · intro buf offset maxlen pos hm hlen
    have hb := be_int_four_bounds buf (offset + pos).toNat
    generalize hl : be_int true 4 (read_bytes buf (offset + pos).toNat 4) = len at hlen hb
    have h4 : ¬ maxlen - pos < 4 := by omega
    have hgt : ¬ len > maxlen - (pos + 4) := by omega
    refine ⟨((len - 1) % 2 ^ 64).toNat, pos + 4 + len, ?_, ?_, by omega⟩
    · simp only [cpp_decode_string, prim_decode_one_int32, h4, if_false, hl, List.headD_cons]
      simp [hgt]
    · have e : (len - 1) % 2 ^ 64 = len - 1 + 2 ^ 64 := by
        norm_num at hb ⊢
        omega
      rw [e]
      norm_num at hb ⊢
      omega
  · intro buf offset maxlen pos hm hlen
    have h4 : ¬ maxlen - pos < 4 := by omega
    simp only [cpp_decode_string, prim_decode_one_int32, h4, if_false, List.headD_cons]
    simp [hlen]
  · intro buf offset maxlen pos hm h1 h2
    have hb := be_int_four_bounds buf (offset + pos).toNat
    generalize hl : be_int true 4 (read_bytes buf (offset + pos).toNat 4) = len at h1 h2 hb
    have h4 : ¬ maxlen - pos < 4 := by omega
    have hgt : ¬ len > maxlen - (pos + 4) := by omega
    simp only [cpp_decode_string, prim_decode_one_int32, h4, if_false, hl, List.headD_cons]
    have e : (len - 1) % 2 ^ 64 = len - 1 := by
      norm_num at hb ⊢
      omega
    rw [if_neg hgt, e]
    rfl

/-- C27 (the code at the failing input). For an enum `E` and three elements, with room
for all of them, the emitted `__E_encode_array` writes 12 bytes and `__E_decode_array`
reads three elements, but both return 4, the length of the last element, while
`__E_encoded_array_size` is 12; for one element they return 4; for no element they
return the local `thislen`, which was never assigned. -/
theorem enum_array_returns_last_length :
    enum_encode_array (List.replicate 12 0) 0 12 [1, 2, 3] 3 =
      some (4, [0, 0, 0, 1, 0, 0, 0, 2, 0, 0, 0, 3]) ∧
    enum_decode_array [0, 0, 0, 1, 0, 0, 0, 2, 0, 0, 0, 3] 0 12 3 = some (4, [1, 2, 3]) ∧
    enum_encoded_array_size 3 = 12 ∧
    enum_encode_array (List.replicate 12 0) 0 12 [1] 1 =
      some (4, [0, 0, 0, 1, 0, 0, 0, 0, 0, 0, 0, 0]) ∧
    enum_encode_array (List.replicate 12 0) 0 12 [] 0 = none ∧
    enum_decode_array [0, 0, 0, 1, 0, 0, 0, 2, 0, 0, 0, 3] 0 12 0 = none := by
  decide
/-! ## When `lcm_parse_url` fails -/

theorem strstr_of_infix (d s : List Char) (h : d <:+: s) : strstr s d ≠ none := by
  induction s with
  | nil =>
    have hd : d = [] := List.eq_nil_of_infix_nil h
    simp [strstr, hd]
  | cons c s ih =>
    rw [strstr]
    by_cases hp : d.isPrefixOf (c :: s) = true
    · simp [hp]
    · rw [if_neg hp]
      rcases List.infix_cons_iff.mp h with h1 | h1
      · exact absurd (List.isPrefixOf_iff_prefix.mpr h1) hp
      · have := ih h1
        cases hs : strstr s d with
        | none => exact absurd hs this
        | some i => simp

theorem strstr_none_iff (s : List Char) :
    strstr s "://".toList = none ↔ ¬ "://".toList <:+: s := by
  constructor
  · intro h hin
    exact strstr_of_infix _ _ hin h
  · intro h
    cases hs : strstr s "://".toList with
    | none => rfl
    | some i =>
      exfalso
      apply h
      have hp := (strstr_first _ s i hs).1
      exact hp.isInfix.trans (List.drop_suffix i s).isInfix

theorem lcm_parse_url_ret (url : Option (List Char)) (provider target args : Bool)
    (out : url_parts) :
    (lcm_parse_url url provider target args out).1 =
      match url with
      | none => -1
      | some u => if strstr u "://".toList = none then -1 else 0 := by
  cases url with
  | none => rfl
  | some u =>
    by_cases hu : u = []
    · subst hu
      rfl
    · cases hs : strstr u "://".toList with
      | none =>
        have h3 : g_strsplit u [':', '/', '/'] 2 = [u] := g_strsplit_two_none u _ hu hs
        have hs2 : strstr u [':', '/', '/'] = none := hs
        simp [lcm_parse_url, hu, h3, hs2]
      | some i =>
        have h3 : g_strsplit u [':', '/', '/'] 2 = [u.take i, u.drop (i + 3)] :=
          g_strsplit_two u "://".toList i hu hs
        have hs2 : strstr u [':', '/', '/'] = some i := hs
        simp only [lcm_parse_url]
        simp [hu, h3, hs2]
        repeat' split
        all_goals rfl

theorem lcm_parse_url_target_null (url s0 s1 : List Char) (provider args : Bool)
    (out : url_parts) (hu : url ≠ [])
    (h1 : g_strsplit url [':', '/', '/'] 2 = [s0, s1])
    (h2 : g_strsplit s1 ['?'] 2 = [] ∨ ∃ q, g_strsplit s1 ['?'] 2 = [[], q]) :
    (lcm_parse_url (some url) provider true args out).2.target = none := by
  rcases h2 with h2 | ⟨q, h2⟩
  · simp only [lcm_parse_url]
    simp [hu, h1, h2]
  · simp only [lcm_parse_url]
    simp [hu, h1, h2]
    repeat' split
    all_goals rfl

theorem lcm_parse_url_no_target (scheme q : List Char) (provider args : Bool)
    (out : url_parts) (hs : ¬ "://".toList <:+: scheme) :
    (lcm_parse_url (some (scheme ++ "://".toList)) provider true args out).2.target = none ∧
    (lcm_parse_url (some (scheme ++ "://".toList ++ '?' :: q)) provider true args out).2.target =
      none := by
  constructor
  · have h1 : g_strsplit (scheme ++ "://".toList) [':', '/', '/'] 2 = [scheme, []] := by
      have := g_strsplit_url scheme [] hs
      simpa using this
    exact lcm_parse_url_target_null _ scheme [] provider args out (by simp) h1 (Or.inl rfl)
  · have h1 : g_strsplit (scheme ++ "://".toList ++ '?' :: q) [':', '/', '/'] 2 =
        [scheme, '?' :: q] := g_strsplit_url scheme ('?' :: q) hs
    have h2 : g_strsplit ('?' :: q) ['?'] 2 = [[], q] := by
      have := g_strsplit_two ('?' :: q) ['?'] 0 (by simp) (strstr_char '?' [] q (by simp))
      simpa using this
    exact lcm_parse_url_target_null _ scheme ('?' :: q) provider args out (by simp) h1
      (Or.inr ⟨q, h2⟩)

/-- C29. For every `url` and whichever outputs are requested, `lcm_parse_url` returns -1
exactly if `url` is null, empty, or does not contain "://", and 0 otherwise; the return
value is the same for every choice of requested outputs; and when the target is
requested and the text after "://" is empty or starts with a question mark, the target
is set to `NULL`. -/
theorem parse_url_fails_without_separator (url : Option (List Char))
    (provider target args : Bool) (out : url_parts) :
    ((lcm_parse_url url provider target args out).1 = -1 ↔
      (url = none ∨ url = some [] ∨ ∃ u, url = some u ∧ ¬ "://".toList <:+: u)) ∧
    ((lcm_parse_url url provider target args out).1 ≠ -1 →
      (lcm_parse_url url provider target args out).1 = 0) ∧
    (∀ provider2 target2 args2 out2,
      (lcm_parse_url url provider2 target2 args2 out2).1 =
        (lcm_parse_url url provider target args out).1) ∧
    (∀ scheme q, ¬ "://".toList <:+: scheme →
      (url = some (scheme ++ "://".toList) ∨ url = some (scheme ++ "://".toList ++ '?' :: q)) →
      (lcm_parse_url url provider true args out).2.target = none) := by
  refine ⟨?_, ?_, ?_, ?_⟩
  · rw [lcm_parse_url_ret]
    cases url with
    | none => simp
    | some u =>
      by_cases hs : strstr u "://".toList = none
      · have hi := (strstr_none_iff u).mp hs
        simp only [hs, if_true, true_iff]
        exact Or.inr (Or.inr ⟨u, rfl, hi⟩)
      · have hi : ¬ ¬ "://".toList <:+: u := fun hn => hs ((strstr_none_iff u).mpr hn)
        simp only [hs, if_false]
        constructor
        · intro h
          cases h
        · rintro (h | h | ⟨v, hv, hn⟩)
          · cases h
          · cases h
            exact absurd (by decide) hs
          · cases hv
            exact absurd hn hi
  · rw [lcm_parse_url_ret]
    cases url with
    | none => simp
    | some u =>
      by_cases hs : strstr u "://".toList = none <;> simp [hs]
  · intro p2 t2 a2 out2
    rw [lcm_parse_url_ret, lcm_parse_url_ret]
  · intro scheme q hs h
    rcases h with h | h
    · rw [h]
      exact (lcm_parse_url_no_target scheme q provider args out hs).1
    · rw [h]
      exact (lcm_parse_url_no_target scheme q provider args out hs).2

theorem parse_url_fails_without_separator_witness :
    (lcm_parse_url (some "udpm".toList) true true true ⟨none, none, []⟩).1 = -1 ∧
    (lcm_parse_url (some "://x".toList) true true true ⟨none, none, []⟩).1 = 0 ∧
    lcm_parse_url (some "://x".toList) true true true ⟨none, none, []⟩ =
      (0, ⟨some [], some "x".toList, []⟩) ∧
    (lcm_parse_url (some "udpm://?ttl=1".toList) true true true
      ⟨none, some "old".toList, []⟩).2.target = none :=
  ⟨(parse_url_fails_without_separator (some "udpm".toList) true true true ⟨none, none, []⟩).1.mpr
      (Or.inr (Or.inr ⟨"udpm".toList, rfl, by decide⟩)),
   (parse_url_fails_without_separator (some "://x".toList) true true true ⟨none, none, []⟩).2.1
      (by decide),
   by decide,
   (parse_url_fails_without_separator (some "udpm://?ttl=1".toList) true true true
      ⟨none, some "old".toList, []⟩).2.2.2 "udpm".toList "ttl=1".toList (by decide)
      (Or.inr rfl)⟩
/-! ## The text of the C++ decoder and encoder -/

/-- C26 (the code at the failing input). For the member `double m[2][3]`, whose
dimensions are all constant and which is declared as `double m[2][3];`, the lines
emitted for `_decodeNoHash` start with `this->m.resize(2);`; for `string s[3]` they
start with `this->s.resize(3);`. In general the lines emitted for a member start with a
`resize` of the member whenever it has two or more dimensions, and whenever it has one
dimension and its element type is a string or not primitive, constant or not; only for
a one-dimensional array of a fixed-width primitive does the emitter test
`lcm_is_constant_size_array` and leave the `resize` out. -/
theorem const_array_resized :
    lcm_is_constant_size_array member_m23 = true ∧
    member_declaration member_m23 = "        double     m[2][3];" ∧
    _decode_recursive member_m23 0 member_m23.dimensions =
      ["    this->m.resize(2);",
       "    for (int a0 = 0; a0 < 2; a0++) \x7b",
       "        tlen = __double_decode_array(buf, offset + pos, maxlen - pos, &this->m[a0][0], 3);",
       "        if(tlen < 0) return tlen; else pos += tlen;",
       "    \x7d"] ∧
    lcm_is_constant_size_array member_s3 = true ∧
    member_declaration member_s3 = "        std::string s[3];" ∧
    (_decode_recursive member_s3 0 member_s3.dimensions).head? =
      some "    this->s.resize(3);" ∧
    (∀ (lm : lcm_member_t) d d2 rest, lm.dimensions = d :: d2 :: rest →
      (_decode_recursive lm 0 lm.dimensions).head? =
        some (emit 1 ("this->" ++ lm.membername ++ loop_indices 0 ++ ".resize(" ++
          dim_size_prefix d.size ++ d.size ++ ");"))) ∧
    (∀ (lm : lcm_member_t) d, lm.dimensions = [d] →
      (lcm_is_primitive_type lm.type = false ∨ lm.type = "string") →
      (_decode_recursive lm 0 lm.dimensions).head? =
        some (emit 1 ("this->" ++ lm.membername ++ loop_indices 0 ++ ".resize(" ++
          dim_size_prefix d.size ++ d.size ++ ");"))) ∧
    _decode_recursive member_v4 0 member_v4.dimensions =
      ["    tlen = __int32_t_decode_array(buf, offset + pos, maxlen - pos, &this->v[0], 4);",
       "    if(tlen < 0) return tlen; else pos += tlen;"] := by
  refine ⟨by decide, by decide, by decide, by decide, by decide, by decide, ?_, ?_, by decide⟩
  · intro lm d d2 rest h
    rw [h]
    simp [_decode_recursive]
  · intro lm d h ht
    rw [h]
    rcases ht with ht | ht
    · simp [_decode_recursive, ht]
    · simp [_decode_recursive, ht]

/-- C30 (the code at the failing input). For `struct T { int32_t x; }` the body emitted
for `_encodeNoHash` assigns `tlen` and reads `pos` in its first statement and declares
neither, while the body emitted for `_decodeNoHash` starts with `int pos = 0, tlen;`.
For every struct with at least one member the text of `_encodeNoHash` starts with its
signature, the opening brace and an empty line, and that of `_decodeNoHash` with its
signature, the opening brace and the declaration. -/
theorem encoder_locals_undeclared :
    emit_encode_nohash ⟨"T", [⟨"int32_t", "x", []⟩], 0x1234⟩ =
      ["int T::_encodeNoHash(void *buf, int offset, int maxlen) const",
       "\x7b",
       "",
       "    tlen = __int32_t_encode_array(buf, offset + pos, maxlen - pos, &this->x, 1);",
       "    if(tlen < 0) return tlen; else pos += tlen;",
       " ",
       "    return pos;",
       "\x7d",
       " "] ∧
    emit_decode_nohash ⟨"T", [⟨"int32_t", "x", []⟩], 0x1234⟩ =
      ["int T::_decodeNoHash(const void *buf, int offset, int maxlen)",
       "\x7b",
       "    int pos = 0, tlen;",
       "",
       "    tlen = __int32_t_decode_array(buf, offset + pos, maxlen - pos, &this->x, 1);",
       "    if(tlen < 0) return tlen; else pos += tlen;",
       " ",
       "    return pos;",
       "\x7d",
       ""] ∧
    "    int pos = 0, tlen;" ∉ emit_encode_nohash ⟨"T", [⟨"int32_t", "x", []⟩], 0x1234⟩ ∧
    (∀ ls : lcm_struct_t, ls.members ≠ [] →
      (emit_encode_nohash ls).take 3 =
        [emit 0 ("int " ++ ls.structname ++
          "::_encodeNoHash(void *buf, int offset, int maxlen) const"), "\x7b", ""] ∧
      (emit_decode_nohash ls).take 3 =
        [emit 0 ("int " ++ ls.structname ++
          "::_decodeNoHash(const void *buf, int offset, int maxlen)"), "\x7b",
         "    int pos = 0, tlen;"]) := by
  refine ⟨by decide, by decide, by decide, ?_⟩
  intro ls h
  have hl : ls.members.length ≠ 0 := fun e => h (List.length_eq_zero.mp e)
  constructor
  · simp only [emit_encode_nohash, if_neg hl]
    rfl
  · simp only [emit_decode_nohash, if_neg hl]
    rfl
/-! ## Coherence of the cache -/

theorem mem_remove_fast_iff (a : GPtrArray) (x h : Nat) (hn : a.elems.Nodup) :
    h ∈ (g_ptr_array_remove_fast a x).1.elems ↔ h ∈ a.elems ∧ h ≠ x := by
  constructor
  · intro hm
    refine ⟨mem_remove_fast a x h hm, ?_⟩
    rintro rfl
    exact not_mem_remove_fast a h hn hm
  · rintro ⟨hm, hne⟩
    exact mem_remove_fast_of_ne a x h hm hne hn

theorem keys_map_fst (m : List (List Char × GPtrArray))
    (f : List Char × GPtrArray → List Char × GPtrArray) (hf : ∀ e, (f e).1 = e.1) :
    (m.map f).map Prod.fst = m.map Prod.fst := by
  induction m with
  | nil => rfl
  | cons e m ih => simp [hf, ih]

/-- Removing `x` from the master list and from every cached list keeps the cache
coherent, whatever happens to the record of `x`. -/
theorem coherent_remove (s t : lcm_t) (x : Nat) (w : WF s) (k : Coherent s)
    (hall : t.handlers_all.elems = s.handlers_all.elems.erase x)
    (hmap : t.handlers_map = s.handlers_map.map (map_remove_handler_callback x))
    (hderef : ∀ h, h ≠ x → t.deref h = s.deref h) : Coherent t := by
  refine ⟨?_, ?_⟩
  · rw [hmap, keys_map_fst _ (map_remove_handler_callback x) (fun e => rfl)]
    exact k.keys
  · intro e he h
    rw [hmap] at he
    obtain ⟨e0, he0, rfl⟩ := List.mem_map.mp he
    simp only [map_remove_handler_callback]
    rw [mem_remove_fast_iff _ _ _ (w.nodup_map e0 he0), k.cached e0 he0 h, hall,
      w.nodup_all.mem_erase_iff]
    constructor
    · rintro ⟨⟨hm, hs⟩, hne⟩
      exact ⟨⟨hne, hm⟩, by rw [hderef h hne]; exact hs⟩
    · rintro ⟨⟨hne, hm⟩, hs⟩
      exact ⟨⟨hm, by rw [← hderef h hne]; exact hs⟩, hne⟩

theorem coherent_unsubscribe (s : lcm_t) (x : Nat) (w : WF s) (k : Coherent s) :
    Coherent (lcm_unsubscribe s x).1 := by
  by_cases hx : x ∈ s.handlers_all.elems
  · exact coherent_remove s _ x w k (unsubscribe_all s x) (unsubscribe_map s x hx)
      (fun h hne => unsubscribe_deref_ne s x h hne)
  · rw [unsubscribe_eq]
    simp [hx]
    exact k

theorem coherent_dispatch_delete (s : lcm_t) (x : Nat) (w : WF s) (k : Coherent s) :
    Coherent (dispatch_delete s x) := by
  apply coherent_remove s _ x w k
  · simp only [dispatch_delete, lcm_handler_free]
    exact remove_elems _ _
  · rfl
  · intro h hne
    simp [dispatch_delete, lcm_handler_free, lcm_t.deref, List.getD_eq_getElem?_getD,
      List.getElem?_set_ne (Ne.symm hne)]

theorem coherent_subscribe (s : lcm_t) (p : List Char) (w : WF s) (k : Coherent s) :
    Coherent (lcm_subscribe s p).1 := by
  rcases subscribe_cases s p with ⟨_, h⟩ | ⟨preg, _, h⟩
  · rw [h]; exact k
  · rw [h]
    have hold : ∀ y ∈ s.handlers_all.elems,
        (s.heap ++ [(⟨p, preg, false, false⟩ : lcm_subscription_t)]).getD y zeroed =
          s.deref y := fun y hy => deref_append_old _ _ _ (w.bounded y hy)
    have hnew : (s.heap ++ [(⟨p, preg, false, false⟩ : lcm_subscription_t)]).getD
        s.heap.length zeroed = ⟨p, preg, false, false⟩ := by
      simp [List.getD_eq_getElem?_getD]
    have hfresh : s.heap.length ∉ s.handlers_all.elems :=
      fun hm => Nat.lt_irrefl _ (w.bounded _ hm)
    refine ⟨?_, ?_⟩
    · dsimp only
      rw [keys_map_fst _ (fun e : List Char × GPtrArray =>
          if is_handler_subscriber ⟨p, preg, false, false⟩ e.1
          then (e.1, g_ptr_array_add e.2 s.heap.length) else e)
        (fun e => by dsimp only; split <;> rfl)]
      exact k.keys
    · intro e he h
      dsimp only at he ⊢
      obtain ⟨e0, he0, rfl⟩ := List.mem_map.mp he
      simp only [lcm_t.deref, g_ptr_array_add, List.mem_append, List.mem_singleton]
      by_cases hm : is_handler_subscriber ⟨p, preg, false, false⟩ e0.1 = true
      · simp only [hm, if_true, List.mem_append, List.mem_singleton]
        constructor
        · rintro (hin | rfl)
          · have := (k.cached e0 he0 h).mp hin
            exact ⟨Or.inl this.1, by rw [hold h this.1]; exact this.2⟩
          · exact ⟨Or.inr rfl, by rw [hnew]; exact hm⟩
        · rintro ⟨hin | rfl, hs⟩
          · left
            rw [hold h hin] at hs
            exact (k.cached e0 he0 h).mpr ⟨hin, hs⟩
          · right; rfl
      · simp only [hm, if_false, Bool.false_eq_true]
        constructor
        · intro hin
          have := (k.cached e0 he0 h).mp hin
          exact ⟨Or.inl this.1, by rw [hold h this.1]; exact this.2⟩
        · rintro ⟨hin | rfl, hs⟩
          · rw [hold h hin] at hs
            exact (k.cached e0 he0 h).mpr ⟨hin, hs⟩
          · rw [hnew] at hs
            exact absurd hs hm

theorem lookup_none_not_key (m : List (List Char × GPtrArray)) (c : List Char)
    (h : m.lookup c = none) : c ∉ m.map Prod.fst := by
  induction m with
  | nil => simp
  | cons e m ih =>
    obtain ⟨a, b⟩ := e
    rw [List.lookup_cons] at h
    by_cases hca : c = a
    · subst hca
      simp at h
    · have hb : (c == a) = false := by simpa using hca
      rw [hb] at h
      simp only [List.map_cons, List.mem_cons, not_or]
      exact ⟨hca, ih h⟩

theorem coherent_get_handlers (s : lcm_t) (c : List Char) (k : Coherent s) :
    Coherent (lcm_get_handlers s c).1 := by
  rcases get_handlers_cases s c with ⟨a, _, h⟩ | ⟨hl, h⟩
  · rw [h]; exact k
  · rw [h]
    refine ⟨?_, ?_⟩
    · dsimp only
      rw [List.map_append, List.nodup_append]
      refine ⟨k.keys, by simp, ?_⟩
      intro a ha hb
      simp only [List.map_cons, List.map_nil, List.mem_singleton] at hb
      subst hb
      exact lookup_none_not_key _ _ hl ha
    · intro e he x
      dsimp only at he ⊢
      simp only [List.mem_append, List.mem_singleton] at he
      rcases he with he | he
      · exact k.cached e he x
      · subst he
        simp only [List.mem_filter]
        rfl

theorem set_callback_scheduled_preg (s : lcm_t) (h y : Nat) (v : Bool) :
    ((set_callback_scheduled s h v).deref y).preg = (s.deref y).preg := by
  simp only [set_callback_scheduled, lcm_t.deref, List.getD_eq_getElem?_getD]
  by_cases hy : y = h
  · subst hy
    by_cases hb : y < s.heap.length
    · simp [hb]
    · have h1 : (s.heap.set y { s.heap[y]?.getD zeroed with callback_scheduled := v })[y]? = none := by
        rw [List.getElem?_eq_none]; simpa using Nat.le_of_not_lt hb
      have h2 : s.heap[y]? = none := List.getElem?_eq_none (Nat.le_of_not_lt hb)
      rw [h1, h2]
  · rw [List.getElem?_set_ne (Ne.symm hy)]

theorem coherent_set_callback_scheduled (s : lcm_t) (h : Nat) (v : Bool) (k : Coherent s) :
    Coherent (set_callback_scheduled s h v) := by
  refine ⟨k.keys, ?_⟩
  intro e he x
  have := k.cached e he x
  simp only [is_handler_subscriber, set_callback_scheduled_preg] at this ⊢
  exact this

theorem coherent_run_calls (cs : List Call) (s : lcm_t) (w : WF s) (k : Coherent s) :
    Coherent (run_calls s cs).1 := by
  induction cs generalizing s with
  | nil => exact k
  | cons c cs ih =>
    cases c with
    | subscribe p => exact ih _ (wf_subscribe s p w) (coherent_subscribe s p w k)
    | unsubscribe x => exact ih _ (wf_unsubscribe s x w) (coherent_unsubscribe s x w k)

theorem coherent_dispatch (hs : Handlers) (s : lcm_t) (c : List Char) (w : WF s)
    (k : Coherent s) : Coherent (lcm_dispatch_handlers hs s c).1 := by
  simp only [lcm_dispatch_handlers]
  have key : ∀ (l : List Nat) (t : lcm_t), WF t ∧ Coherent t →
      WF (l.foldl dispatch_delete t) ∧ Coherent (l.foldl dispatch_delete t) := by
    intro l
    induction l with
    | nil => exact fun t h => h
    | cons a l ih =>
      intro t h
      exact ih _ ⟨wf_dispatch_delete t a h.1, coherent_dispatch_delete t a h.1 h.2⟩
  refine (key _ _ ?_).2
  apply foldl_range_induction (dispatch_unref c) (fun _ st => WF st.1 ∧ Coherent st.1)
  · apply foldl_range_induction (dispatch_call hs c) (fun _ st => WF st.1 ∧ Coherent st.1)
    · apply foldl_range_induction (dispatch_ref c) (fun _ st => WF st ∧ Coherent st)
      · exact ⟨wf_get_handlers s c w, coherent_get_handlers s c k⟩
      · intro i st _ h
        refine ⟨wf_dispatch_ref c st i h.1, ?_⟩
        unfold dispatch_ref
        split
        · exact coherent_set_callback_scheduled _ _ _ h.2
        · exact h.2
    · intro i st _ h
      refine ⟨wf_dispatch_call hs c st i h.1, ?_⟩
      unfold dispatch_call
      split
      · split
        · exact coherent_run_calls _ _ h.1 h.2
        · exact h.2
      · exact h.2
  · intro i st _ h
    refine ⟨wf_dispatch_unref c st i h.1, ?_⟩
    unfold dispatch_unref
    split
    · dsimp only
      split <;> exact coherent_set_callback_scheduled _ _ _ h.2
    · exact h.2

theorem coherent_run_step (s : lcm_t) (st : Step) (w : WF s) (k : Coherent s) :
    Coherent (run_step s st).1 := by
  cases st with
  | subscribe p => exact coherent_subscribe s p w k
  | unsubscribe x => exact coherent_unsubscribe s x w k
  | get_handlers c => exact coherent_get_handlers s c k
  | has_handlers c =>
    simp only [run_step, lcm_has_handlers]
    split <;> exact coherent_get_handlers s c k
  | dispatch hs c => exact coherent_dispatch hs s c w k

theorem coherent_run_steps (steps : List Step) (s : lcm_t) (w : WF s) (k : Coherent s) :
    Coherent (run_steps s steps).1 := by
  induction steps generalizing s with
  | nil => exact k
  | cons st steps ih => exact ih _ (wf_run_step s st w) (coherent_run_step s st w k)

theorem coherent_create : Coherent lcm_create_registry := by
  refine ⟨?_, ?_⟩ <;> simp [lcm_create_registry]

theorem get_handlers_again (s : lcm_t) (c : List Char) :
    lcm_get_handlers (lcm_get_handlers s c).1 c =
      ((lcm_get_handlers s c).1, (lcm_get_handlers s c).2) := by
  rcases get_handlers_cases s c with ⟨a, hl, h⟩ | ⟨hl, h⟩
  · rw [h]
    exact h
  · rw [h]
    simp only [lcm_get_handlers, List.lookup_append, hl, Option.none_or]
    simp [List.lookup_cons]
/-- C24. In every registry state reached from `lcm_create` by subscribes, unsubscribes,
lookups and dispatches: the list cached for a channel has no duplicates and holds
exactly the subscriptions of the master list whose pattern matches the channel, and no
channel is cached twice; `lcm_get_handlers` on a channel that is not cached returns the
subscriptions of the master list that match, in the order of the master list, and adds
that list to the cache under the channel, changing nothing else; and a second
`lcm_get_handlers` on the same channel returns the same list and changes nothing. -/
theorem cache_coherence (pre : List Step) (c : List Char) :
    (∀ e ∈ (run_steps lcm_create_registry pre).1.handlers_map,
      e.2.elems.Nodup ∧ ∀ h, h ∈ e.2.elems ↔
        (h ∈ (run_steps lcm_create_registry pre).1.handlers_all.elems ∧
          is_handler_subscriber ((run_steps lcm_create_registry pre).1.deref h) e.1 = true)) ∧
    ((run_steps lcm_create_registry pre).1.handlers_map.map Prod.fst).Nodup ∧
    ((run_steps lcm_create_registry pre).1.handlers_map.lookup c = none →
      lcm_get_handlers (run_steps lcm_create_registry pre).1 c =
        ({ (run_steps lcm_create_registry pre).1 with
            handlers_map := (run_steps lcm_create_registry pre).1.handlers_map ++
              [(c, ⟨(run_steps lcm_create_registry pre).1.handlers_all.elems.filter
                (fun h => is_handler_subscriber
                  ((run_steps lcm_create_registry pre).1.deref h) c), []⟩)] },
          ⟨(run_steps lcm_create_registry pre).1.handlers_all.elems.filter
            (fun h => is_handler_subscriber
              ((run_steps lcm_create_registry pre).1.deref h) c), []⟩)) ∧
    lcm_get_handlers (lcm_get_handlers (run_steps lcm_create_registry pre).1 c).1 c =
      ((lcm_get_handlers (run_steps lcm_create_registry pre).1 c).1,
        (lcm_get_handlers (run_steps lcm_create_registry pre).1 c).2) := by
  have w : WF (run_steps lcm_create_registry pre).1 := wf_run_steps pre _ wf_create
  have k : Coherent (run_steps lcm_create_registry pre).1 :=
    coherent_run_steps pre _ wf_create coherent_create
  generalize (run_steps lcm_create_registry pre).1 = s at w k ⊢
  refine ⟨fun e he => ⟨w.nodup_map e he, k.cached e he⟩, k.keys, ?_, get_handlers_again s c⟩
  intro hl
  rcases get_handlers_cases s c with ⟨a, hl2, _⟩ | ⟨_, h⟩
  · rw [hl] at hl2
    cases hl2
  · exact h

theorem cache_coherence_witness :
    lcm_get_handlers (run_steps lcm_create_registry
        [Step.subscribe "A".toList, Step.subscribe "B".toList, Step.subscribe "A|B".toList,
         Step.get_handlers "B".toList, Step.unsubscribe 1]).1 "A".toList =
      ({ (run_steps lcm_create_registry
          [Step.subscribe "A".toList, Step.subscribe "B".toList, Step.subscribe "A|B".toList,
           Step.get_handlers "B".toList, Step.unsubscribe 1]).1 with
          handlers_map := [("B".toList, ⟨[2], [2]⟩), ("A".toList, ⟨[0, 2], []⟩)] },
        ⟨[0, 2], []⟩) :=
  (cache_coherence
    [Step.subscribe "A".toList, Step.subscribe "B".toList, Step.subscribe "A|B".toList,
     Step.get_handlers "B".toList, Step.unsubscribe 1] "A".toList).2.2.1 (by decide)
/-! ## Flags after a dispatch -/

theorem mem_take_of_indexOf (l : List Nat) (x n : Nat) (hx : x ∈ l) (hi : l.indexOf x < n) :
    x ∈ l.take n := by
  rw [mem_take_iff_index]
  refine ⟨l.indexOf x, hi, ?_⟩
  have hlt : l.indexOf x < l.length := List.indexOf_lt_length.mpr hx
  rw [List.getElem?_eq_getElem hlt]
  simp

theorem take_add (a : GPtrArray) (d n x : Nat) (h : x ∈ a.elems.take n) :
    x ∈ (g_ptr_array_add a d).elems.take n := by
  simp only [g_ptr_array_add, List.take_append_eq_append_take, List.mem_append]
  exact Or.inl h

theorem take_remove_fast (a : GPtrArray) (y x n : Nat) (hn : a.elems.Nodup)
    (hx : x ∈ a.elems.take n) (hxy : x ≠ y) :
    x ∈ (g_ptr_array_remove_fast a y).1.elems.take n := by
  by_cases hy : y ∈ a.elems
  · obtain ⟨i, hi, hxi⟩ := (mem_take_iff_index a.elems n x).mp hx
    have hil : i < a.elems.length := by
      by_contra hc
      rw [List.getElem?_eq_none (Nat.le_of_not_lt hc)] at hxi
      cases hxi
    have hslot : g_ptr_array_index a i = some x := by
      simp only [g_ptr_array_index, GPtrArray.slots, List.get?_eq_getElem?]
      rw [List.getElem?_append_left hil]
      exact hxi
    have hne : i ≠ a.elems.indexOf y := by
      intro he
      have hlt : a.elems.indexOf y < a.elems.length := List.indexOf_lt_length.mpr hy
      rw [he, List.getElem?_eq_getElem hlt] at hxi
      simp at hxi
      exact hxy hxi.symm
    have hslot2 : g_ptr_array_index (g_ptr_array_remove_fast a y).1 i = some x := by
      rw [index_remove_fast a y i hy, if_neg hne]
      exact hslot
    have hmem : x ∈ (g_ptr_array_remove_fast a y).1.elems :=
      mem_remove_fast_of_ne a y x (List.mem_of_mem_take hx) hxy hn
    have hle := indexOf_le_of_slot _ x i hslot2 hmem
    exact mem_take_of_indexOf _ _ _ hmem (by omega)
  · rw [remove_fast_not_mem a y hy]
    exact hx

theorem deref_set_callback_scheduled_ne (s : lcm_t) (h x : Nat) (v : Bool) (hx : x ≠ h) :
    (set_callback_scheduled s h v).deref x = s.deref x := by
  simp only [set_callback_scheduled, lcm_t.deref, List.getD_eq_getElem?_getD]
  rw [List.getElem?_set_ne (Ne.symm hx)]

theorem deref_set_callback_scheduled_false (s : lcm_t) (h : Nat) :
    ((set_callback_scheduled s h false).deref h).callback_scheduled = false := by
  simp only [set_callback_scheduled, lcm_t.deref, List.getD_eq_getElem?_getD]
  by_cases hb : h < s.heap.length
  · simp [hb]
  · have h1 : (s.heap.set h { s.heap[h]?.getD zeroed with callback_scheduled := false })[h]? =
        none := by
      rw [List.getElem?_eq_none]; simpa using Nat.le_of_not_lt hb
    rw [h1]
    rfl

theorem handlers_of_nodup (s : lcm_t) (c : List Char) (w : WF s) :
    (s.handlers_of c).elems.Nodup := by
  rcases handlers_of_mem s c with hc | hc
  · rw [hc]; simp [g_ptr_array_new]
  · exact w.nodup_map _ hc

theorem tracked_subscribe (n : Nat) (c : List Char) (s : lcm_t) (p : List Char) (w : WF s)
    (t : Tracked n c s) : Tracked n c (lcm_subscribe s p).1 := by
  intro x hx hf
  have hof := handlers_of_subscribe s p c
  rcases subscribe_cases s p with ⟨_, h⟩ | ⟨preg, _, h⟩
  · rw [h] at hx hf ⊢
    exact t x hx hf
  · have hold : x ∈ s.handlers_all.elems ∧ (s.deref x).callback_scheduled = true := by
      rw [h] at hx hf
      simp only [g_ptr_array_add, List.mem_append, List.mem_singleton, lcm_t.deref] at hx hf
      rcases hx with hx | hx
      · refine ⟨hx, ?_⟩
        rw [deref_append_old _ _ _ (w.bounded x hx)] at hf
        exact hf
      · subst hx
        simp [List.getD_eq_getElem?_getD] at hf
    rcases hof with hof | hof
    · rw [hof]
      exact t x hold.1 hold.2
    · rw [hof]
      exact take_add _ _ _ _ (t x hold.1 hold.2)

theorem tracked_unsubscribe (n : Nat) (c : List Char) (s : lcm_t) (y : Nat) (w : WF s)
    (t : Tracked n c s) : Tracked n c (lcm_unsubscribe s y).1 := by
  by_cases hy : y ∈ s.handlers_all.elems
  · intro x hx hf
    rw [unsubscribe_all, w.nodup_all.mem_erase_iff] at hx
    rw [unsubscribe_deref_ne s y x hx.1] at hf
    rw [handlers_of_unsubscribe s y c hy]
    exact take_remove_fast _ _ _ _ (handlers_of_nodup s c w) (t x hx.2 hf) hx.1
  · rw [unsubscribe_eq]
    simp only [hy, if_false]
    exact t

theorem tracked_run_calls (n : Nat) (c : List Char) (cs : List Call) (s : lcm_t) (w : WF s)
    (t : Tracked n c s) : Tracked n c (run_calls s cs).1 := by
  induction cs generalizing s with
  | nil => exact t
  | cons a cs ih =>
    cases a with
    | subscribe p => exact ih _ (wf_subscribe s p w) (tracked_subscribe n c s p w t)
    | unsubscribe x => exact ih _ (wf_unsubscribe s x w) (tracked_unsubscribe n c s x w t)

theorem tracked_after_ref (s : lcm_t) (c : List Char)
    (h0 : ∀ x ∈ s.handlers_all.elems, (s.deref x).callback_scheduled = false) :
    Tracked (s.handlers_of c).len c
      ((List.range (s.handlers_of c).len).foldl (dispatch_ref c) s) := by
  have h1 := foldl_range_induction (dispatch_ref c)
    (fun _ st => st.handlers_all = s.handlers_all ∧ st.handlers_of c = s.handlers_of c ∧
      ∀ x, (st.deref x).callback_scheduled = true →
        (s.deref x).callback_scheduled = true ∨ x ∈ (s.handlers_of c).elems)
    (s.handlers_of c).len s ⟨rfl, rfl, fun x hx => Or.inl hx⟩
    (by
      intro i st hi hp
      have hidx : g_ptr_array_index (st.handlers_of c) i = some (s.handlers_of c).elems[i] := by
        rw [hp.2.1]
        simp only [g_ptr_array_index, GPtrArray.slots, List.get?_eq_getElem?]
        rw [List.getElem?_append_left hi]
        exact List.getElem?_eq_getElem hi
      refine ⟨by rw [handlers_all_dispatch_ref]; exact hp.1,
        by rw [handlers_of_dispatch_ref]; exact hp.2.1, ?_⟩
      intro x hx
      simp only [dispatch_ref, hidx] at hx
      by_cases hxe : x = (s.handlers_of c).elems[i]
      · right
        rw [hxe]
        exact List.getElem_mem _
      · rw [deref_set_callback_scheduled_ne _ _ _ _ hxe] at hx
        exact hp.2.2 x hx)
  intro x hx hf
  rw [h1.1] at hx
  rw [h1.2.1]
  rcases h1.2.2 x hf with h | h
  · rw [h0 x hx] at h
    cases h
  · have : (s.handlers_of c).elems.take (s.handlers_of c).len = (s.handlers_of c).elems :=
      List.take_length _
    rw [this]
    exact h

theorem tracked_dispatch_call (n : Nat) (hs : Handlers) (c : List Char)
    (st : lcm_t × List Event) (i : Nat) (w : WF st.1) (t : Tracked n c st.1) :
    Tracked n c (dispatch_call hs c st i).1 := by
  unfold dispatch_call
  split
  · split
    · exact tracked_run_calls n c _ _ w t
    · exact t
  · exact t

theorem dispatch_unref_fst (c : List Char) (st : lcm_t × List Nat) (i : Nat) :
    (dispatch_unref c st i).1 =
      match g_ptr_array_index (st.1.handlers_of c) i with
      | some h => set_callback_scheduled st.1 h false
      | none => st.1 := by
  unfold dispatch_unref
  cases g_ptr_array_index (st.1.handlers_of c) i with
  | none => rfl
  | some h =>
    dsimp only
    split <;> rfl

theorem unscheduled_after_unref (s : lcm_t) (c : List Char) (n : Nat) (t : Tracked n c s)
    (init : List Nat) :
    ∀ x ∈ ((List.range n).foldl (dispatch_unref c) (s, init)).1.handlers_all.elems,
      (((List.range n).foldl (dispatch_unref c) (s, init)).1.deref x).callback_scheduled =
        false := by
  have h1 := foldl_range_induction (dispatch_unref c)
    (fun k st => st.1.handlers_all = s.handlers_all ∧ st.1.handlers_of c = s.handlers_of c ∧
      ∀ x, (st.1.deref x).callback_scheduled = true →
        (s.deref x).callback_scheduled = true ∧ x ∉ (s.handlers_of c).slots.take k)
    n (s, init) ⟨rfl, rfl, fun x hx => ⟨hx, by simp⟩⟩
    (by
      intro i st _ hp
      rw [dispatch_unref_fst, hp.2.1]
      cases hidx : g_ptr_array_index (s.handlers_of c) i with
      | none =>
        refine ⟨hp.1, hp.2.1, ?_⟩
        intro x hx
        refine ⟨(hp.2.2 x hx).1, ?_⟩
        simp only [g_ptr_array_index, List.get?_eq_getElem?] at hidx
        rw [List.take_succ, hidx]
        simpa using (hp.2.2 x hx).2
      | some h =>
        refine ⟨hp.1, hp.2.1, ?_⟩
        intro x hx
        dsimp only at hx
        have hxh : x ≠ h := by
          rintro rfl
          rw [deref_set_callback_scheduled_false] at hx
          cases hx
        rw [deref_set_callback_scheduled_ne _ _ _ _ hxh] at hx
        refine ⟨(hp.2.2 x hx).1, ?_⟩
        simp only [g_ptr_array_index, List.get?_eq_getElem?] at hidx
        rw [List.take_succ, hidx]
        simp only [Option.toList, List.mem_append, List.mem_singleton, not_or]
        exact ⟨(hp.2.2 x hx).2, hxh⟩)
  intro x hx
  rw [h1.1] at hx
  by_contra hf
  have hf2 : (((List.range n).foldl (dispatch_unref c) (s, init)).1.deref x).callback_scheduled =
      true := by simpa using hf
  obtain ⟨hs, hnot⟩ := h1.2.2 x hf2
  apply hnot
  have := t x hx hs
  simp only [GPtrArray.slots, List.take_append_eq_append_take, List.mem_append]
  exact Or.inl this

theorem unscheduled_foldl_delete (l : List Nat) (s : lcm_t)
    (h : ∀ x ∈ s.handlers_all.elems, (s.deref x).callback_scheduled = false) :
    ∀ x ∈ (l.foldl dispatch_delete s).handlers_all.elems,
      ((l.foldl dispatch_delete s).deref x).callback_scheduled = false := by
  induction l generalizing s with
  | nil => exact h
  | cons a l ih =>
    apply ih
    intro x hx
    have hx2 : x ∈ s.handlers_all.elems := by
      simp only [dispatch_delete, lcm_handler_free] at hx
      rw [remove_elems] at hx
      exact List.mem_of_mem_erase hx
    by_cases hxa : x = a
    · subst hxa
      by_cases hb : x < s.heap.length
      · simp only [dispatch_delete, lcm_handler_free, lcm_t.deref]
        rw [deref_set_self s x _ hb]
        rfl
      · have : (dispatch_delete s x).deref x = s.deref x := by
          simp only [dispatch_delete, lcm_handler_free, lcm_t.deref, List.getD_eq_getElem?_getD]
          rw [List.getElem?_eq_none (by simpa using Nat.le_of_not_lt hb),
            List.getElem?_eq_none (Nat.le_of_not_lt hb)]
        rw [this]
        exact h x hx2
    · have : (dispatch_delete s a).deref x = s.deref x := by
        simp only [dispatch_delete, lcm_handler_free, lcm_t.deref, List.getD_eq_getElem?_getD]
        rw [List.getElem?_set_ne (Ne.symm hxa)]
      rw [this]
      exact h x hx2
/-- C28. In every registry state reached from `lcm_create` by subscribes, unsubscribes,
lookups and dispatches in which no subscription of the master list has
`callback_scheduled` set, for every channel and whatever calls of `lcm_subscribe` and
`lcm_unsubscribe` the handlers make: when `lcm_dispatch_handlers` returns, every
subscription in the master list has `callback_scheduled = 0` and
`marked_for_deletion = 0`. -/
theorem dispatch_leaves_none_scheduled (pre : List Step) (hs : Handlers) (c : List Char)
    (h0 : ∀ x ∈ (run_steps lcm_create_registry pre).1.handlers_all.elems,
      ((run_steps lcm_create_registry pre).1.deref x).callback_scheduled = false) :
    ∀ x ∈ (lcm_dispatch_handlers hs (run_steps lcm_create_registry pre).1 c).1.handlers_all.elems,
      ((lcm_dispatch_handlers hs (run_steps lcm_create_registry pre).1 c).1.deref
        x).callback_scheduled = false ∧
      ((lcm_dispatch_handlers hs (run_steps lcm_create_registry pre).1 c).1.deref
        x).marked_for_deletion = false := by
  have w : WF (run_steps lcm_create_registry pre).1 := wf_run_steps pre _ wf_create
  generalize (run_steps lcm_create_registry pre).1 = s at w h0 ⊢
  intro x hx
  refine ⟨?_, (wf_dispatch hs s c w).unmarked x hx⟩
  revert x
  simp only [lcm_dispatch_handlers]
  apply unscheduled_foldl_delete
  apply unscheduled_after_unref
  have w0 := wf_get_handlers s c w
  have h1 : ∀ x ∈ (lcm_get_handlers s c).1.handlers_all.elems,
      ((lcm_get_handlers s c).1.deref x).callback_scheduled = false := by
    intro x hx
    have hf := get_handlers_frame s c
    rw [hf.2] at hx
    simp only [lcm_t.deref, hf.1]
    exact h0 x hx
  have h2 := foldl_range_induction (dispatch_call hs c)
    (fun _ st => WF st.1 ∧ Tracked ((lcm_get_handlers s c).1.handlers_of c).len c st.1)
    ((lcm_get_handlers s c).1.handlers_of c).len
    ((List.range ((lcm_get_handlers s c).1.handlers_of c).len).foldl (dispatch_ref c)
      (lcm_get_handlers s c).1, [])
    ⟨(scheduled_after_ref _ c w0).1, tracked_after_ref _ c h1⟩
    (fun i st _ hp => ⟨wf_dispatch_call hs c st i hp.1,
      tracked_dispatch_call _ hs c st i hp.1 hp.2⟩)
  exact h2.2

theorem dispatch_leaves_none_scheduled_witness :
    ((lcm_dispatch_handlers
        (fun _ h => if h = 0 then [Call.unsubscribe 1, Call.subscribe "X".toList] else [])
        (run_steps lcm_create_registry
          [Step.subscribe "X".toList, Step.subscribe "X".toList, Step.subscribe "X".toList]).1
        "X".toList).1.deref 3).callback_scheduled = false ∧
    ((lcm_dispatch_handlers
        (fun _ h => if h = 0 then [Call.unsubscribe 1, Call.subscribe "X".toList] else [])
        (run_steps lcm_create_registry
          [Step.subscribe "X".toList, Step.subscribe "X".toList, Step.subscribe "X".toList]).1
        "X".toList).1.deref 3).marked_for_deletion = false :=
  dispatch_leaves_none_scheduled
    [Step.subscribe "X".toList, Step.subscribe "X".toList, Step.subscribe "X".toList]
    (fun _ h => if h = 0 then [Call.unsubscribe 1, Call.subscribe "X".toList] else [])
    "X".toList (by decide) 3 (by decide)

/-- C25 (the code at the failing input). Two subscriptions to `X` and a frame on `X`
during which the handler of subscription 0 unsubscribes itself: `lcm_unsubscribe`
returns 0 and frees nothing, and when `lcm_dispatch_handlers` returns no record has been
passed to `lcm_handler_free`; record 0 is out of every list and still has
`callback_scheduled` and `marked_for_deletion` set. Three subscriptions to `X` and a
frame during which every handler unsubscribes itself: when `lcm_dispatch_handlers`
returns, record 2 has been passed to `lcm_handler_free` twice, record 1 once and record
0 never. -/
theorem deferred_deletion_not_once :
    (lcm_unsubscribe (set_callback_scheduled (set_callback_scheduled
        (run_steps lcm_create_registry
          [Step.subscribe "X".toList, Step.subscribe "X".toList,
           Step.get_handlers "X".toList]).1 0 true) 1 true) 0).2 = 0 ∧
    (lcm_unsubscribe (set_callback_scheduled (set_callback_scheduled
        (run_steps lcm_create_registry
          [Step.subscribe "X".toList, Step.subscribe "X".toList,
           Step.get_handlers "X".toList]).1 0 true) 1 true) 0).1.freed = [] ∧
    (lcm_dispatch_handlers (fun _ h => if h = 0 then [Call.unsubscribe 0] else [])
        (run_steps lcm_create_registry
          [Step.subscribe "X".toList, Step.subscribe "X".toList]).1 "X".toList).2 =
      [Event.handler 0, Event.unsubscribe 0 0, Event.handler 1] ∧
    (lcm_dispatch_handlers (fun _ h => if h = 0 then [Call.unsubscribe 0] else [])
        (run_steps lcm_create_registry
          [Step.subscribe "X".toList, Step.subscribe "X".toList]).1 "X".toList).1.freed = [] ∧
    (lcm_dispatch_handlers (fun _ h => if h = 0 then [Call.unsubscribe 0] else [])
        (run_steps lcm_create_registry
          [Step.subscribe "X".toList, Step.subscribe "X".toList]).1 "X".toList).1.handlers_all.elems =
      [1] ∧
    ((lcm_dispatch_handlers (fun _ h => if h = 0 then [Call.unsubscribe 0] else [])
        (run_steps lcm_create_registry
          [Step.subscribe "X".toList, Step.subscribe "X".toList]).1 "X".toList).1.deref
      0).callback_scheduled = true ∧
    ((lcm_dispatch_handlers (fun _ h => if h = 0 then [Call.unsubscribe 0] else [])
        (run_steps lcm_create_registry
          [Step.subscribe "X".toList, Step.subscribe "X".toList]).1 "X".toList).1.deref
      0).marked_for_deletion = true ∧
    (lcm_dispatch_handlers (fun _ h => [Call.unsubscribe h])
        (run_steps lcm_create_registry
          [Step.subscribe "X".toList, Step.subscribe "X".toList,
           Step.subscribe "X".toList]).1 "X".toList).2 =
      [Event.handler 0, Event.unsubscribe 0 0, Event.handler 1, Event.unsubscribe 1 0,
       Event.handler 2, Event.unsubscribe 2 0] ∧
    (lcm_dispatch_handlers (fun _ h => [Call.unsubscribe h])
        (run_steps lcm_create_registry
          [Step.subscribe "X".toList, Step.subscribe "X".toList,
           Step.subscribe "X".toList]).1 "X".toList).1.freed = [2, 1, 2] := by
  decide

end Lcm
